import Mathlib

/-!
# Verification of the bencodec encoder/decoder

A shallow embedding of the bencodec repository (`src/src/*.ts`): the byte
utility (`bytes.ts`), the recursive-descent decoder (`BencodeDecoder.ts`),
the canonical encoder (`BencodeEncoder.ts`), the public wrappers
(`index.ts`) and the error taxonomy (`errors.ts`).

JavaScript strings are modelled as lists of UTF-16 code units; byte
buffers as lists of naturals below 256.  Host primitives the code calls
(TextEncoder/TextDecoder, `Array.prototype.sort`, object property order,
`Math.trunc`, `String(number)`) are modelled from their ECMAScript/WHATWG
contracts.
-/

namespace Bencodec

/-! ## Byte constants (`FLAG` enum, src/src/types.ts) -/

def FLAG_INTEGER : Nat := 0x69
def FLAG_STR_DELIMITER : Nat := 0x3a
def FLAG_LIST : Nat := 0x6c
def FLAG_DICTIONARY : Nat := 0x64
def FLAG_END : Nat := 0x65
def FLAG_MINUS : Nat := 0x2d
def FLAG_PLUS : Nat := 0x2b
def FLAG_DOT : Nat := 0x2e

/-- A JavaScript string: a list of UTF-16 code units (each `< 0x10000`). -/
abbrev JSString := List Nat

def isHighSurrogate (u : Nat) : Bool := 0xD800 ≤ u && u ≤ 0xDBFF
def isLowSurrogate (u : Nat) : Bool := 0xDC00 ≤ u && u ≤ 0xDFFF

/-- UTF-8 bytes of a single Unicode code point. -/
def utf8EncodeCp (cp : Nat) : List Nat :=
  if cp < 0x80 then [cp]
  else if cp < 0x800 then [0xC0 + cp / 64, 0x80 + cp % 64]
  else if cp < 0x10000 then [0xE0 + cp / 4096, 0x80 + cp / 64 % 64, 0x80 + cp % 64]
  else [0xF0 + cp / 262144, 0x80 + cp / 4096 % 64, 0x80 + cp / 64 % 64, 0x80 + cp % 64]

/-- The iteration of TextEncoder's UTF-16-to-code-points conversion:
surrogate pairs are combined, lone surrogates become U+FFFD (WHATWG
contract).  `fuel` only makes the recursion structural; every step consumes
at least one unit, so the zero-fuel arm is unreachable from
`utf16ToCodepoints` (fuel starts at the list length) and is given the
value the loop would produce there (the list is empty when it is reached).
-/
def utf16Loop : Nat → List Nat → List Nat
  | _, [] => []
  | 0, _ => []
  | fuel + 1, u :: rest =>
    if isHighSurrogate u then
      match rest with
      | v :: rest2 =>
        if isLowSurrogate v then
          (0x10000 + (u - 0xD800) * 1024 + (v - 0xDC00)) :: utf16Loop fuel rest2
        else 0xFFFD :: utf16Loop fuel rest
      | [] => [0xFFFD]
    else if isLowSurrogate u then 0xFFFD :: utf16Loop fuel rest
    else u :: utf16Loop fuel rest

/-- TextEncoder's conversion of UTF-16 code units to code points. -/
def utf16ToCodepoints (s : List Nat) : List Nat := utf16Loop s.length s

/-- TextEncoder: UTF-8 bytes of a JS string. -/
def utf8Encode (s : JSString) : List Nat :=
  ((utf16ToCodepoints s).map utf8EncodeCp).flatten

def isCont (b : Nat) : Bool := 0x80 ≤ b && b ≤ 0xBF

/-- UTF-16 code units of a code point (surrogate pair above U+FFFF). -/
def cpToUtf16 (cp : Nat) : List Nat :=
  if cp < 0x10000 then [cp]
  else [0xD800 + (cp - 0x10000) / 1024, 0xDC00 + (cp - 0x10000) % 1024]

/-- The iteration of TextDecoder's UTF-8 decoder (WHATWG): well-formed
sequences decode to their code point, errors produce U+FFFD and resume at
the offending byte.  `fuel` only makes the recursion structural; every
step consumes at least one byte, so the zero-fuel arm is unreachable from
`utf8DecodeRaw`. -/
def utf8Loop : Nat → List Nat → List Nat
  | _, [] => []
  | 0, _ => []
  | fuel + 1, b :: rest =>
    if b < 0x80 then b :: utf8Loop fuel rest
    else if b < 0xC2 then 0xFFFD :: utf8Loop fuel rest
    else if b < 0xE0 then
      match rest with
      | c :: rest2 =>
        if isCont c then ((b - 0xC0) * 64 + (c - 0x80)) :: utf8Loop fuel rest2
        else 0xFFFD :: utf8Loop fuel rest
      | [] => [0xFFFD]
    else if b < 0xF0 then
      match rest with
      | c :: rest2 =>
        if (if b = 0xE0 then decide (0xA0 ≤ c) && decide (c ≤ 0xBF)
            else if b = 0xED then decide (0x80 ≤ c) && decide (c ≤ 0x9F)
            else isCont c) then
          match rest2 with
          | d :: rest3 =>
            if isCont d then
              ((b - 0xE0) * 4096 + (c - 0x80) * 64 + (d - 0x80)) :: utf8Loop fuel rest3
            else 0xFFFD :: utf8Loop fuel rest2
          | [] => [0xFFFD]
        else 0xFFFD :: utf8Loop fuel rest
      | [] => [0xFFFD]
    else if b < 0xF5 then
      match rest with
      | c :: rest2 =>
        if (if b = 0xF0 then decide (0x90 ≤ c) && decide (c ≤ 0xBF)
            else if b = 0xF4 then decide (0x80 ≤ c) && decide (c ≤ 0x8F)
            else isCont c) then
          match rest2 with
          | d :: rest3 =>
            if isCont d then
              match rest3 with
              | f :: rest4 =>
                if isCont f then
                  cpToUtf16 ((b - 0xF0) * 262144 + (c - 0x80) * 4096 + (d - 0x80) * 64 + (f - 0x80))
                    ++ utf8Loop fuel rest4
                else 0xFFFD :: utf8Loop fuel rest3
              | [] => [0xFFFD]
            else 0xFFFD :: utf8Loop fuel rest2
          | [] => [0xFFFD]
        else 0xFFFD :: utf8Loop fuel rest
      | [] => [0xFFFD]
    else 0xFFFD :: utf8Loop fuel rest

/-- TextDecoder's UTF-8 decoder. -/
def utf8DecodeRaw (bs : List Nat) : List Nat := utf8Loop bs.length bs

/-- TextDecoder with default options removes a leading byte-order mark. -/
def stripBom : List Nat → List Nat
  | 0xFEFF :: rest => rest
  | s => s

/-- TextDecoder: JS string from UTF-8 bytes (replacement mode, BOM strip). -/
def utf8Decode (bs : List Nat) : JSString := stripBom (utf8DecodeRaw bs)

/-! ## `Bytes` utility (src/src/bytes.ts) -/

/-- `ByteEncoding` (src/src/bytes.ts): supported character encodings. -/
inductive ByteEncoding where
  | utf8 | utf8dash | latin1 | binary | ascii
deriving DecidableEq, Repr

def ByteEncoding.isUtf8 : ByteEncoding → Bool
  | .utf8 => true
  | .utf8dash => true
  | _ => false

/-- `Bytes.fromString`: UTF-8 via TextEncoder, or one byte per code unit
(`charCodeAt(i) & 0xff`) for the single-byte encodings. -/
def bytesFromString (s : JSString) (enc : ByteEncoding) : List Nat :=
  if enc.isUtf8 then utf8Encode s else s.map (· % 256)

/-- `Bytes.toString`: TextDecoder for UTF-8, or `String.fromCharCode` per
byte for the single-byte encodings. -/
def bytesToString (bs : List Nat) (enc : ByteEncoding) : JSString :=
  if enc.isUtf8 then utf8Decode bs else bs

/-- `Bytes.compare`: byte-lexicographic comparison, -1 / 0 / 1. -/
def bytesCompare : List Nat → List Nat → Int
  | [], [] => 0
  | [], _ :: _ => -1
  | _ :: _, [] => 1
  | a :: as, b :: bs => if a < b then -1 else if b < a then 1 else bytesCompare as bs

/-! ## JavaScript host contracts: decimal rendering, string order,
object property order -/

/-- The iteration of decimal rendering.  `fuel` only makes the recursion
structural; `n ≤ fuel` is maintained (`n / 10 < n` for `n ≥ 10`), so the
zero-fuel arm is only reached with `n = 0`, where its value agrees with
the loop. -/
def natDecimalAux : Nat → Nat → List Nat
  | 0, n => [0x30 + n]
  | fuel + 1, n =>
    if n < 10 then [0x30 + n] else natDecimalAux fuel (n / 10) ++ [0x30 + n % 10]

/-- Decimal digit bytes of a natural number, most significant first. -/
def natDecimalDigits (n : Nat) : List Nat := natDecimalAux n n

/-- The exact decimal spelling of an integer (optional minus sign, then
the digits).  Coincides with `String(k)` on the safe-integer range
`|k| ≤ 2^53`, where the host's shortest round-trip rendering is the exact
digits. -/
def intDecimalBytes (k : Int) : List Nat :=
  if k < 0 then 0x2d :: natDecimalDigits k.natAbs else natDecimalDigits k.natAbs

/-- Default `Array.prototype.sort` comparison on strings: lexicographic on
UTF-16 code units (`true` when `a` sorts no later than `b`). -/
def jsStrLe : JSString → JSString → Bool
  | [], _ => true
  | _ :: _, [] => false
  | a :: as, b :: bs => if a < b then true else if b < a then false else jsStrLe as bs

def isAsciiDigit (c : Nat) : Bool := 0x30 ≤ c && c ≤ 0x39

def digitsVal (s : JSString) : Nat := s.foldl (fun a c => a * 10 + (c - 0x30)) 0

/-- Whether a property key is a canonical array index (ECMAScript):
decimal digits, no leading zero except `"0"`, value below 2^32 - 1. -/
def isArrayIndexKey (s : JSString) : Option Nat :=
  if s ≠ [] && s.all isAsciiDigit && (s = [0x30] || s.head? ≠ some 0x30)
      && digitsVal s < 4294967295 then
    some (digitsVal s)
  else none

def objHasKey {α : Type} (k : JSString) (o : List (JSString × α)) : Bool :=
  o.any (fun e => e.fst = k)

def objSetNamed {α : Type} (k : JSString) (v : α) :
    List (JSString × α) → List (JSString × α)
  | [] => [(k, v)]
  | (k2, v2) :: rest =>
    if k2 = k then (k2, v) :: rest else (k2, v2) :: objSetNamed k v rest

def objInsertIndexed {α : Type} (n : Nat) (k : JSString) (v : α) :
    List (JSString × α) → List (JSString × α)
  | [] => [(k, v)]
  | (k2, v2) :: rest =>
    match isArrayIndexKey k2 with
    | some m => if n < m then (k, v) :: (k2, v2) :: rest
                else (k2, v2) :: objInsertIndexed n k v rest
    | none => (k, v) :: (k2, v2) :: rest

/-- `obj[k] = v` on an ordinary JS object, modelling ECMAScript property
order: an existing key keeps its place, a new array-index key enters the
leading index segment in numeric order, any other new key is appended. -/
def objSet {α : Type} (o : List (JSString × α)) (k : JSString) (v : α) :
    List (JSString × α) :=
  if objHasKey k o then objSetNamed k v o
  else
    match isArrayIndexKey k with
    | some n => objInsertIndexed n k v o
    | none => o ++ [(k, v)]

/-- `Object.keys` of an object held in property order. -/
def objKeys {α : Type} (o : List (JSString × α)) : List JSString :=
  o.map Prod.fst

def objLookup {α : Type} (o : List (JSString × α)) (k : JSString) : Option α :=
  (o.find? (fun e => e.fst = k)).map Prod.snd

/-! ## Error taxonomy (src/src/errors.ts) -/

/-- `BencodeErrorCode` (src/src/errors.ts). -/
inductive ErrCode where
  | EMPTY_INPUT | UNEXPECTED_END | INVALID_FORMAT | LEADING_ZEROS
  | NEGATIVE_ZERO | UNSORTED_KEYS | TRAILING_DATA | MAX_DEPTH_EXCEEDED
  | MAX_SIZE_EXCEEDED | UNSUPPORTED_TYPE | CIRCULAR_REFERENCE
deriving DecidableEq, Repr

/-- A decoder failure: a `BencodeDecodeError` (code plus optional byte
position; the human-readable message is not modelled), a native JS
`RangeError` (from `new Uint8Array(negativeLength)`), or exhaustion of the
recursion fuel of the model (never reached from the public entry point,
whose fuel exceeds the buffer length). -/
inductive DErr where
  | decodeErr (code : ErrCode) (position : Option Nat)
  | rangeError
  | fuelOut
deriving DecidableEq, Repr

/-- `IBencodecOptions` (src/src/types.ts).  `maxStringLength`/`maxDepth`
are numbers or `undefined` in JS and the code tests them for truthiness,
so `0` here models both `0` and `undefined` (the checks are skipped). -/
structure DecOptions where
  stringify : Bool := false
  strict : Bool := false
  encoding : ByteEncoding := ByteEncoding.utf8
  maxStringLength : Nat := 0
  maxDepth : Nat := 0
deriving Repr

/-! ## Decoded values (`BencodeDecodedValue`, src/src/types.ts) -/

/-- A decoded JavaScript value: number, `Uint8Array`, string (with the
`stringify` option), array, or plain object.  Dictionary entries are kept
in JS property order (see `objSet`). -/
inductive DVal where
  | dint (n : Int)
  | dbytes (bs : List Nat)
  | dstr (s : JSString)
  | dlist (items : List DVal)
  | ddict (entries : List (JSString × DVal))
deriving Repr
/-! ## The decoder (src/src/BencodeDecoder.ts)

The decoder instance's readonly `_buffer` becomes a fixed parameter of
every step; the mutable `_index` cursor is passed in and the new cursor
returned.  `_currentDepth` is passed down only: on every successful return
the methods restore it (increment on entry, decrement on exit), so a
caller's depth is unchanged, and no error carries it. -/

/-- `_currentChar()` at an explicit cursor: `this._buffer[i]`; reading out
of range gives JS `undefined`, modelled as `none`. -/
def byteAt (buffer : List Nat) (i : Nat) : Option Nat := buffer.get? i

/-- `_isEOF()`. -/
def atEnd (buffer : List Nat) (i : Nat) : Bool := buffer.length ≤ i

/-- `BencodeDecoder._isInteger`: is the byte an ASCII digit?  Applied to a
possibly-undefined buffer read (comparisons with `undefined` are false). -/
def isDigitAt (c : Option Nat) : Bool :=
  match c with
  | some b => 0x30 ≤ b && b ≤ 0x39
  | none => false

/-- The iteration of the digit-scanning `while` loop of `_decodeInteger`:
consumes ASCII digits and dots, accumulating a decimal value until the
first dot.  `fuel` only makes the recursion structural; each step advances
the cursor inside the buffer, so with fuel `buffer.length - i` the
zero-fuel arm is unreachable (at fuel 0 the cursor is at or past the end
and `byteAt` is `none`).  The accumulation `acc * 10 + digit` is exact
`Nat` arithmetic; the source accumulates in IEEE doubles, which agrees as
long as every intermediate value stays at most `2^53` (each step's true
result is then a representable integer, so no rounding occurs) and rounds
beyond that — the round-trip theorems therefore only feed this loop digit
runs whose value is at most `2^53`. -/
def digitRunAux (buffer : List Nat) : Nat → Nat → Nat → Bool → Nat × Nat
  | 0, i, acc, _ => (acc, i)
  | fuel + 1, i, acc, isFloat =>
    match byteAt buffer i with
    | some c =>
      if 0x30 ≤ c && c ≤ 0x39 || c = FLAG_DOT then
        if c = FLAG_DOT then digitRunAux buffer fuel (i + 1) acc true
        else if isFloat then digitRunAux buffer fuel (i + 1) acc true
        else digitRunAux buffer fuel (i + 1) (acc * 10 + (c - 0x30)) false
      else (acc, i)
    | none => (acc, i)

/-- The digit-scanning `while` loop of `_decodeInteger`: returns the
accumulated value and the cursor after the run. -/
def digitRun (buffer : List Nat) (i acc : Nat) (isFloat : Bool) : Nat × Nat :=
  digitRunAux buffer (buffer.length - i) i acc isFloat

/-- `_decodeInteger()`: parses a bencode integer (`i...e`) or a bare digit
run used as a string length prefix. -/
def decodeInteger (buffer : List Nat) (i0 : Nat) : Except DErr (Int × Nat) :=
  let pr1 : Nat × Bool :=
    if byteAt buffer i0 = some FLAG_INTEGER then (i0 + 1, true) else (i0, false)
  let i1 := pr1.fst
  let isBencodeInteger := pr1.snd
  let i2 := if byteAt buffer i1 = some FLAG_PLUS then i1 + 1 else i1
  let pr3 : Nat × Int :=
    if byteAt buffer i2 = some FLAG_MINUS then (i2 + 1, -1) else (i2, 1)
  let i3 := pr3.fst
  let sign := pr3.snd
  if isBencodeInteger && byteAt buffer i3 = some 0x30
      && isDigitAt (byteAt buffer (i3 + 1)) then
    Except.error (DErr.decodeErr ErrCode.LEADING_ZEROS (some i3))
  else
    let pr4 := digitRun buffer i3 0 false
    let integer := pr4.fst
    let i4 := pr4.snd
    let next : Except DErr Nat :=
      if isBencodeInteger then
        if atEnd buffer i4 || byteAt buffer i4 ≠ some FLAG_END then
          Except.error (DErr.decodeErr ErrCode.UNEXPECTED_END (some i4))
        else Except.ok (i4 + 1)
      else if byteAt buffer i4 = some FLAG_STR_DELIMITER then Except.ok (i4 + 1)
      else Except.ok i4
    match next with
    | Except.error e => Except.error e
    | Except.ok i5 =>
      if sign = -1 && integer = 0 then
        Except.error (DErr.decodeErr ErrCode.NEGATIVE_ZERO (some i5))
      else Except.ok (sign * integer, i5)

/-- `_decodeString()`: length prefix via `_decodeInteger`, bound checks,
then the content bytes (as `Uint8Array`, or a string under `stringify`). -/
def decodeString (opts : DecOptions) (buffer : List Nat) (i : Nat) :
    Except DErr (DVal × Nat) :=
  match decodeInteger buffer i with
  | Except.error e => Except.error e
  | Except.ok (length, i1) =>
    if opts.maxStringLength ≠ 0 && length > (opts.maxStringLength : Int) then
      Except.error (DErr.decodeErr ErrCode.MAX_SIZE_EXCEEDED (some i1))
    else if (i1 : Int) + length > (buffer.length : Int) then
      Except.error (DErr.decodeErr ErrCode.UNEXPECTED_END (some i1))
    else if length < 0 then
      Except.error DErr.rangeError
    else
      let bytes := (buffer.drop i1).take length.toNat
      let i2 := i1 + length.toNat
      if opts.stringify then
        Except.ok (DVal.dstr (bytesToString bytes opts.encoding), i2)
      else Except.ok (DVal.dbytes bytes, i2)

/-- The byte sequence compared and stored as the previous dictionary key:
`Bytes.isBytes(key) ? key : Bytes.fromString(key)` (default utf8). -/
def keyAsBytes : DVal → List Nat
  | DVal.dstr s => bytesFromString s ByteEncoding.utf8
  | DVal.dbytes bs => bs
  | _ => []

/-- The string under which a dictionary entry is stored:
`typeof key === 'string' ? key : Bytes.toString(key)` (default utf8). -/
def keyAsString : DVal → JSString
  | DVal.dstr s => s
  | DVal.dbytes bs => bytesToString bs ByteEncoding.utf8
  | _ => []

mutual

/-- `decode()`: dispatch on the current byte.  `fuel` is a model artifact
bounding the number of recursive calls (the TS methods recurse without a
bound; termination there follows from cursor progress).  One fuel unit is
consumed per call, and every call chain of length 4 consumes at least one
input byte, so the public wrapper's fuel of `4 * length + 8` can never run
out. -/
def decodeValue (opts : DecOptions) (buffer : List Nat) :
    Nat → Nat → Nat → Except DErr (DVal × Nat)
  | 0, _, _ => Except.error DErr.fuelOut
  | fuel + 1, i, depth =>
    if atEnd buffer i then
      Except.error (DErr.decodeErr ErrCode.UNEXPECTED_END (some i))
    else if isDigitAt (byteAt buffer i) then
      decodeString opts buffer i
    else if byteAt buffer i = some FLAG_INTEGER then
      match decodeInteger buffer i with
      | Except.error e => Except.error e
      | Except.ok (n, i2) => Except.ok (DVal.dint n, i2)
    else if byteAt buffer i = some FLAG_LIST then
      decodeList opts buffer fuel i depth
    else if byteAt buffer i = some FLAG_DICTIONARY then
      decodeDictionary opts buffer fuel i depth
    else
      Except.error (DErr.decodeErr ErrCode.INVALID_FORMAT (some i))
termination_by structural fuel i depth => fuel

/-- `_decodeList()`: depth guard, skip `l`, elements until `e`. -/
def decodeList (opts : DecOptions) (buffer : List Nat) :
    Nat → Nat → Nat → Except DErr (DVal × Nat)
  | 0, _, _ => Except.error DErr.fuelOut
  | fuel + 1, i, depth =>
    if opts.maxDepth ≠ 0 && depth + 1 > opts.maxDepth then
      Except.error (DErr.decodeErr ErrCode.MAX_DEPTH_EXCEEDED (some i))
    else
      decodeListItems opts buffer fuel (i + 1) (depth + 1) []
termination_by structural fuel i depth => fuel

/-- The element loop of `_decodeList` (`acc` holds elements so far). -/
def decodeListItems (opts : DecOptions) (buffer : List Nat) :
    Nat → Nat → Nat → List DVal → Except DErr (DVal × Nat)
  | 0, _, _, _ => Except.error DErr.fuelOut
  | fuel + 1, i, depth, acc =>
    if atEnd buffer i then
      Except.error (DErr.decodeErr ErrCode.UNEXPECTED_END (some i))
    else if byteAt buffer i = some FLAG_END then
      Except.ok (DVal.dlist acc, i + 1)
    else
      match decodeValue opts buffer fuel i depth with
      | Except.error e => Except.error e
      | Except.ok (v, i2) => decodeListItems opts buffer fuel i2 depth (acc ++ [v])
termination_by structural fuel i depth acc => fuel

/-- `_decodeDictionary()`: depth guard, skip `d`, key/value pairs until
`e`, with the strict-mode key-order check. -/
def decodeDictionary (opts : DecOptions) (buffer : List Nat) :
    Nat → Nat → Nat → Except DErr (DVal × Nat)
  | 0, _, _ => Except.error DErr.fuelOut
  | fuel + 1, i, depth =>
    if opts.maxDepth ≠ 0 && depth + 1 > opts.maxDepth then
      Except.error (DErr.decodeErr ErrCode.MAX_DEPTH_EXCEEDED (some i))
    else
      decodeDictEntries opts buffer fuel (i + 1) (depth + 1) [] none
termination_by structural fuel i depth => fuel

/-- The entry loop of `_decodeDictionary` (`acc` in JS property order,
`prevKey` the raw bytes of the preceding key). -/
def decodeDictEntries (opts : DecOptions) (buffer : List Nat) :
    Nat → Nat → Nat → List (JSString × DVal) → Option (List Nat) →
    Except DErr (DVal × Nat)
  | 0, _, _, _, _ => Except.error DErr.fuelOut
  | fuel + 1, i, depth, acc, prevKey =>
    if atEnd buffer i then
      Except.error (DErr.decodeErr ErrCode.UNEXPECTED_END (some i))
    else if byteAt buffer i = some FLAG_END then
      Except.ok (DVal.ddict acc, i + 1)
    else
      match decodeString opts buffer i with
      | Except.error e => Except.error e
      | Except.ok (key, i2) =>
        if opts.strict && prevKey.isSome
            && bytesCompare (prevKey.getD []) (keyAsBytes key) ≥ 0 then
          Except.error (DErr.decodeErr ErrCode.UNSORTED_KEYS (some i2))
        else
          match decodeValue opts buffer fuel i2 depth with
          | Except.error e => Except.error e
          | Except.ok (v, i3) =>
            decodeDictEntries opts buffer fuel i3 depth
              (objSet acc (keyAsString key) v) (some (keyAsBytes key))
termination_by structural fuel i depth acc prev => fuel

end

/-! ## Public wrappers (src/src/index.ts) -/

/-- The argument of the public `decode`: a `Uint8Array`, a string, or a
missing/`null` argument. -/
inductive DecodeInput where
  | bytesInput (bs : List Nat)
  | strInput (s : JSString)
  | absent
deriving Repr

/-- JS truthiness of the input (`!data`): absent values and the empty
string are falsy; any `Uint8Array` (even empty) is truthy. -/
def DecodeInput.isFalsy : DecodeInput → Bool
  | DecodeInput.absent => true
  | DecodeInput.strInput s => s.isEmpty
  | DecodeInput.bytesInput _ => false

/-- The `BencodeDecoder` constructor: reject falsy input with
`EMPTY_INPUT`, convert string input to bytes via `Bytes.fromString`,
position the cursor at 0. -/
def decoderConstruct (input : DecodeInput) : Except DErr (List Nat) :=
  if input.isFalsy then
    Except.error (DErr.decodeErr ErrCode.EMPTY_INPUT none)
  else
    Except.ok
      (match input with
       | DecodeInput.strInput s => bytesFromString s ByteEncoding.utf8
       | DecodeInput.bytesInput bs => bs
       | DecodeInput.absent => [])

/-- The public `decode(data, options)` (src/src/index.ts): construct a
decoder, decode one value, and in strict mode reject remaining bytes
(`hasRemainingData()`) with a position-less `TRAILING_DATA` error. -/
def decodeTop (opts : DecOptions) (input : DecodeInput) : Except DErr DVal :=
  match decoderConstruct input with
  | Except.error e => Except.error e
  | Except.ok buffer =>
    match decodeValue opts buffer (4 * buffer.length + 8) 0 0 with
    | Except.error e => Except.error e
    | Except.ok (v, i) =>
      if opts.strict && decide (i < buffer.length) then
        Except.error (DErr.decodeErr ErrCode.TRAILING_DATA none)
      else Except.ok v

/-- ASCII bytes of a Lean string literal, for writing concrete inputs. -/
def ascii (s : String) : List Nat := s.data.map Char.toNat
/-! ## JavaScript numbers

`JSNum` models the IEEE-754 doubles the encoder receives: the special
values, negative zero, and finite values as exact rationals (every finite
double is a rational; arithmetic precision plays no role here because the
encoder only truncates and renders). -/

inductive JSNum where
  | nan | inf | neginf | negZero
  | fin (q : ℚ)
deriving DecidableEq, Repr

/-- Truncation toward zero of a rational, as an integer. -/
def ratTrunc (q : ℚ) : Int := if 0 ≤ q then ⌊q⌋ else ⌈q⌉

/-- `Math.trunc` (ECMAScript): identity on non-finite values and `-0`;
values strictly between -1 and 0 give `-0`; otherwise truncate toward
zero. -/
def jsTrunc : JSNum → JSNum
  | JSNum.nan => JSNum.nan
  | JSNum.inf => JSNum.inf
  | JSNum.neginf => JSNum.neginf
  | JSNum.negZero => JSNum.negZero
  | JSNum.fin q => if -1 < q ∧ q < 0 then JSNum.negZero else JSNum.fin (ratTrunc q)

/-- ECMAScript exponential rendering of an integer with at least 22 decimal
digits: strip trailing zeros, insert a point after the first digit, append
`e+<exponent>`.  Faithful for doubles whose shortest round-trip decimal is
the stripped form (such as `1e21`); such values are the only ones this
development evaluates it at. -/
def jsExpBytes (n : Int) : List Nat :=
  let ds := natDecimalDigits n.natAbs
  let ms := (ds.reverse.dropWhile (fun c => c = 0x30)).reverse
  let mantissa : List Nat :=
    match ms with
    | [] => [0x30]
    | [m] => [m]
    | m :: r => m :: 0x2e :: r
  (if n < 0 then [0x2d] else []) ++ mantissa ++ [0x65, 0x2b]
    ++ natDecimalDigits (ds.length - 1)

/-- `String(x)` (ECMAScript `Number::toString`) for the values produced by
`Math.trunc`: the special spellings, `"0"` for `-0`, plain decimal for
integers below 10^21 in magnitude, exponential form otherwise.  Only ever
applied to integral rationals here (the output of `jsTrunc`).  The plain
branch writes the exact decimal digits; the host writes the shortest
decimal that reads back as the double, and the two agree precisely on the
safe-integer range `|k| ≤ 2^53` (an integer there is its own double and
no shorter decimal lies within half an ulp), so the theorems below only
ever evaluate this branch at `|k| ≤ 2^53` — between `2^53` and `10^21`
the host's shortest form can end in rounded digits (`String(2^60)` is
`"1152921504606847000"`), which this model does not capture. -/
def jsNumRenderBytes : JSNum → List Nat
  | JSNum.nan => ascii "NaN"
  | JSNum.inf => ascii "Infinity"
  | JSNum.neginf => ascii "-Infinity"
  | JSNum.negZero => [0x30]
  | JSNum.fin q =>
    let k := ratTrunc q
    if k.natAbs < 10 ^ 21 then intDecimalBytes k else jsExpBytes k

/-! ## Encodable values (`BencodeEncodableValue`, src/src/types.ts)

An inductive tree of encodable JS values.  Each constructor occurrence
denotes a distinct JS object, so the encoder's `WeakSet` cycle guard can
never fire on a tree; identity sharing and cycles are modelled separately
by the heap-based embedding further below (claim C9).  Functions, symbols
and BigInt (the `UNSUPPORTED_TYPE` default branch) are not modelled; no
claim mentions them.  `enull` covers `null` (and, inside containers, also
`undefined`, which the loops skip identically). -/

inductive EncVal where
  | enum (x : JSNum)
  | ebool (b : Bool)
  | estr (s : JSString)
  | ebytes (bs : List Nat)
  | elist (items : List EncVal)
  | edict (entries : List (JSString × EncVal))
  | enull

/-- `item === null || item === undefined`. -/
def isNullish : EncVal → Bool
  | EncVal.enull => true
  | _ => false

/-- Encoder failure: a `BencodeEncodeError` or the native `TypeError` that
`WeakSet.add(null)` raises when `null` reaches `_encodeDictionary`
directly (only possible at the top level).  `stuck` is a model artifact of
the heap-based encoder below (fuel exhaustion or a dangling reference,
neither of which a JS value can exhibit); every theorem's hypotheses make
it unreachable. -/
inductive EErr where
  | encodeErr (code : ErrCode) (path : List (Sum Nat JSString))
  | nativeTypeError
  | stuck
deriving DecidableEq, Repr

/-- `_encodeBytes`: length prefix, `:`, raw bytes. -/
def bytesChunk (bs : List Nat) : List Nat :=
  natDecimalDigits bs.length ++ [FLAG_STR_DELIMITER] ++ bs

/-- `_encodeString`: UTF-8 encode, then as `_encodeBytes`. -/
def stringChunk (s : JSString) : List Nat := bytesChunk (utf8Encode s)

/-- `_encodeInteger`: `i` + `String(Math.trunc(data))` + `e`. -/
def integerChunk (x : JSNum) : List Nat :=
  [FLAG_INTEGER] ++ jsNumRenderBytes (jsTrunc x) ++ [FLAG_END]

/-- `Object.keys(data).sort()`: the property keys in ascending order of
the default comparator (UTF-16 code-unit lexicographic; ES2019 sort is
stable, and JS object keys are unique, so the result is the unique sorted
permutation, modelled by insertion sort). -/
def jsSortedKeys {α : Type} (es : List (JSString × α)) : List JSString :=
  List.insertionSort (fun a b => jsStrLe a b = true) (objKeys es)

mutual

/-- Recursively replace every dictionary's entry list by its sorted
version (`Object.keys(data).sort()` order).  The encoder below emits a
pre-sorted tree in entry order; composing the two is the source's
recursion with the per-dictionary sort hoisted out, which keeps the
definitions structurally recursive (hence kernel-computable). -/
def sortDicts : EncVal → EncVal
  | EncVal.edict es =>
    EncVal.edict
      (List.insertionSort (fun a b => jsStrLe a.fst b.fst = true)
        (sortDictsEntries es))
  | EncVal.elist xs => EncVal.elist (sortDictsList xs)
  | v => v

/-- `sortDicts` on list elements. -/
def sortDictsList : List EncVal → List EncVal
  | [] => []
  | x :: xs => sortDicts x :: sortDictsList xs

/-- `sortDicts` on dictionary entry values. -/
def sortDictsEntries : List (JSString × EncVal) → List (JSString × EncVal)
  | [] => []
  | (k, v) :: rest => (k, sortDicts v) :: sortDictsEntries rest

end

mutual

/-- `_encodeType` (src/src/BencodeEncoder.ts) applied to a tree whose
dictionaries are already sorted: dispatch on the value shape, return the
pushed chunks concatenated.  On a tree every container is a fresh object,
so the `WeakSet` guard of `_encodeList`/`_encodeDictionary` can never
fire and is omitted here (the heap-based embedding below models it). -/
def encodeSorted : EncVal → Except EErr (List Nat)
  | EncVal.ebytes bs => Except.ok (bytesChunk bs)
  | EncVal.elist xs =>
    match encodeSortedItems xs with
    | Except.error e => Except.error e
    | Except.ok body => Except.ok ([FLAG_LIST] ++ body ++ [FLAG_END])
  | EncVal.ebool b => Except.ok (integerChunk (JSNum.fin (if b then 1 else 0)))
  | EncVal.enum x => Except.ok (integerChunk x)
  | EncVal.estr s => Except.ok (stringChunk s)
  | EncVal.edict es =>
    match encodeSortedEntries es with
    | Except.error e => Except.error e
    | Except.ok body => Except.ok ([FLAG_DICTIONARY] ++ body ++ [FLAG_END])
  | EncVal.enull => Except.error EErr.nativeTypeError

/-- The element loop of `_encodeList`: `null`/`undefined` skipped. -/
def encodeSortedItems : List EncVal → Except EErr (List Nat)
  | [] => Except.ok []
  | x :: xs =>
    if isNullish x then encodeSortedItems xs
    else
      match encodeSorted x with
      | Except.error e => Except.error e
      | Except.ok chunk =>
        match encodeSortedItems xs with
        | Except.error e => Except.error e
        | Except.ok rest => Except.ok (chunk ++ rest)

/-- The entry loop of `_encodeDictionary` over the (pre-)sorted entries:
`null`/`undefined` values skipped.  Iterating entry pairs agrees with the
source's `for (key of keys) ... data[key]` because a JS object cannot hold
the same key twice. -/
def encodeSortedEntries : List (JSString × EncVal) → Except EErr (List Nat)
  | [] => Except.ok []
  | (k, v) :: rest =>
    if isNullish v then encodeSortedEntries rest
    else
      match encodeSorted v with
      | Except.error e => Except.error e
      | Except.ok chunk =>
        match encodeSortedEntries rest with
        | Except.error e => Except.error e
        | Except.ok tail => Except.ok (stringChunk k ++ chunk ++ tail)

end

/-- `_encodeType`: the source's recursion (sort each dictionary when it is
reached, then emit) equals sorting every dictionary first and emitting the
result in order. -/
def encodeType (v : EncVal) : Except EErr (List Nat) := encodeSorted (sortDicts v)

/-- `encode(data, options)` (src/src/index.ts and `BencodeEncoder.encode`):
the concatenated chunks, decoded back to a string when `stringify` is
set (the claims below all use the byte output). -/
def encodeTop (v : EncVal) : Except EErr (List Nat) := encodeType v

/-! ## The bencode wire-format grammar (spec §6)

Unlike everything above, `specIntegerBody` and `WireValue` are modelled
from the specification's grammar, not from the source: claim C10 compares
the encoder's actual output against this grammar. -/

/-- The characters between `i` and `e` of a grammatical bencode integer:
an optional `-`, then decimal digits, with no leading zeros and `-0`
invalid (so after a `-` the first digit may not be `0` either). -/
def specIntegerBody (s : List Nat) : Bool :=
  if s.head? = some 0x2d then
    s.tail ≠ [] && s.tail.all isAsciiDigit && s.tail.head? ≠ some 0x30
  else
    s ≠ [] && s.all isAsciiDigit && (s = [0x30] || s.head? ≠ some 0x30)

/-- The wire-format grammar of one complete bencode value:
`value := bytestring | integer | list | dictionary`, with
`integer := 'i' ['-'] <decimal-digits> 'e'` (no leading zeros, `-0`
invalid), `bytestring := <decimal-length> ':' <raw-bytes>`,
`list := 'l' value* 'e'` and `dictionary := 'd' (bytestring value)* 'e'`. -/
inductive WireValue : List Nat → Prop where
  | integer (body : List Nat) : specIntegerBody body = true →
      WireValue (0x69 :: (body ++ [0x65]))
  | bytestring (bs : List Nat) :
      WireValue (natDecimalDigits bs.length ++ 0x3a :: bs)
  | list (ws : List (List Nat)) : (∀ w ∈ ws, WireValue w) →
      WireValue (0x6c :: (ws.join ++ [0x65]))
  | dict (es : List (List Nat × List Nat)) :
      (∀ e ∈ es, ∃ bs : List Nat,
          e.1 = natDecimalDigits bs.length ++ 0x3a :: bs) →
      (∀ e ∈ es, WireValue e.2) →
      WireValue (0x64 :: ((es.map (fun e => e.1 ++ e.2)).join ++ [0x65]))

/-! ## Heap-based encodable values (object identity, claim C9)

The tree type `EncVal` cannot express two paths reaching the *same* JS
object, so the `WeakSet` identity guard of `_encodeList` /
`_encodeDictionary` is modelled separately here: containers live in a
heap addressed by ids, and values reference them by id.  Because the
source adds a container to the `WeakSet` on entry and deletes it on exit,
the set's contents at any moment are exactly the ancestors on the current
recursion stack — so it is modelled as a `visited` list passed *down*
(restoration on exit is automatic).  `_path` push/pop bracketing is
modelled the same way. -/

inductive GAtom where
  | gnum (x : JSNum)
  | gbool (b : Bool)
  | gstr (s : JSString)
  | gbytes (bs : List Nat)
  | gnull
deriving Repr

/-- A value: a primitive, or a reference to a container object. -/
inductive GVal where
  | gatom (a : GAtom)
  | gref (id : Nat)
deriving Repr

/-- A container object: an array or a plain object. -/
inductive GContainer where
  | glist (items : List GVal)
  | gdict (entries : List (JSString × GVal))
deriving Repr

/-- Heap lookup by object id. -/
def heapLookup (h : List (Nat × GContainer)) (id : Nat) : Option GContainer :=
  ((h.find? (fun e => e.fst = id)).map Prod.snd)

/-- `item === null || item === undefined` on a heap value. -/
def isGNullish : GVal → Bool
  | GVal.gatom GAtom.gnull => true
  | _ => false

mutual

/-- `_encodeType` on a heap value: `visited` is the WeakSet (the ancestor
container ids of the current stack), `path` is `this._path`.  `fuel` only
makes the recursion structural (the source recursion terminates because
every stack chain holds distinct containers — a repeat throws — so a
chain consumes at most `gFuel` units). -/
def encodeGVal (h : List (Nat × GContainer)) :
    Nat → List Nat → List (Sum Nat JSString) → GVal → Except EErr (List Nat)
  | 0, _, _, _ => Except.error EErr.stuck
  | fuel + 1, visited, path, v =>
    match v with
    | GVal.gatom GAtom.gnull => Except.error EErr.nativeTypeError
    | GVal.gatom (GAtom.gnum x) => Except.ok (integerChunk x)
    | GVal.gatom (GAtom.gbool b) =>
      Except.ok (integerChunk (JSNum.fin (if b then 1 else 0)))
    | GVal.gatom (GAtom.gstr s) => Except.ok (stringChunk s)
    | GVal.gatom (GAtom.gbytes bs) => Except.ok (bytesChunk bs)
    | GVal.gref id =>
      match heapLookup h id with
      | none => Except.error EErr.stuck
      | some (GContainer.glist items) =>
        if id ∈ visited then
          Except.error (EErr.encodeErr ErrCode.CIRCULAR_REFERENCE path)
        else
          match encodeGItems h fuel (id :: visited) path 0 items with
          | Except.error e => Except.error e
          | Except.ok body => Except.ok ([FLAG_LIST] ++ body ++ [FLAG_END])
      | some (GContainer.gdict entries) =>
        if id ∈ visited then
          Except.error (EErr.encodeErr ErrCode.CIRCULAR_REFERENCE path)
        else
          match encodeGEntries h fuel (id :: visited) path
              (List.insertionSort (fun a b => jsStrLe a.fst b.fst = true)
                entries) with
          | Except.error e => Except.error e
          | Except.ok body =>
            Except.ok ([FLAG_DICTIONARY] ++ body ++ [FLAG_END])
termination_by structural fuel visited path v => fuel

/-- The element loop of `_encodeList` on the heap (`i` the JS index,
pushed on the path for each encoded element; nullish elements skipped). -/
def encodeGItems (h : List (Nat × GContainer)) :
    Nat → List Nat → List (Sum Nat JSString) → Nat → List GVal →
    Except EErr (List Nat)
  | _, _, _, _, [] => Except.ok []
  | 0, _, _, _, _ :: _ => Except.error EErr.stuck
  | fuel + 1, visited, path, i, x :: xs =>
    if isGNullish x then encodeGItems h fuel visited path (i + 1) xs
    else
      match encodeGVal h fuel visited (path ++ [Sum.inl i]) x with
      | Except.error e => Except.error e
      | Except.ok chunk =>
        match encodeGItems h fuel visited path (i + 1) xs with
        | Except.error e => Except.error e
        | Except.ok rest => Except.ok (chunk ++ rest)
termination_by structural fuel visited path i xs => fuel

/-- The entry loop of `_encodeDictionary` on the heap, over the sorted
entries (`Object.keys(data).sort()`; keys of a JS object are distinct, so
iterating sorted entry pairs agrees with `for (key of keys) ...
data[key]`); nullish values skipped, the key pushed on the path. -/
def encodeGEntries (h : List (Nat × GContainer)) :
    Nat → List Nat → List (Sum Nat JSString) → List (JSString × GVal) →
    Except EErr (List Nat)
  | _, _, _, [] => Except.ok []
  | 0, _, _, _ :: _ => Except.error EErr.stuck
  | fuel + 1, visited, path, (k, v) :: rest =>
    if isGNullish v then encodeGEntries h fuel visited path rest
    else
      match encodeGVal h fuel visited (path ++ [Sum.inr k]) v with
      | Except.error e => Except.error e
      | Except.ok chunk =>
        match encodeGEntries h fuel visited path rest with
        | Except.error e => Except.error e
        | Except.ok tail => Except.ok (stringChunk k ++ chunk ++ tail)
termination_by structural fuel visited path es => fuel

end

def gContainerSize : GContainer → Nat
  | GContainer.glist items => items.length + 1
  | GContainer.gdict es => es.length + 1

/-- Enough fuel for any call chain: a chain holds distinct containers and
spends at most `size + 1` units inside each, plus the two ends. -/
def gFuel (h : List (Nat × GContainer)) : Nat :=
  (h.map (fun e => gContainerSize e.snd)).sum + h.length + 2

/-- `encode(data)` on a heap value: fresh `WeakSet`, empty path. -/
def encodeG (h : List (Nat × GContainer)) (v : GVal) : Except EErr (List Nat) :=
  encodeGVal h (gFuel h) [] [] v

/-! ## Round-trippable values (claim C2)

`wfUtf16`, `reprVal` and `canonW` are claim-side definitions (they state
*which* values round-trip and *what* the decoder returns for them), not
translations of source code. -/

/-- A well-formed JS string: every code unit is below `0x10000` and every
surrogate is part of a high–low pair (such strings survive the UTF-8
encode/decode pair losslessly). -/
def wfUtf16 : JSString → Bool
  | [] => true
  | u :: rest =>
    if isHighSurrogate u then
      match rest with
      | v :: rest2 => isLowSurrogate v && wfUtf16 rest2
      | [] => false
    else !isLowSurrogate u && decide (u < 0x10000) && wfUtf16 rest

/-- A string that decodes back to itself: well-formed and not starting
with U+FEFF (TextDecoder strips a leading byte-order mark). -/
def rtString (s : JSString) : Bool :=
  wfUtf16 s && !(decide (s.head? = some 0xFEFF))

mutual

/-- The encodable values the round-trip claim quantifies over: integral
numbers of magnitude at most `2^53` (the safe-integer range: every such
integer is a double, the host's shortest decimal rendering is its exact
digits, and the decoder's float digit loop — `integer * 10 + digit` in
doubles — accumulates it exactly, every intermediate prefix value being
an integer at most `2^53`; above `2^53` both sides round), round-trippable
text strings, lists and dictionaries of such values (no `null`s, which
the encoder skips; no booleans or byte buffers, which decode to a
different type; dictionary keys round-trippable and distinct). -/
def reprVal : EncVal → Bool
  | EncVal.enum (JSNum.fin q) =>
    decide (q.den = 1) && decide (q.num.natAbs ≤ 2 ^ 53)
  | EncVal.estr s => rtString s
  | EncVal.elist xs => reprList xs
  | EncVal.edict es =>
    reprEntries es && es.all (fun e => rtString e.fst)
      && decide ((es.map Prod.fst).Nodup)
  | _ => false

def reprList : List EncVal → Bool
  | [] => true
  | x :: xs => reprVal x && reprList xs

def reprEntries : List (JSString × EncVal) → Bool
  | [] => true
  | (_, v) :: rest => reprVal v && reprEntries rest

end

mutual

/-- What `decode(encode(v), {stringify: true})` returns for a
round-trippable `v` whose dictionaries are already in emission order:
numbers truncate, strings survive, lists drop nothing (no `null`s), and
each dictionary becomes the JS object built by assigning its entries in
order (`objSet`, hence JS property order). -/
def canonW : EncVal → DVal
  | EncVal.enum (JSNum.fin q) => DVal.dint (ratTrunc q)
  | EncVal.enum _ => DVal.dint 0
  | EncVal.ebool b => DVal.dint (if b then 1 else 0)
  | EncVal.estr s => DVal.dstr s
  | EncVal.ebytes bs => DVal.dstr (utf8Decode bs)
  | EncVal.enull => DVal.dint 0
  | EncVal.elist xs => DVal.dlist (canonWList xs)
  | EncVal.edict es => DVal.ddict (canonWEntries [] es)

def canonWList : List EncVal → List DVal
  | [] => []
  | x :: xs =>
    if isNullish x then canonWList xs else canonW x :: canonWList xs

def canonWEntries : List (JSString × DVal) → List (JSString × EncVal) →
    List (JSString × DVal)
  | acc, [] => acc
  | acc, (k, v) :: rest =>
    if isNullish v then canonWEntries acc rest
    else canonWEntries (objSet acc k (canonW v)) rest

end
/-! ## Cursor positions inside `_decodeInteger`'s prologue

These name the intermediate cursor positions of `_decodeInteger` (after
the `i` flag, after an optional `+`, after an optional `-`), so that
theorems can speak about the position where a check fires. -/

/-- The cursor after `_decodeInteger` consumed an `i` flag (if present). -/
def afterIntFlag (buffer : List Nat) (i : Nat) : Nat :=
  if byteAt buffer i = some FLAG_INTEGER then i + 1 else i

/-- The cursor after `_decodeInteger` also consumed a `+` (if present). -/
def afterPlus (buffer : List Nat) (i : Nat) : Nat :=
  let j := afterIntFlag buffer i
  if byteAt buffer j = some FLAG_PLUS then j + 1 else j

/-- The cursor after `_decodeInteger` also consumed a `-` (if present):
the position of the first digit. -/
def afterSignScan (buffer : List Nat) (i : Nat) : Nat :=
  let j := afterPlus buffer i
  if byteAt buffer j = some FLAG_MINUS then j + 1 else j

theorem not_atEnd_of_byteAt {buffer : List Nat} {i c : Nat}
    (h : byteAt buffer i = some c) : atEnd buffer i = false := by
  simp only [byteAt] at h
  obtain ⟨hlt, -⟩ := List.get?_eq_some.mp h
  simp [atEnd]
  omega

/-- Turning the `strict` option off preserves any successful decode (the
option is only read by the dictionary key-order check, which can only turn
a run into an error). -/
theorem strictOff_all (fuel : Nat) :
    (∀ (opts : DecOptions) (buffer : List Nat) (i depth : Nat) (r : DVal × Nat),
      decodeValue opts buffer fuel i depth = Except.ok r →
      decodeValue { opts with strict := false } buffer fuel i depth = Except.ok r) ∧
    (∀ (opts : DecOptions) (buffer : List Nat) (i depth : Nat) (r : DVal × Nat),
      decodeList opts buffer fuel i depth = Except.ok r →
      decodeList { opts with strict := false } buffer fuel i depth = Except.ok r) ∧
    (∀ (opts : DecOptions) (buffer : List Nat) (i depth : Nat) (acc : List DVal)
        (r : DVal × Nat),
      decodeListItems opts buffer fuel i depth acc = Except.ok r →
      decodeListItems { opts with strict := false } buffer fuel i depth acc =
        Except.ok r) ∧
    (∀ (opts : DecOptions) (buffer : List Nat) (i depth : Nat) (r : DVal × Nat),
      decodeDictionary opts buffer fuel i depth = Except.ok r →
      decodeDictionary { opts with strict := false } buffer fuel i depth =
        Except.ok r) ∧
    (∀ (opts : DecOptions) (buffer : List Nat) (i depth : Nat)
        (acc : List (JSString × DVal)) (pk : Option (List Nat)) (r : DVal × Nat),
      decodeDictEntries opts buffer fuel i depth acc pk = Except.ok r →
      decodeDictEntries { opts with strict := false } buffer fuel i depth acc pk =
        Except.ok r) := by
  induction fuel with
  | zero =>
    refine ⟨?_, ?_, ?_, ?_, ?_⟩ <;> intros <;>
      simp_all [decodeValue, decodeList, decodeListItems, decodeDictionary,
        decodeDictEntries]
  | succ fuel ih =>
    obtain ⟨ihv, ihl, ihli, ihd, ihde⟩ := ih
    refine ⟨?_, ?_, ?_, ?_, ?_⟩
    · intro opts buffer i depth r h
      by_cases c1 : atEnd buffer i = true
      · rw [decodeValue, if_pos c1] at h; exact absurd h (by simp)
      · by_cases c2 : isDigitAt (byteAt buffer i) = true
        · rw [decodeValue, if_neg c1, if_pos c2] at h
          rw [decodeValue, if_neg c1, if_pos c2]
          exact h
        · by_cases c3 : byteAt buffer i = some FLAG_INTEGER
          · rw [decodeValue, if_neg c1, if_neg c2, if_pos c3] at h
            rw [decodeValue, if_neg c1, if_neg c2, if_pos c3]
            exact h
          · by_cases c4 : byteAt buffer i = some FLAG_LIST
            · rw [decodeValue, if_neg c1, if_neg c2, if_neg c3, if_pos c4] at h
              rw [decodeValue, if_neg c1, if_neg c2, if_neg c3, if_pos c4]
              exact ihl opts buffer i depth r h
            · by_cases c5 : byteAt buffer i = some FLAG_DICTIONARY
              · rw [decodeValue, if_neg c1, if_neg c2, if_neg c3, if_neg c4,
                  if_pos c5] at h
                rw [decodeValue, if_neg c1, if_neg c2, if_neg c3, if_neg c4,
                  if_pos c5]
                exact ihd opts buffer i depth r h
              · rw [decodeValue, if_neg c1, if_neg c2, if_neg c3, if_neg c4,
                  if_neg c5] at h
                exact absurd h (by simp)
    · intro opts buffer i depth r h
      rw [decodeList] at h
      rw [decodeList]
      by_cases c : (opts.maxDepth ≠ 0 && decide (depth + 1 > opts.maxDepth)) = true
      · rw [if_pos c] at h; exact absurd h (by simp)
      · rw [if_neg c] at h
        rw [if_neg (by simpa using c)]
        exact ihli opts buffer (i + 1) (depth + 1) [] r h
    · intro opts buffer i depth acc r h
      rw [decodeListItems] at h
      rw [decodeListItems]
      by_cases c1 : atEnd buffer i = true
      · rw [if_pos c1] at h; exact absurd h (by simp)
      · by_cases c2 : byteAt buffer i = some FLAG_END
        · rw [if_neg c1, if_pos c2] at h; rw [if_neg c1, if_pos c2]; exact h
        · rw [if_neg c1, if_neg c2] at h; rw [if_neg c1, if_neg c2]
          cases hv : decodeValue opts buffer fuel i depth with
          | error e => rw [hv] at h; exact absurd h (by simp)
          | ok p =>
            rw [hv] at h
            rw [ihv opts buffer i depth p hv]
            exact ihli opts buffer p.2 depth (acc ++ [p.1]) r h
    · intro opts buffer i depth r h
      rw [decodeDictionary] at h
      rw [decodeDictionary]
      by_cases c : (opts.maxDepth ≠ 0 && decide (depth + 1 > opts.maxDepth)) = true
      · rw [if_pos c] at h; exact absurd h (by simp)
      · rw [if_neg c] at h
        rw [if_neg (by simpa using c)]
        exact ihde opts buffer (i + 1) (depth + 1) [] none r h
    · intro opts buffer i depth acc pk r h
      rw [decodeDictEntries] at h
      rw [decodeDictEntries]
      by_cases c1 : atEnd buffer i = true
      · rw [if_pos c1] at h; exact absurd h (by simp)
      · by_cases c2 : byteAt buffer i = some FLAG_END
        · rw [if_neg c1, if_pos c2] at h; rw [if_neg c1, if_pos c2]; exact h
        · rw [if_neg c1, if_neg c2] at h; rw [if_neg c1, if_neg c2]
          cases hk : decodeString opts buffer i with
          | error e => rw [hk] at h; exact absurd h (by simp)
          | ok p =>
            have hk2 : decodeString { opts with strict := false } buffer i =
              Except.ok p := hk
            rw [hk] at h
            rw [hk2]
            dsimp only at h ⊢
            by_cases cs : (opts.strict && pk.isSome
                && decide (bytesCompare (pk.getD []) (keyAsBytes p.1) ≥ 0)) = true
            · rw [if_pos cs] at h; exact absurd h (by simp)
            · rw [if_neg cs] at h
              rw [if_neg (by simp :
                ¬ ((({ opts with strict := false } : DecOptions).strict && pk.isSome
                    && decide (bytesCompare (pk.getD []) (keyAsBytes p.1) ≥ 0)) = true))]
              cases hv : decodeValue opts buffer fuel p.2 depth with
              | error e => rw [hv] at h; exact absurd h (by simp)
              | ok q =>
                rw [hv] at h
                rw [ihv opts buffer p.2 depth q hv]
                exact ihde opts buffer q.2 depth _ _ r h

/-- `_decodeInteger` never raises `UNSORTED_KEYS`. -/
theorem decodeInteger_no_unsorted (buffer : List Nat) (i : Nat) (p : Option Nat) :
    decodeInteger buffer i ≠ Except.error (DErr.decodeErr ErrCode.UNSORTED_KEYS p) := by
  intro h
  unfold decodeInteger at h
  dsimp only at h
  split_ifs at h <;> simp_all

/-- `_decodeString` never raises `UNSORTED_KEYS`. -/
theorem decodeString_no_unsorted (opts : DecOptions) (buffer : List Nat)
    (i : Nat) (p : Option Nat) :
    decodeString opts buffer i ≠
      Except.error (DErr.decodeErr ErrCode.UNSORTED_KEYS p) := by
  intro h
  rw [decodeString] at h
  cases hint : decodeInteger buffer i with
  | error e =>
    rw [hint] at h
    injection h with he
    exact decodeInteger_no_unsorted buffer i p (by rw [hint, he])
  | ok q =>
    obtain ⟨len, i1⟩ := q
    rw [hint] at h
    dsimp only at h
    split_ifs at h <;> simp_all

/-- Without the strict option no decoding step raises `UNSORTED_KEYS`. -/
theorem noUnsorted_all (fuel : Nat) :
    (∀ (opts : DecOptions) (buffer : List Nat) (i depth : Nat) (p : Option Nat),
      opts.strict = false →
      decodeValue opts buffer fuel i depth ≠
        Except.error (DErr.decodeErr ErrCode.UNSORTED_KEYS p)) ∧
    (∀ (opts : DecOptions) (buffer : List Nat) (i depth : Nat) (p : Option Nat),
      opts.strict = false →
      decodeList opts buffer fuel i depth ≠
        Except.error (DErr.decodeErr ErrCode.UNSORTED_KEYS p)) ∧
    (∀ (opts : DecOptions) (buffer : List Nat) (i depth : Nat) (acc : List DVal)
        (p : Option Nat),
      opts.strict = false →
      decodeListItems opts buffer fuel i depth acc ≠
        Except.error (DErr.decodeErr ErrCode.UNSORTED_KEYS p)) ∧
    (∀ (opts : DecOptions) (buffer : List Nat) (i depth : Nat) (p : Option Nat),
      opts.strict = false →
      decodeDictionary opts buffer fuel i depth ≠
        Except.error (DErr.decodeErr ErrCode.UNSORTED_KEYS p)) ∧
    (∀ (opts : DecOptions) (buffer : List Nat) (i depth : Nat)
        (acc : List (JSString × DVal)) (pk : Option (List Nat)) (p : Option Nat),
      opts.strict = false →
      decodeDictEntries opts buffer fuel i depth acc pk ≠
        Except.error (DErr.decodeErr ErrCode.UNSORTED_KEYS p)) := by
  induction fuel with
  | zero =>
    refine ⟨?_, ?_, ?_, ?_, ?_⟩ <;> intros <;>
      simp_all [decodeValue, decodeList, decodeListItems, decodeDictionary,
        decodeDictEntries]
  | succ fuel ih =>
    obtain ⟨ihv, ihl, ihli, ihd, ihde⟩ := ih
    refine ⟨?_, ?_, ?_, ?_, ?_⟩
    · intro opts buffer i depth p hs h
      by_cases c1 : atEnd buffer i = true
      · rw [decodeValue, if_pos c1] at h; exact absurd h (by simp)
      · by_cases c2 : isDigitAt (byteAt buffer i) = true
        · rw [decodeValue, if_neg c1, if_pos c2] at h
          exact decodeString_no_unsorted opts buffer i p h
        · by_cases c3 : byteAt buffer i = some FLAG_INTEGER
          · rw [decodeValue, if_neg c1, if_neg c2, if_pos c3] at h
            cases hdi : decodeInteger buffer i with
            | error e =>
              rw [hdi] at h
              injection h with he
              exact decodeInteger_no_unsorted buffer i p (by rw [hdi, he])
            | ok q => rw [hdi] at h; exact absurd h (by simp)
          · by_cases c4 : byteAt buffer i = some FLAG_LIST
            · rw [decodeValue, if_neg c1, if_neg c2, if_neg c3, if_pos c4] at h
              exact ihl opts buffer i depth p hs h
            · by_cases c5 : byteAt buffer i = some FLAG_DICTIONARY
              · rw [decodeValue, if_neg c1, if_neg c2, if_neg c3, if_neg c4,
                  if_pos c5] at h
                exact ihd opts buffer i depth p hs h
              · rw [decodeValue, if_neg c1, if_neg c2, if_neg c3, if_neg c4,
                  if_neg c5] at h
                exact absurd h (by simp)
    · intro opts buffer i depth p hs h
      rw [decodeList] at h
      by_cases c : (opts.maxDepth ≠ 0 && decide (depth + 1 > opts.maxDepth)) = true
      · rw [if_pos c] at h; exact absurd h (by simp)
      · rw [if_neg c] at h
        exact ihli opts buffer (i + 1) (depth + 1) [] p hs h
    · intro opts buffer i depth acc p hs h
      rw [decodeListItems] at h
      by_cases c1 : atEnd buffer i = true
      · rw [if_pos c1] at h; exact absurd h (by simp)
      · by_cases c2 : byteAt buffer i = some FLAG_END
        · rw [if_neg c1, if_pos c2] at h; exact absurd h (by simp)
        · rw [if_neg c1, if_neg c2] at h
          cases hv : decodeValue opts buffer fuel i depth with
          | error e =>
            rw [hv] at h
            injection h with he
            exact ihv opts buffer i depth p hs (by rw [hv, he])
          | ok q =>
            rw [hv] at h
            exact ihli opts buffer q.2 depth (acc ++ [q.1]) p hs h
    · intro opts buffer i depth p hs h
      rw [decodeDictionary] at h
      by_cases c : (opts.maxDepth ≠ 0 && decide (depth + 1 > opts.maxDepth)) = true
      · rw [if_pos c] at h; exact absurd h (by simp)
      · rw [if_neg c] at h
        exact ihde opts buffer (i + 1) (depth + 1) [] none p hs h
    · intro opts buffer i depth acc pk p hs h
      rw [decodeDictEntries] at h
      by_cases c1 : atEnd buffer i = true
      · rw [if_pos c1] at h; exact absurd h (by simp)
      · by_cases c2 : byteAt buffer i = some FLAG_END
        · rw [if_neg c1, if_pos c2] at h; exact absurd h (by simp)
        · rw [if_neg c1, if_neg c2] at h
          cases hk : decodeString opts buffer i with
          | error e =>
            rw [hk] at h
            injection h with he
            exact decodeString_no_unsorted opts buffer i p (by rw [hk, he])
          | ok q =>
            rw [hk] at h
            dsimp only at h
            rw [if_neg (by simp [hs])] at h
            cases hv : decodeValue opts buffer fuel q.2 depth with
            | error e =>
              rw [hv] at h
              injection h with he
              exact ihv opts buffer q.2 depth p hs (by rw [hv, he])
            | ok q2 =>
              rw [hv] at h
              exact ihde opts buffer q2.2 depth _ _ p hs h

/-- C6: construction rejects the falsy inputs (absent input, the empty
string) with `EMPTY_INPUT` before any parsing; but an empty *byte
sequence* is truthy in JS, passes the constructor, and the subsequent
decode fails with `UNEXPECTED_END` at position 0 instead. -/
theorem C6_empty_input_amended :
    (∀ opts : DecOptions,
      decoderConstruct DecodeInput.absent =
        Except.error (DErr.decodeErr ErrCode.EMPTY_INPUT none) ∧
      decoderConstruct (DecodeInput.strInput []) =
        Except.error (DErr.decodeErr ErrCode.EMPTY_INPUT none) ∧
      decodeTop opts DecodeInput.absent =
        Except.error (DErr.decodeErr ErrCode.EMPTY_INPUT none) ∧
      decodeTop opts (DecodeInput.strInput []) =
        Except.error (DErr.decodeErr ErrCode.EMPTY_INPUT none)) ∧
    decoderConstruct (DecodeInput.bytesInput []) = Except.ok [] ∧
    decodeTop {} (DecodeInput.bytesInput []) =
      Except.error (DErr.decodeErr ErrCode.UNEXPECTED_END (some 0)) :=
  ⟨fun _ => ⟨rfl, rfl, rfl, rfl⟩, rfl, rfl⟩

/-- C6 counterexample: the empty byte sequence is an empty input, yet the
decoder constructor accepts it, and decoding raises `UNEXPECTED_END` (with
a position), not `EMPTY_INPUT`. -/
theorem C6_counterexample :
    decoderConstruct (DecodeInput.bytesInput []) = Except.ok [] ∧
    decodeTop {} (DecodeInput.bytesInput []) =
      Except.error (DErr.decodeErr ErrCode.UNEXPECTED_END (some 0)) :=
  ⟨rfl, rfl⟩

theorem C6_witness :
    decodeTop {} DecodeInput.absent =
      Except.error (DErr.decodeErr ErrCode.EMPTY_INPUT none) :=
  ((C6_empty_input_amended.1 {}).2.2).1

set_option maxHeartbeats 8000000 in
/-- C3: in strict mode a dictionary key that does not compare strictly
greater (byte-lexicographically) than its predecessor raises
`UNSORTED_KEYS`; without strict mode `UNSORTED_KEYS` can never arise, and
`d1:bi1e1:ai2ee` decodes with its input key order; but the resulting JS
object puts array-index-like keys first in numeric order, so
`d2:10i1e1:2i2ee` comes back with key order `"2", "10"`, not the input
order. -/
theorem C3_strict_key_order :
    (∀ (opts : DecOptions) (buffer : List Nat) (fuel i i2 depth : Nat)
        (acc : List (JSString × DVal)) (pkb : List Nat) (key : DVal),
      opts.strict = true →
      atEnd buffer i = false →
      byteAt buffer i ≠ some FLAG_END →
      decodeString opts buffer i = Except.ok (key, i2) →
      bytesCompare pkb (keyAsBytes key) ≥ 0 →
      decodeDictEntries opts buffer (fuel + 1) i depth acc (some pkb) =
        Except.error (DErr.decodeErr ErrCode.UNSORTED_KEYS (some i2))) ∧
    (∀ (opts : DecOptions) (input : DecodeInput) (p : Option Nat),
      opts.strict = false →
      decodeTop opts input ≠
        Except.error (DErr.decodeErr ErrCode.UNSORTED_KEYS p)) ∧
    decodeTop { strict := true } (DecodeInput.strInput (ascii "d1:bi1e1:ai2ee")) =
      Except.error (DErr.decodeErr ErrCode.UNSORTED_KEYS (some 10)) ∧
    decodeTop {} (DecodeInput.strInput (ascii "d1:bi1e1:ai2ee")) =
      Except.ok (DVal.ddict [(ascii "b", DVal.dint 1), (ascii "a", DVal.dint 2)]) ∧
    decodeTop {} (DecodeInput.strInput (ascii "d2:10i1e1:2i2ee")) =
      Except.ok (DVal.ddict [(ascii "2", DVal.dint 2), (ascii "10", DVal.dint 1)]) := by
  refine ⟨?_, ?_, rfl, rfl, rfl⟩
  · intro opts buffer fuel i i2 depth acc pkb key hs hne hnotend hk hcmp
    rw [decodeDictEntries, if_neg (by simp [hne]), if_neg hnotend, hk]
    dsimp only
    rw [if_pos (by simp [hs, hcmp])]
  · intro opts input p hs h
    rw [decodeTop] at h
    cases hc : decoderConstruct input with
    | error e =>
      rw [hc] at h
      rw [decoderConstruct.eq_def] at hc
      split_ifs at hc with hf
      injection hc with he
      rw [← he] at h
      injection h with hcode
      exact absurd hcode (by simp)
    | ok buffer =>
      rw [hc] at h
      dsimp only at h
      cases hv : decodeValue opts buffer (4 * buffer.length + 8) 0 0 with
      | error e =>
        rw [hv] at h
        injection h with he
        exact (noUnsorted_all (4 * buffer.length + 8)).1 opts buffer 0 0 p hs
          (by rw [hv, he])
      | ok q =>
        rw [hv] at h
        dsimp only at h
        rw [if_neg (by simp [hs])] at h
        exact absurd h (by simp)

set_option maxHeartbeats 4000000 in
/-- C3 counterexample: decoding `d2:10i1e1:2i2ee` without strict mode
succeeds, but the resulting object enumerates `"2"` before `"10"`
(ECMAScript array-index property order), not in the input key order
`"10", "2"`. -/
theorem C3_counterexample :
    decodeTop {} (DecodeInput.strInput (ascii "d2:10i1e1:2i2ee")) =
      Except.ok (DVal.ddict [(ascii "2", DVal.dint 2), (ascii "10", DVal.dint 1)]) ∧
    decodeTop {} (DecodeInput.strInput (ascii "d2:10i1e1:2i2ee")) ≠
      Except.ok (DVal.ddict [(ascii "10", DVal.dint 1), (ascii "2", DVal.dint 2)]) := by
  refine ⟨rfl, fun h => ?_⟩
  have hh : (Except.ok (DVal.ddict [(ascii "2", DVal.dint 2), (ascii "10", DVal.dint 1)]) :
      Except DErr DVal) =
      Except.ok (DVal.ddict [(ascii "10", DVal.dint 1), (ascii "2", DVal.dint 2)]) :=
    Eq.trans (Eq.symm rfl) h
  simp only [Except.ok.injEq, DVal.ddict.injEq, List.cons.injEq, Prod.mk.injEq] at hh
  exact absurd hh.1.1 (by decide)

theorem C3_witness :
    decodeDictEntries { strict := true } (ascii "d1:bi1e1:ai2ee") 14 7 1
        [(ascii "b", DVal.dint 1)] (some (ascii "b")) =
      Except.error (DErr.decodeErr ErrCode.UNSORTED_KEYS (some 10)) :=
  C3_strict_key_order.1 { strict := true } (ascii "d1:bi1e1:ai2ee") 13 7 10 1
    [(ascii "b", DVal.dint 1)] (ascii "b") (DVal.dbytes (ascii "a"))
    rfl rfl (by decide) rfl (by decide)

/-- C4: after a complete first value, remaining bytes make a strict decode
fail with `TRAILING_DATA` carrying no position, while the same decode
without strict mode returns that first value and ignores the trailing
bytes. -/
theorem C4_trailing_data_strict (opts : DecOptions) (input : DecodeInput)
    (buffer : List Nat) (v : DVal) (i : Nat)
    (hstrict : opts.strict = true)
    (hcons : decoderConstruct input = Except.ok buffer)
    (hdec : decodeValue opts buffer (4 * buffer.length + 8) 0 0 = Except.ok (v, i))
    (hrem : i < buffer.length) :
    decodeTop opts input = Except.error (DErr.decodeErr ErrCode.TRAILING_DATA none) ∧
    decodeTop { opts with strict := false } input = Except.ok v := by
  constructor
  · rw [decodeTop, hcons]
    dsimp only
    rw [hdec]
    dsimp only
    rw [if_pos (by simp [hstrict, hrem])]
  · have hdec2 : decodeValue { opts with strict := false } buffer
        (4 * buffer.length + 8) 0 0 = Except.ok (v, i) :=
      (strictOff_all (4 * buffer.length + 8)).1 opts buffer 0 0 (v, i) hdec
    rw [decodeTop, hcons]
    dsimp only
    rw [hdec2]
    dsimp only
    rw [if_neg (by simp)]

theorem C4_witness :
    decodeTop { strict := true } (DecodeInput.strInput (ascii "i42ei99e")) =
      Except.error (DErr.decodeErr ErrCode.TRAILING_DATA none) ∧
    decodeTop { ({ strict := true } : DecOptions) with strict := false }
        (DecodeInput.strInput (ascii "i42ei99e")) = Except.ok (DVal.dint 42) :=
  C4_trailing_data_strict { strict := true }
    (DecodeInput.strInput (ascii "i42ei99e")) (ascii "i42ei99e")
    (DVal.dint 42) 4 rfl rfl rfl (by decide)

/-- C5: inside a true bencode integer, a `0` followed by another digit
just after the optional sign fails with `LEADING_ZEROS` (so `i03e` and
`i-03e` both fail that way), and a zero accumulated value with a recorded
negative sign fails with `NEGATIVE_ZERO` (`i-0e`); string length prefixes
skip the leading-zeros check, so `03:abc` decodes fine. -/
theorem C5_leading_zeros_negative_zero :
    (∀ (buffer : List Nat) (i : Nat), byteAt buffer i = some FLAG_INTEGER →
      byteAt buffer (afterSignScan buffer i) = some 0x30 →
      isDigitAt (byteAt buffer (afterSignScan buffer i + 1)) = true →
      decodeInteger buffer i =
        Except.error (DErr.decodeErr ErrCode.LEADING_ZEROS
          (some (afterSignScan buffer i)))) ∧
    (∀ (buffer : List Nat) (i i4 : Nat), byteAt buffer i = some FLAG_INTEGER →
      byteAt buffer (afterPlus buffer i) = some FLAG_MINUS →
      (byteAt buffer (afterSignScan buffer i) = some 0x30 →
        isDigitAt (byteAt buffer (afterSignScan buffer i + 1)) = false) →
      digitRun buffer (afterSignScan buffer i) 0 false = (0, i4) →
      byteAt buffer i4 = some FLAG_END →
      decodeInteger buffer i =
        Except.error (DErr.decodeErr ErrCode.NEGATIVE_ZERO (some (i4 + 1)))) ∧
    decodeTop {} (DecodeInput.strInput (ascii "i03e")) =
      Except.error (DErr.decodeErr ErrCode.LEADING_ZEROS (some 1)) ∧
    decodeTop {} (DecodeInput.strInput (ascii "i-03e")) =
      Except.error (DErr.decodeErr ErrCode.LEADING_ZEROS (some 2)) ∧
    decodeTop {} (DecodeInput.strInput (ascii "i-0e")) =
      Except.error (DErr.decodeErr ErrCode.NEGATIVE_ZERO (some 4)) ∧
    decodeTop {} (DecodeInput.strInput (ascii "03:abc")) =
      Except.ok (DVal.dbytes (ascii "abc")) := by
  refine ⟨?_, ?_, rfl, rfl, rfl, rfl⟩
  · intro buffer i hi hz hd
    unfold decodeInteger
    unfold afterSignScan afterPlus afterIntFlag at *
    simp only [hi, reduceIte] at *
    split at hz <;> split at hz <;> simp_all
  · intro buffer i i4 hi hm hlz hrun hend
    unfold decodeInteger
    unfold afterSignScan afterPlus afterIntFlag at *
    have hne := not_atEnd_of_byteAt hend
    simp only [hi, reduceIte] at *
    split at hrun <;> simp_all

theorem C5_witness :
    decodeInteger (ascii "i03e") 0 =
      Except.error (DErr.decodeErr ErrCode.LEADING_ZEROS (some 1)) ∧
    decodeInteger (ascii "i-0e") 0 =
      Except.error (DErr.decodeErr ErrCode.NEGATIVE_ZERO (some 4)) :=
  ⟨C5_leading_zeros_negative_zero.1 (ascii "i03e") 0 rfl rfl (by decide),
    C5_leading_zeros_negative_zero.2.1 (ascii "i-0e") 0 3
      rfl rfl (by decide) rfl rfl⟩

/-- C7: a declared string length running past the buffer end fails with
`UNEXPECTED_END` before any content is read (`100:abc` fails that way at
position 4); a successful string decode consumes exactly the declared
number of bytes, never moving the cursor past the buffer end, and yields
exactly the declared slice. -/
theorem C7_string_length_bounds :
    (∀ (opts : DecOptions) (buffer : List Nat) (i i1 : Nat) (len : Int),
      opts.maxStringLength = 0 →
      decodeInteger buffer i = Except.ok (len, i1) →
      (i1 : Int) + len > (buffer.length : Int) →
      decodeString opts buffer i =
        Except.error (DErr.decodeErr ErrCode.UNEXPECTED_END (some i1))) ∧
    (∀ (opts : DecOptions) (buffer : List Nat) (i i2 : Nat) (v : DVal),
      decodeString opts buffer i = Except.ok (v, i2) →
      ∃ (len : Int) (i1 : Nat),
        decodeInteger buffer i = Except.ok (len, i1) ∧ 0 ≤ len ∧
        i2 = i1 + len.toNat ∧ i2 ≤ buffer.length ∧
        v = (if opts.stringify then
              DVal.dstr (bytesToString ((buffer.drop i1).take len.toNat) opts.encoding)
            else DVal.dbytes ((buffer.drop i1).take len.toNat))) ∧
    decodeTop {} (DecodeInput.strInput (ascii "100:abc")) =
      Except.error (DErr.decodeErr ErrCode.UNEXPECTED_END (some 4)) := by
  refine ⟨?_, ?_, rfl⟩
  · intro opts buffer i i1 len hmax hint hover
    rw [decodeString, hint]
    dsimp only
    rw [if_neg (by simp [hmax]), if_pos (by simpa using hover)]
  · intro opts buffer i i2 v h
    rw [decodeString] at h
    cases hint : decodeInteger buffer i with
    | error e => rw [hint] at h; exact absurd h (by simp)
    | ok p =>
      obtain ⟨len, i1⟩ := p
      rw [hint] at h
      dsimp only at h
      refine ⟨len, i1, rfl, ?_⟩
      split_ifs at h with h1 h2 h3 h4 <;>
      first
      | exact Except.noConfusion h
      | (injection h with hp
         injection hp with hv hst
         subst hv
         subst hst
         exact ⟨by omega, rfl, by omega, by simp [h4]⟩)

theorem C7_witness :
    decodeString {} (ascii "100:abc") 0 =
      Except.error (DErr.decodeErr ErrCode.UNEXPECTED_END (some 4)) :=
  C7_string_length_bounds.1 {} (ascii "100:abc") 0 4 100 rfl rfl (by decide)

/-- Truncation toward zero is the identity on integers. -/
theorem ratTrunc_intCast (n : ℤ) : ratTrunc (n : ℚ) = n := by
  rw [ratTrunc]
  split_ifs with h
  · exact Int.floor_intCast n
  · exact Int.ceil_intCast n

/-- Every byte emitted by the decimal-rendering loop is an ASCII digit
(under the fuel invariant `n ≤ fuel`, or directly when `n < 10`). -/
theorem natDecimalAux_digits (fuel : Nat) :
    ∀ n, n ≤ fuel ∨ n < 10 →
      ∀ c ∈ natDecimalAux fuel n, 0x30 ≤ c ∧ c ≤ 0x39 := by
  induction fuel with
  | zero =>
    intro n h c hc
    rw [natDecimalAux] at hc
    simp only [List.mem_singleton] at hc
    omega
  | succ fuel ih =>
    intro n h c hc
    rw [natDecimalAux] at hc
    by_cases h10 : n < 10
    · rw [if_pos h10] at hc
      simp only [List.mem_singleton] at hc
      omega
    · rw [if_neg h10] at hc
      rcases List.mem_append.mp hc with h1 | h1
      · exact ih (n / 10) (Or.inl (by omega)) c h1
      · simp only [List.mem_singleton] at h1
        omega

/-- Every byte of a rendered decimal number is an ASCII digit. -/
theorem natDecimalDigits_digits (n : Nat) :
    ∀ c ∈ natDecimalDigits n, 0x30 ≤ c ∧ c ≤ 0x39 :=
  natDecimalAux_digits n n (Or.inl le_rfl)

/-- A rendered decimal number has at least one digit. -/
theorem natDecimalDigits_ne_nil (n : Nat) : natDecimalDigits n ≠ [] := by
  rw [natDecimalDigits]
  cases n with
  | zero => rw [natDecimalAux]; simp
  | succ m =>
    rw [natDecimalAux]
    split_ifs <;> simp

/-- Every character of a grammatical integer body is `-` or a digit. -/
theorem specIntegerBody_mem {body : List Nat}
    (h : specIntegerBody body = true) {c : Nat} (hc : c ∈ body) :
    c = 0x2d ∨ (0x30 ≤ c ∧ c ≤ 0x39) := by
  rw [specIntegerBody] at h
  split_ifs at h with hm
  · cases body with
    | nil => simp at hc
    | cons b rest =>
      simp only [List.head?_cons, Option.some.injEq] at hm
      simp only [List.tail_cons, Bool.and_eq_true, decide_eq_true_eq] at h
      rcases List.mem_cons.mp hc with h1 | h1
      · exact Or.inl (h1.trans hm)
      · have hd := List.all_eq_true.mp h.1.2 c h1
        simp only [isAsciiDigit, Bool.and_eq_true, decide_eq_true_eq] at hd
        exact Or.inr hd
  · simp only [Bool.and_eq_true, decide_eq_true_eq] at h
    have hd := List.all_eq_true.mp h.1.2 c hc
    simp only [isAsciiDigit, Bool.and_eq_true, decide_eq_true_eq] at hd
    exact Or.inr hd

/-- A purported integer value `i<mid>e` containing a character that is
neither `-` nor a digit is outside the wire grammar. -/
theorem not_wire_int_of_bad_char (mid : List Nat) (c : Nat) (hmem : c ∈ mid)
    (hdash : c ≠ 0x2d) (hdigit : ¬(0x30 ≤ c ∧ c ≤ 0x39)) :
    ¬ WireValue (0x69 :: (mid ++ [0x65])) := by
  intro h
  generalize hw : 0x69 :: (mid ++ [0x65]) = w at h
  cases h with
  | integer body hb =>
    have h2 : mid ++ [0x65] = body ++ [0x65] := by injection hw
    have hbody : mid = body := List.append_cancel_right h2
    rcases specIntegerBody_mem hb (hbody ▸ hmem) with h1 | h1
    · exact hdash h1
    · exact hdigit h1
  | bytestring bs =>
    cases hnd : natDecimalDigits bs.length with
    | nil => exact natDecimalDigits_ne_nil _ hnd
    | cons d rest =>
      rw [hnd] at hw
      have hd : (0x69 : Nat) = d := by injection hw
      have := natDecimalDigits_digits bs.length d
        (by rw [hnd]; exact List.mem_cons_self d rest)
      omega
  | list ws hws =>
    have : (0x69 : Nat) = 0x6c := by injection hw
    exact absurd this (by decide)
  | dict es hk hv =>
    have : (0x69 : Nat) = 0x64 := by injection hw
    exact absurd this (by decide)

/-- C8 counterexample: at `n = 1e21` (a finite number whose truncation is
defined) the encoder emits `i1e+21e` — the host's exponential rendering —
and not `i` + the decimal digits of the truncated value + `e`, refuting
the claim's universal "emits the bencode integer obtained by truncating
n" at this input (its concrete examples 42.9, −42.9, −0 do hold, see the
amended theorem). -/
theorem C8_counterexample :
    encodeTop (EncVal.enum (JSNum.fin ((10 : ℚ) ^ 21))) =
      Except.ok (ascii "i1e+21e") ∧
    jsTrunc (JSNum.fin ((10 : ℚ) ^ 21)) = JSNum.fin ((10 : ℚ) ^ 21) ∧
    encodeTop (EncVal.enum (JSNum.fin ((10 : ℚ) ^ 21))) ≠
      Except.ok ([FLAG_INTEGER] ++
        intDecimalBytes (ratTrunc ((10 : ℚ) ^ 21)) ++ [FLAG_END]) := by
  refine ⟨rfl, ?_, fun h => ?_⟩
  · rw [jsTrunc, if_neg (by norm_num)]
    norm_num [ratTrunc]
  · have h0 : encodeTop (EncVal.enum (JSNum.fin ((10 : ℚ) ^ 21))) =
        Except.ok (ascii "i1e+21e") := rfl
    rw [h0] at h
    injection h with h2
    have h3 := congrArg List.length h2
    rw [show intDecimalBytes (ratTrunc ((10 : ℚ) ^ 21)) =
      ascii "1000000000000000000000" from rfl] at h3
    exact absurd h3 (by decide)

/-- C8 (amended): for every rational `q` whose truncation toward zero has
magnitude at most `2^53` — the safe-integer range, on which the host's
`String(Math.trunc(q))` is exactly the truncated value's decimal digits —
`encode` emits `i` + those digits + `e` (truncating toward zero, never
rounding); in particular `encode(42.9) = encode(42)`,
`encode(-42.9) = encode(-42)`, and both `-0` and `0` encode as `i0e`.
(Beyond `2^53` the host renders the shortest decimal for the double, whose
trailing digits can differ from the exact truncation — `String(2^60)` is
`"1152921504606847000"` — and from `10^21` on it renders exponentially:
see the counterexample.) -/
theorem C8_truncation :
    (∀ q : ℚ, (ratTrunc q).natAbs ≤ 2 ^ 53 →
      encodeTop (EncVal.enum (JSNum.fin q)) =
        Except.ok ([FLAG_INTEGER] ++ intDecimalBytes (ratTrunc q)
          ++ [FLAG_END])) ∧
    ratTrunc (429 / 10 : ℚ) = 42 ∧
    ratTrunc (-429 / 10 : ℚ) = -42 ∧
    encodeTop (EncVal.enum (JSNum.fin (429 / 10))) =
      encodeTop (EncVal.enum (JSNum.fin 42)) ∧
    encodeTop (EncVal.enum (JSNum.fin (-429 / 10))) =
      encodeTop (EncVal.enum (JSNum.fin (-42))) ∧
    encodeTop (EncVal.enum JSNum.negZero) = Except.ok (ascii "i0e") ∧
    encodeTop (EncVal.enum (JSNum.fin 0)) = Except.ok (ascii "i0e") := by
  have hgen : ∀ q : ℚ, (ratTrunc q).natAbs ≤ 2 ^ 53 →
      encodeTop (EncVal.enum (JSNum.fin q)) =
        Except.ok ([FLAG_INTEGER] ++ intDecimalBytes (ratTrunc q)
          ++ [FLAG_END]) := by
    intro q hq53
    have hq : (ratTrunc q).natAbs < 10 ^ 21 := by
      have h53 : (2 : ℕ) ^ 53 < 10 ^ 21 := by norm_num
      omega
    have h1 : encodeTop (EncVal.enum (JSNum.fin q)) =
        Except.ok ([FLAG_INTEGER] ++ jsNumRenderBytes (jsTrunc (JSNum.fin q))
          ++ [FLAG_END]) := rfl
    rw [h1, jsTrunc]
    by_cases hio : -1 < q ∧ q < 0
    · rw [if_pos hio]
      have hz : ratTrunc q = 0 := by
        rw [ratTrunc, if_neg (not_le.mpr hio.2)]
        exact Int.ceil_eq_zero_iff.mpr ⟨hio.1, le_of_lt hio.2⟩
      rw [hz]
      rfl
    · rw [if_neg hio]
      have h2 : jsNumRenderBytes (JSNum.fin ((ratTrunc q : ℤ) : ℚ)) =
          if (ratTrunc ((ratTrunc q : ℤ) : ℚ)).natAbs < 10 ^ 21 then
            intDecimalBytes (ratTrunc ((ratTrunc q : ℤ) : ℚ))
          else jsExpBytes (ratTrunc ((ratTrunc q : ℤ) : ℚ)) := rfl
      rw [h2, ratTrunc_intCast, if_pos hq]
  have h42 : ratTrunc (429 / 10 : ℚ) = 42 := by
    rw [ratTrunc, if_pos (by norm_num)]
    rw [Int.floor_eq_iff]
    norm_num
  have h42n : ratTrunc (-429 / 10 : ℚ) = -42 := by
    rw [ratTrunc, if_neg (by norm_num)]
    rw [Int.ceil_eq_iff]
    norm_num
  have hr42 : ratTrunc (42 : ℚ) = 42 := by
    rw [show (42 : ℚ) = ((42 : ℤ) : ℚ) by norm_num, ratTrunc_intCast]
  have hr42n : ratTrunc (-42 : ℚ) = -42 := by
    rw [show (-42 : ℚ) = ((-42 : ℤ) : ℚ) by norm_num, ratTrunc_intCast]
  refine ⟨hgen, h42, h42n, ?_, ?_, rfl, rfl⟩
  · rw [hgen (429 / 10) (by rw [h42]; decide), h42,
      hgen 42 (by rw [hr42]; decide), hr42]
  · rw [hgen (-429 / 10) (by rw [h42n]; decide), h42n,
      hgen (-42) (by rw [hr42n]; decide), hr42n]

theorem C8_witness :
    encodeTop (EncVal.enum (JSNum.fin 5)) =
      Except.ok ([FLAG_INTEGER] ++ intDecimalBytes (ratTrunc 5)
        ++ [FLAG_END]) :=
  C8_truncation.1 5
    (by rw [show (5 : ℚ) = ((5 : ℤ) : ℚ) by norm_num, ratTrunc_intCast]; decide)

/-- C10: the encoder accepts `NaN`, `±Infinity` and `1e21` without any
error, but the emitted bytes (`iNaNe`, `iInfinitye`, `i-Infinitye`,
`i1e+21e` — `i` + the host rendering + `e`) are not grammatical bencode
values, and they do not decode back: `iNaNe` fails with `UNEXPECTED_END`,
`i1e+21e` fails with `TRAILING_DATA` in strict mode and decodes to `1`
(not `1e21`) without it. -/
theorem C10_invalid_number_emissions :
    encodeTop (EncVal.enum JSNum.nan) = Except.ok (ascii "iNaNe") ∧
    encodeTop (EncVal.enum JSNum.inf) = Except.ok (ascii "iInfinitye") ∧
    encodeTop (EncVal.enum JSNum.neginf) = Except.ok (ascii "i-Infinitye") ∧
    encodeTop (EncVal.enum (JSNum.fin ((10 : ℚ) ^ 21))) =
      Except.ok (ascii "i1e+21e") ∧
    ¬ WireValue (ascii "iNaNe") ∧
    ¬ WireValue (ascii "iInfinitye") ∧
    ¬ WireValue (ascii "i-Infinitye") ∧
    ¬ WireValue (ascii "i1e+21e") ∧
    decodeTop {} (DecodeInput.bytesInput (ascii "iNaNe")) =
      Except.error (DErr.decodeErr ErrCode.UNEXPECTED_END (some 1)) ∧
    decodeTop { strict := true } (DecodeInput.bytesInput (ascii "i1e+21e")) =
      Except.error (DErr.decodeErr ErrCode.TRAILING_DATA none) ∧
    decodeTop {} (DecodeInput.bytesInput (ascii "i1e+21e")) =
      Except.ok (DVal.dint 1) := by
  refine ⟨rfl, rfl, rfl, rfl, ?_, ?_, ?_, ?_, rfl, rfl, rfl⟩
  · rw [show ascii "iNaNe" =
      0x69 :: ([0x4e, 0x61, 0x4e] ++ [0x65]) from rfl]
    exact not_wire_int_of_bad_char _ 0x4e (by decide) (by decide) (by decide)
  · rw [show ascii "iInfinitye" =
      0x69 :: ([0x49, 0x6e, 0x66, 0x69, 0x6e, 0x69, 0x74, 0x79]
        ++ [0x65]) from rfl]
    exact not_wire_int_of_bad_char _ 0x49 (by decide) (by decide) (by decide)
  · rw [show ascii "i-Infinitye" =
      0x69 :: ([0x2d, 0x49, 0x6e, 0x66, 0x69, 0x6e, 0x69, 0x74, 0x79]
        ++ [0x65]) from rfl]
    exact not_wire_int_of_bad_char _ 0x49 (by decide) (by decide) (by decide)
  · rw [show ascii "i1e+21e" =
      0x69 :: ([0x31, 0x65, 0x2b, 0x32, 0x31] ++ [0x65]) from rfl]
    exact not_wire_int_of_bad_char _ 0x2b (by decide) (by decide) (by decide)

/-- Inversion of the JS default string comparison on nonempty strings. -/
theorem jsStrLe_cons_iff {x y : Nat} {xs ys : JSString} :
    jsStrLe (x :: xs) (y :: ys) = true ↔
      x < y ∨ (x = y ∧ jsStrLe xs ys = true) := by
  rw [jsStrLe]
  split_ifs with h1 h2
  · simp [h1]
  · constructor
    · intro h; simp at h
    · rintro (h | ⟨h, _⟩) <;> omega
  · constructor
    · intro h; exact Or.inr ⟨by omega, h⟩
    · rintro (h | ⟨_, h⟩)
      · omega
      · exact h

/-- The JS default string comparison is total. -/
theorem jsStrLe_total : ∀ a b : JSString,
    jsStrLe a b = true ∨ jsStrLe b a = true := by
  intro a
  induction a with
  | nil => intro b; exact Or.inl rfl
  | cons x xs ih =>
    intro b
    cases b with
    | nil => exact Or.inr rfl
    | cons y ys =>
      rw [jsStrLe_cons_iff, jsStrLe_cons_iff]
      rcases Nat.lt_trichotomy x y with h | h | h
      · exact Or.inl (Or.inl h)
      · rcases ih ys with h2 | h2
        · exact Or.inl (Or.inr ⟨h, h2⟩)
        · exact Or.inr (Or.inr ⟨h.symm, h2⟩)
      · exact Or.inr (Or.inl h)

/-- The JS default string comparison is transitive. -/
theorem jsStrLe_trans : ∀ a b c : JSString,
    jsStrLe a b = true → jsStrLe b c = true → jsStrLe a c = true := by
  intro a
  induction a with
  | nil => intro b c _ _; rfl
  | cons x xs ih =>
    intro b c hab hbc
    cases b with
    | nil => rw [jsStrLe] at hab; exact absurd hab (by simp)
    | cons y ys =>
      cases c with
      | nil => rw [jsStrLe] at hbc; exact absurd hbc (by simp)
      | cons z zs =>
        rw [jsStrLe_cons_iff] at hab hbc ⊢
        rcases hab with h1 | ⟨h1, h1r⟩ <;> rcases hbc with h2 | ⟨h2, h2r⟩
        · exact Or.inl (by omega)
        · exact Or.inl (by omega)
        · exact Or.inl (by omega)
        · exact Or.inr ⟨by omega, ih ys zs h1r h2r⟩

/-- The JS default string comparison is antisymmetric. -/
theorem jsStrLe_antisymm : ∀ a b : JSString,
    jsStrLe a b = true → jsStrLe b a = true → a = b := by
  intro a
  induction a with
  | nil =>
    intro b _ hba
    cases b with
    | nil => rfl
    | cons y ys => rw [jsStrLe] at hba; exact absurd hba (by simp)
  | cons x xs ih =>
    intro b hab hba
    cases b with
    | nil => rw [jsStrLe] at hab; exact absurd hab (by simp)
    | cons y ys =>
      rw [jsStrLe_cons_iff] at hab hba
      rcases hab with h1 | ⟨h1, h1r⟩
      · rcases hba with h2 | ⟨h2, _⟩ <;> omega
      · rcases hba with h2 | ⟨_, h2r⟩
        · omega
        · rw [h1, ih ys h1r h2r]

/-- Two entry lists that are permutations of each other, both sorted by
key, with no duplicate key, are equal. -/
theorem sortedEntries_perm_eq :
    ∀ l₁ l₂ : List (JSString × EncVal),
      List.Perm l₁ l₂ →
      List.Pairwise (fun a b => jsStrLe a.fst b.fst = true) l₁ →
      List.Pairwise (fun a b => jsStrLe a.fst b.fst = true) l₂ →
      (l₁.map Prod.fst).Nodup → l₁ = l₂ := by
  intro l₁
  induction l₁ with
  | nil => intro l₂ hperm _ _ _; exact (hperm.symm.eq_nil).symm
  | cons a t₁ ih =>
    intro l₂ hperm hp1 hp2 hnodup
    cases l₂ with
    | nil => exact absurd hperm.eq_nil (by simp)
    | cons b t₂ =>
      have hab : a = b := by
        have hbmem : b ∈ a :: t₁ := hperm.symm.subset (List.mem_cons_self b t₂)
        have hamem : a ∈ b :: t₂ := hperm.subset (List.mem_cons_self a t₁)
        rcases List.mem_cons.mp hbmem with h | h
        · exact h.symm
        rcases List.mem_cons.mp hamem with h2 | h2
        · exact h2
        have h3 : jsStrLe a.fst b.fst = true :=
          (List.pairwise_cons.mp hp1).1 b h
        have h4 : jsStrLe b.fst a.fst = true :=
          (List.pairwise_cons.mp hp2).1 a h2
        have hk : a.fst = b.fst := jsStrLe_antisymm _ _ h3 h4
        exfalso
        have hnotin : a.fst ∉ t₁.map Prod.fst := by
          rw [List.map_cons] at hnodup
          exact (List.nodup_cons.mp hnodup).1
        exact hnotin (hk ▸ List.mem_map_of_mem Prod.fst h)
      subst hab
      have hperm2 : List.Perm t₁ t₂ := hperm.cons_inv
      have ht : t₁ = t₂ := by
        apply ih t₂ hperm2 (List.pairwise_cons.mp hp1).2
          (List.pairwise_cons.mp hp2).2
        rw [List.map_cons] at hnodup
        exact (List.nodup_cons.mp hnodup).2
      rw [ht]

/-- `sortDictsEntries` is entrywise. -/
theorem sortDictsEntries_eq_map (es : List (JSString × EncVal)) :
    sortDictsEntries es = es.map (fun e => (e.fst, sortDicts e.snd)) := by
  induction es with
  | nil => rfl
  | cons e rest ih =>
    obtain ⟨k, v⟩ := e
    rw [sortDictsEntries, List.map_cons, ih]

/-- `sortDictsEntries` keeps keys. -/
theorem sortDictsEntries_map_fst (es : List (JSString × EncVal)) :
    (sortDictsEntries es).map Prod.fst = es.map Prod.fst := by
  rw [sortDictsEntries_eq_map, List.map_map]
  rfl

/-- C1 (amended): the encoder emits dictionary entries sorted by the JS
default comparator — ascending lexicographic order on UTF-16 code units
(`Object.keys(data).sort()`) — and the output is insertion-order
independent: permuting a duplicate-free entry list never changes the
bytes; `encode({z:1,a:2})` is the bytes of `d1:ai2e1:zi1ee` under both
insertion orders.  (The counterexample shows the order is not ascending
on the keys' encoded UTF-8 bytes, as the claim states it.) -/
theorem C1_dictionary_canonicalization :
    (∀ es : List (JSString × EncVal),
      List.Pairwise (fun a b => jsStrLe a.fst b.fst = true)
        (List.insertionSort (fun a b => jsStrLe a.fst b.fst = true)
          (sortDictsEntries es))) ∧
    (∀ es₁ es₂ : List (JSString × EncVal),
      List.Perm es₁ es₂ → (es₁.map Prod.fst).Nodup →
      encodeTop (EncVal.edict es₁) = encodeTop (EncVal.edict es₂)) ∧
    encodeTop (EncVal.edict [(ascii "z", EncVal.enum (JSNum.fin 1)),
        (ascii "a", EncVal.enum (JSNum.fin 2))]) =
      Except.ok (ascii "d1:ai2e1:zi1ee") ∧
    encodeTop (EncVal.edict [(ascii "a", EncVal.enum (JSNum.fin 2)),
        (ascii "z", EncVal.enum (JSNum.fin 1))]) =
      Except.ok (ascii "d1:ai2e1:zi1ee") := by
  haveI hto : IsTotal (JSString × EncVal)
      (fun a b => jsStrLe a.fst b.fst = true) :=
    ⟨fun a b => jsStrLe_total a.fst b.fst⟩
  haveI htr : IsTrans (JSString × EncVal)
      (fun a b => jsStrLe a.fst b.fst = true) :=
    ⟨fun a b c => jsStrLe_trans a.fst b.fst c.fst⟩
  refine ⟨?_, ?_, rfl, rfl⟩
  · intro es
    exact List.sorted_insertionSort _ _
  · intro es₁ es₂ hperm hnodup
    have hs : List.insertionSort (fun a b => jsStrLe a.fst b.fst = true)
          (sortDictsEntries es₁) =
        List.insertionSort (fun a b => jsStrLe a.fst b.fst = true)
          (sortDictsEntries es₂) := by
      apply sortedEntries_perm_eq
      · refine (List.perm_insertionSort _ _).trans
          (List.Perm.trans ?_ (List.perm_insertionSort _ _).symm)
        rw [sortDictsEntries_eq_map, sortDictsEntries_eq_map]
        exact hperm.map _
      · exact List.sorted_insertionSort _ _
      · exact List.sorted_insertionSort _ _
      · have hp2 : ((List.insertionSort (fun a b => jsStrLe a.fst b.fst = true)
            (sortDictsEntries es₁)).map Prod.fst).Perm
            ((sortDictsEntries es₁).map Prod.fst) :=
          (List.perm_insertionSort _ _).map _
        rw [List.Perm.nodup_iff hp2, sortDictsEntries_map_fst]
        exact hnodup
    have h1 : encodeTop (EncVal.edict es₁) =
        encodeSorted (EncVal.edict
          (List.insertionSort (fun a b => jsStrLe a.fst b.fst = true)
            (sortDictsEntries es₁))) := rfl
    have h2 : encodeTop (EncVal.edict es₂) =
        encodeSorted (EncVal.edict
          (List.insertionSort (fun a b => jsStrLe a.fst b.fst = true)
            (sortDictsEntries es₂))) := rfl
    rw [h1, h2, hs]

/-- C1 counterexample: with the keys U+FFFF and U+1F600 (a surrogate
pair in UTF-16), `Object.keys().sort()` puts the surrogate pair first
(0xD83D < 0xFFFF on code units), yet its UTF-8 encoding `F0 9F 98 80` is
byte-lexicographically greater than U+FFFF's `EF BF BF`: the emitted
entry order is not ascending on the keys' encoded bytes. -/
theorem C1_counterexample :
    encodeTop (EncVal.edict [([0xFFFF], EncVal.enum (JSNum.fin 1)),
        ([0xD83D, 0xDE00], EncVal.enum (JSNum.fin 2))]) =
      Except.ok ([0x64] ++ stringChunk [0xD83D, 0xDE00] ++ ascii "i2e"
        ++ stringChunk [0xFFFF] ++ ascii "i1e" ++ [0x65]) ∧
    stringChunk [0xD83D, 0xDE00] = [0x34, 0x3a, 0xF0, 0x9F, 0x98, 0x80] ∧
    stringChunk [0xFFFF] = [0x33, 0x3a, 0xEF, 0xBF, 0xBF] ∧
    bytesCompare (utf8Encode [0xD83D, 0xDE00]) (utf8Encode [0xFFFF]) = 1 := by
  exact ⟨rfl, rfl, rfl, rfl⟩

theorem C1_witness :
    encodeTop (EncVal.edict [(ascii "z", EncVal.enum (JSNum.fin 1)),
        (ascii "a", EncVal.enum (JSNum.fin 2))]) =
      encodeTop (EncVal.edict [(ascii "a", EncVal.enum (JSNum.fin 2)),
        (ascii "z", EncVal.enum (JSNum.fin 1))]) :=
  C1_dictionary_canonicalization.2.1 _ _
    (List.Perm.swap _ _ _) (by decide)

/-- One extra unit of fuel never changes a successful graph encoding. -/
theorem encodeG_mono_all : ∀ fuel : Nat,
    (∀ (h : List (Nat × GContainer)) visited path v bs,
      encodeGVal h fuel visited path v = Except.ok bs →
      encodeGVal h (fuel + 1) visited path v = Except.ok bs) ∧
    (∀ (h : List (Nat × GContainer)) visited path i xs bs,
      encodeGItems h fuel visited path i xs = Except.ok bs →
      encodeGItems h (fuel + 1) visited path i xs = Except.ok bs) ∧
    (∀ (h : List (Nat × GContainer)) visited path es bs,
      encodeGEntries h fuel visited path es = Except.ok bs →
      encodeGEntries h (fuel + 1) visited path es = Except.ok bs) := by
  intro fuel
  induction fuel with
  | zero =>
    refine ⟨?_, ?_, ?_⟩
    · intro h visited path v bs hok
      rw [encodeGVal] at hok
      exact absurd hok (by simp)
    · intro h visited path i xs bs hok
      cases xs with
      | nil => rw [encodeGItems] at hok ⊢; exact hok
      | cons x rest =>
        rw [encodeGItems] at hok
        exact absurd hok (by simp)
    · intro h visited path es bs hok
      cases es with
      | nil => rw [encodeGEntries] at hok ⊢; exact hok
      | cons e rest =>
        obtain ⟨k, v⟩ := e
        rw [encodeGEntries] at hok
        exact absurd hok (by simp)
  | succ fuel ih =>
    obtain ⟨ihv, ihi, ihe⟩ := ih
    refine ⟨?_, ?_, ?_⟩
    · intro h visited path v bs hok
      cases v with
      | gatom a => cases a <;> rw [encodeGVal] at hok ⊢ <;> exact hok
      | gref id =>
        rw [encodeGVal] at hok ⊢
        cases hl : heapLookup h id with
        | none =>
          rw [hl] at hok
          dsimp only at hok
          exact absurd hok (by simp)
        | some c =>
          rw [hl] at hok
          cases c with
          | glist items =>
            dsimp only at hok ⊢
            by_cases hm : id ∈ visited
            · rw [if_pos hm] at hok ⊢; exact hok
            · rw [if_neg hm] at hok ⊢
              cases hi : encodeGItems h fuel (id :: visited) path 0 items with
              | error e =>
                rw [hi] at hok
                dsimp only at hok
                exact absurd hok (by simp)
              | ok body =>
                rw [hi] at hok
                dsimp only at hok
                rw [ihi h (id :: visited) path 0 items body hi]
                exact hok
          | gdict entries =>
            dsimp only at hok ⊢
            by_cases hm : id ∈ visited
            · rw [if_pos hm] at hok ⊢; exact hok
            · rw [if_neg hm] at hok ⊢
              cases hi : encodeGEntries h fuel (id :: visited) path
                  (List.insertionSort (fun a b => jsStrLe a.fst b.fst = true)
                    entries) with
              | error e =>
                rw [hi] at hok
                dsimp only at hok
                exact absurd hok (by simp)
              | ok body =>
                rw [hi] at hok
                dsimp only at hok
                rw [ihe h (id :: visited) path _ body hi]
                exact hok
    · intro h visited path i xs bs hok
      cases xs with
      | nil => rw [encodeGItems] at hok ⊢; exact hok
      | cons x rest =>
        rw [encodeGItems] at hok ⊢
        by_cases hn : isGNullish x = true
        · rw [if_pos hn] at hok ⊢
          exact ihi h visited path (i + 1) rest bs hok
        · rw [if_neg hn] at hok ⊢
          cases hv : encodeGVal h fuel visited (path ++ [Sum.inl i]) x with
          | error e =>
            rw [hv] at hok
            dsimp only at hok
            exact absurd hok (by simp)
          | ok chunk =>
            rw [hv] at hok
            dsimp only at hok
            rw [ihv h visited (path ++ [Sum.inl i]) x chunk hv]
            dsimp only
            cases hr : encodeGItems h fuel visited path (i + 1) rest with
            | error e =>
              rw [hr] at hok
              dsimp only at hok
              exact absurd hok (by simp)
            | ok rest2 =>
              rw [hr] at hok
              dsimp only at hok
              rw [ihi h visited path (i + 1) rest rest2 hr]
              exact hok
    · intro h visited path es bs hok
      cases es with
      | nil => rw [encodeGEntries] at hok ⊢; exact hok
      | cons e rest =>
        obtain ⟨k, v⟩ := e
        rw [encodeGEntries] at hok ⊢
        by_cases hn : isGNullish v = true
        · rw [if_pos hn] at hok ⊢
          exact ihe h visited path rest bs hok
        · rw [if_neg hn] at hok ⊢
          cases hv : encodeGVal h fuel visited (path ++ [Sum.inr k]) v with
          | error e =>
            rw [hv] at hok
            dsimp only at hok
            exact absurd hok (by simp)
          | ok chunk =>
            rw [hv] at hok
            dsimp only at hok
            rw [ihv h visited (path ++ [Sum.inr k]) v chunk hv]
            dsimp only
            cases hr : encodeGEntries h fuel visited path rest with
            | error e =>
              rw [hr] at hok
              dsimp only at hok
              exact absurd hok (by simp)
            | ok tail =>
              rw [hr] at hok
              dsimp only at hok
              rw [ihe h visited path rest tail hr]
              exact hok

/-- A successful graph encoding is independent of the accumulated path
(and of the running list index): the path only reaches error values. -/
theorem encodeG_path_all : ∀ fuel : Nat,
    (∀ (h : List (Nat × GContainer)) visited path path2 v bs,
      encodeGVal h fuel visited path v = Except.ok bs →
      encodeGVal h fuel visited path2 v = Except.ok bs) ∧
    (∀ (h : List (Nat × GContainer)) visited path path2 i i2 xs bs,
      encodeGItems h fuel visited path i xs = Except.ok bs →
      encodeGItems h fuel visited path2 i2 xs = Except.ok bs) ∧
    (∀ (h : List (Nat × GContainer)) visited path path2 es bs,
      encodeGEntries h fuel visited path es = Except.ok bs →
      encodeGEntries h fuel visited path2 es = Except.ok bs) := by
  intro fuel
  induction fuel with
  | zero =>
    refine ⟨?_, ?_, ?_⟩
    · intro h visited path path2 v bs hok
      rw [encodeGVal] at hok
      exact absurd hok (by simp)
    · intro h visited path path2 i i2 xs bs hok
      cases xs with
      | nil => rw [encodeGItems] at hok ⊢; exact hok
      | cons x rest =>
        rw [encodeGItems] at hok
        exact absurd hok (by simp)
    · intro h visited path path2 es bs hok
      cases es with
      | nil => rw [encodeGEntries] at hok ⊢; exact hok
      | cons e rest =>
        obtain ⟨k, v⟩ := e
        rw [encodeGEntries] at hok
        exact absurd hok (by simp)
  | succ fuel ih =>
    obtain ⟨ihv, ihi, ihe⟩ := ih
    refine ⟨?_, ?_, ?_⟩
    · intro h visited path path2 v bs hok
      cases v with
      | gatom a => cases a <;> rw [encodeGVal] at hok ⊢ <;> exact hok
      | gref id =>
        rw [encodeGVal] at hok ⊢
        cases hl : heapLookup h id with
        | none =>
          rw [hl] at hok
          dsimp only at hok
          exact absurd hok (by simp)
        | some c =>
          rw [hl] at hok
          cases c with
          | glist items =>
            dsimp only at hok ⊢
            by_cases hm : id ∈ visited
            · rw [if_pos hm] at hok
              exact absurd hok (by simp)
            · rw [if_neg hm] at hok ⊢
              cases hi : encodeGItems h fuel (id :: visited) path 0 items with
              | error e =>
                rw [hi] at hok
                dsimp only at hok
                exact absurd hok (by simp)
              | ok body =>
                rw [hi] at hok
                dsimp only at hok
                rw [ihi h (id :: visited) path path2 0 0 items body hi]
                exact hok
          | gdict entries =>
            dsimp only at hok ⊢
            by_cases hm : id ∈ visited
            · rw [if_pos hm] at hok
              exact absurd hok (by simp)
            · rw [if_neg hm] at hok ⊢
              cases hi : encodeGEntries h fuel (id :: visited) path
                  (List.insertionSort (fun a b => jsStrLe a.fst b.fst = true)
                    entries) with
              | error e =>
                rw [hi] at hok
                dsimp only at hok
                exact absurd hok (by simp)
              | ok body =>
                rw [hi] at hok
                dsimp only at hok
                rw [ihe h (id :: visited) path path2 _ body hi]
                exact hok
    · intro h visited path path2 i i2 xs bs hok
      cases xs with
      | nil => rw [encodeGItems] at hok ⊢; exact hok
      | cons x rest =>
        rw [encodeGItems] at hok ⊢
        by_cases hn : isGNullish x = true
        · rw [if_pos hn] at hok ⊢
          exact ihi h visited path path2 (i + 1) (i2 + 1) rest bs hok
        · rw [if_neg hn] at hok ⊢
          cases hv : encodeGVal h fuel visited (path ++ [Sum.inl i]) x with
          | error e =>
            rw [hv] at hok
            dsimp only at hok
            exact absurd hok (by simp)
          | ok chunk =>
            rw [hv] at hok
            dsimp only at hok
            rw [ihv h visited (path ++ [Sum.inl i]) (path2 ++ [Sum.inl i2])
              x chunk hv]
            dsimp only
            cases hr : encodeGItems h fuel visited path (i + 1) rest with
            | error e =>
              rw [hr] at hok
              dsimp only at hok
              exact absurd hok (by simp)
            | ok rest2 =>
              rw [hr] at hok
              dsimp only at hok
              rw [ihi h visited path path2 (i + 1) (i2 + 1) rest rest2 hr]
              exact hok
    · intro h visited path path2 es bs hok
      cases es with
      | nil => rw [encodeGEntries] at hok ⊢; exact hok
      | cons e rest =>
        obtain ⟨k, v⟩ := e
        rw [encodeGEntries] at hok ⊢
        by_cases hn : isGNullish v = true
        · rw [if_pos hn] at hok ⊢
          exact ihe h visited path path2 rest bs hok
        · rw [if_neg hn] at hok ⊢
          cases hv : encodeGVal h fuel visited (path ++ [Sum.inr k]) v with
          | error e =>
            rw [hv] at hok
            dsimp only at hok
            exact absurd hok (by simp)
          | ok chunk =>
            rw [hv] at hok
            dsimp only at hok
            rw [ihv h visited (path ++ [Sum.inr k]) (path2 ++ [Sum.inr k])
              v chunk hv]
            dsimp only
            cases hr : encodeGEntries h fuel visited path rest with
            | error e =>
              rw [hr] at hok
              dsimp only at hok
              exact absurd hok (by simp)
            | ok tail =>
              rw [hr] at hok
              dsimp only at hok
              rw [ihe h visited path path2 rest tail hr]
              exact hok

/-- C9: the identity guard — any container already on the current stack
raises `CIRCULAR_REFERENCE` with the current path; a direct self-loop
(list element 0, or a dictionary's sole entry) raises it with the path
extended by exactly the self-referential edge; a container shared between
two sibling list positions encodes successfully with its content emitted
once per occurrence; concrete instances of a direct list cycle, a direct
dictionary cycle, sibling sharing, and an indirect two-step cycle. -/
theorem C9_cycle_detection :
    (∀ (h : List (Nat × GContainer)) fuel visited path id c,
      heapLookup h id = some c → id ∈ visited →
      encodeGVal h (fuel + 1) visited path (GVal.gref id) =
        Except.error (EErr.encodeErr ErrCode.CIRCULAR_REFERENCE path)) ∧
    (∀ (h : List (Nat × GContainer)) fuel visited path id rest,
      heapLookup h id = some (GContainer.glist (GVal.gref id :: rest)) →
      id ∉ visited →
      encodeGVal h (fuel + 3) visited path (GVal.gref id) =
        Except.error (EErr.encodeErr ErrCode.CIRCULAR_REFERENCE
          (path ++ [Sum.inl 0]))) ∧
    (∀ (h : List (Nat × GContainer)) fuel visited path id k,
      heapLookup h id = some (GContainer.gdict [(k, GVal.gref id)]) →
      id ∉ visited →
      encodeGVal h (fuel + 3) visited path (GVal.gref id) =
        Except.error (EErr.encodeErr ErrCode.CIRCULAR_REFERENCE
          (path ++ [Sum.inr k]))) ∧
    (∀ (h : List (Nat × GContainer)) f l s visited path bs,
      heapLookup h l = some (GContainer.glist [GVal.gref s, GVal.gref s]) →
      l ∉ visited →
      encodeGVal h f (l :: visited) [] (GVal.gref s) = Except.ok bs →
      encodeGVal h (f + 3) visited path (GVal.gref l) =
        Except.ok ([FLAG_LIST] ++ (bs ++ bs) ++ [FLAG_END])) ∧
    encodeG [(0, GContainer.glist [GVal.gref 0])] (GVal.gref 0) =
      Except.error (EErr.encodeErr ErrCode.CIRCULAR_REFERENCE [Sum.inl 0]) ∧
    encodeG [(0, GContainer.gdict [(ascii "a", GVal.gref 0)])] (GVal.gref 0) =
      Except.error (EErr.encodeErr ErrCode.CIRCULAR_REFERENCE
        [Sum.inr (ascii "a")]) ∧
    encodeG [(1, GContainer.gdict
          [(ascii "a", GVal.gatom (GAtom.gnum (JSNum.fin 1)))]),
        (0, GContainer.glist [GVal.gref 1, GVal.gref 1])] (GVal.gref 0) =
      Except.ok (ascii "ld1:ai1eed1:ai1eee") ∧
    encodeG [(0, GContainer.glist [GVal.gref 1]),
        (1, GContainer.glist [GVal.gref 0])] (GVal.gref 0) =
      Except.error (EErr.encodeErr ErrCode.CIRCULAR_REFERENCE
        [Sum.inl 0, Sum.inl 0]) := by
  have hguard : ∀ (h : List (Nat × GContainer)) fuel visited path id c,
      heapLookup h id = some c → id ∈ visited →
      encodeGVal h (fuel + 1) visited path (GVal.gref id) =
        Except.error (EErr.encodeErr ErrCode.CIRCULAR_REFERENCE path) := by
    intro h fuel visited path id c hl hm
    rw [encodeGVal]
    try dsimp only
    rw [hl]
    cases c with
    | glist items => try dsimp only; rw [if_pos hm]
    | gdict entries => try dsimp only; rw [if_pos hm]
  refine ⟨hguard, ?_, ?_, ?_, rfl, rfl, rfl, rfl⟩
  · intro h fuel visited path id rest hl hnm
    rw [encodeGVal]
    try dsimp only
    rw [hl]
    try dsimp only
    rw [if_neg hnm]
    rw [encodeGItems]
    rw [if_neg (by simp [isGNullish])]
    rw [hguard h fuel (id :: visited) (path ++ [Sum.inl 0]) id _ hl
      (List.mem_cons_self id visited)]
  · intro h fuel visited path id k hl hnm
    rw [encodeGVal]
    try dsimp only
    rw [hl]
    try dsimp only
    rw [if_neg hnm]
    rw [show List.insertionSort (fun a b => jsStrLe a.fst b.fst = true)
      [(k, GVal.gref id)] = [(k, GVal.gref id)] from rfl]
    rw [encodeGEntries]
    rw [if_neg (by simp [isGNullish])]
    rw [hguard h fuel (id :: visited) (path ++ [Sum.inr k]) id _ hl
      (List.mem_cons_self id visited)]
  · intro h f l s visited path bs hl hnm hok
    have h1 : encodeGVal h f (l :: visited) (path ++ [Sum.inl 0])
        (GVal.gref s) = Except.ok bs :=
      (encodeG_path_all f).1 h (l :: visited) [] (path ++ [Sum.inl 0])
        (GVal.gref s) bs hok
    have h1' : encodeGVal h (f + 1) (l :: visited) (path ++ [Sum.inl 0])
        (GVal.gref s) = Except.ok bs :=
      (encodeG_mono_all f).1 h (l :: visited) (path ++ [Sum.inl 0])
        (GVal.gref s) bs h1
    have h2 : encodeGVal h f (l :: visited) (path ++ [Sum.inl 1])
        (GVal.gref s) = Except.ok bs :=
      (encodeG_path_all f).1 h (l :: visited) [] (path ++ [Sum.inl 1])
        (GVal.gref s) bs hok
    rw [encodeGVal]
    try dsimp only
    rw [hl]
    try dsimp only
    rw [if_neg hnm]
    rw [encodeGItems]
    rw [if_neg (by simp [isGNullish])]
    rw [h1']
    try dsimp only
    rw [encodeGItems]
    rw [if_neg (by simp [isGNullish])]
    rw [h2]
    try dsimp only
    rw [encodeGItems]
    try dsimp only
    rw [List.append_nil]

theorem C9_witness :
    encodeGVal [(0, GContainer.glist [GVal.gref 0])] 3 [] [] (GVal.gref 0) =
      Except.error (EErr.encodeErr ErrCode.CIRCULAR_REFERENCE [Sum.inl 0]) :=
  C9_cycle_detection.2.1 [(0, GContainer.glist [GVal.gref 0])] 0 [] [] 0 []
    rfl (by decide)


/-- `utf16Loop` does not depend on its fuel once the fuel covers the
input length. -/
theorem utf16Loop_fuel : ∀ f1 f2 s, s.length ≤ f1 → s.length ≤ f2 →
    utf16Loop f1 s = utf16Loop f2 s := by
  intro f1
  induction f1 with
  | zero =>
    intro f2 s h1 _
    have hs : s = [] := List.eq_nil_of_length_eq_zero (Nat.le_zero.mp h1)
    subst hs
    cases f2 <;> rfl
  | succ f1 ih =>
    intro f2 s h1 h2
    cases s with
    | nil => cases f2 <;> rfl
    | cons u rest =>
      cases f2 with
      | zero => simp at h2
      | succ f2 =>
        simp only [List.length_cons] at h1 h2
        cases rest with
        | nil =>
          simp only [utf16Loop]
        | cons v rest2 =>
          simp only [List.length_cons] at h1 h2
          simp only [utf16Loop]
          split_ifs with hh hl hl2
          · rw [ih f2 rest2 (by omega) (by omega)]
          · rw [ih f2 (v :: rest2) (by simp only [List.length_cons]; omega)
              (by simp only [List.length_cons]; omega)]
          · rw [ih f2 (v :: rest2) (by simp only [List.length_cons]; omega)
              (by simp only [List.length_cons]; omega)]
          · rw [ih f2 (v :: rest2) (by simp only [List.length_cons]; omega)
              (by simp only [List.length_cons]; omega)]

/-- `utf8Loop` does not depend on its fuel once the fuel covers the input
length. -/
theorem utf8Loop_fuel : ∀ f1 f2 bs, bs.length ≤ f1 → bs.length ≤ f2 →
    utf8Loop f1 bs = utf8Loop f2 bs := by
  intro f1
  induction f1 with
  | zero =>
    intro f2 bs h1 _
    have hs : bs = [] := List.eq_nil_of_length_eq_zero (Nat.le_zero.mp h1)
    subst hs
    cases f2 <;> rfl
  | succ f1 ih =>
    intro f2 bs h1 h2
    cases bs with
    | nil => cases f2 <;> rfl
    | cons b rest =>
      cases f2 with
      | zero => simp at h2
      | succ f2 =>
        simp only [List.length_cons] at h1 h2
        simp only [utf8Loop]
        by_cases hb1 : b < 0x80
        · rw [if_pos hb1, if_pos hb1, ih f2 rest (by omega) (by omega)]
        · rw [if_neg hb1, if_neg hb1]
          by_cases hb2 : b < 0xC2
          · rw [if_pos hb2, if_pos hb2, ih f2 rest (by omega) (by omega)]
          · rw [if_neg hb2, if_neg hb2]
            by_cases hb3 : b < 0xE0
            · rw [if_pos hb3, if_pos hb3]
              cases rest with
              | nil => rfl
              | cons c rest2 =>
                simp only [List.length_cons] at h1 h2
                dsimp only
                by_cases hc : isCont c = true
                · rw [if_pos hc, if_pos hc, ih f2 rest2 (by omega) (by omega)]
                · rw [if_neg hc, if_neg hc,
                    ih f2 (c :: rest2) (by simp only [List.length_cons]; omega)
                      (by simp only [List.length_cons]; omega)]
            · rw [if_neg hb3, if_neg hb3]
              by_cases hb4 : b < 0xF0
              · rw [if_pos hb4, if_pos hb4]
                cases rest with
                | nil => rfl
                | cons c rest2 =>
                  simp only [List.length_cons] at h1 h2
                  dsimp only
                  by_cases hcc : (if b = 0xE0 then
                      decide (0xA0 ≤ c) && decide (c ≤ 0xBF)
                    else if b = 0xED then
                      decide (0x80 ≤ c) && decide (c ≤ 0x9F)
                    else isCont c) = true
                  · rw [if_pos hcc, if_pos hcc]
                    cases rest2 with
                    | nil => rfl
                    | cons d rest3 =>
                      simp only [List.length_cons] at h1 h2
                      dsimp only
                      by_cases hd : isCont d = true
                      · rw [if_pos hd, if_pos hd,
                          ih f2 rest3 (by omega) (by omega)]
                      · rw [if_neg hd, if_neg hd,
                          ih f2 (d :: rest3)
                            (by simp only [List.length_cons]; omega)
                            (by simp only [List.length_cons]; omega)]
                  · rw [if_neg hcc, if_neg hcc,
                      ih f2 (c :: rest2) (by simp only [List.length_cons]; omega)
                        (by simp only [List.length_cons]; omega)]
              · rw [if_neg hb4, if_neg hb4]
                by_cases hb5 : b < 0xF5
                · rw [if_pos hb5, if_pos hb5]
                  cases rest with
                  | nil => rfl
                  | cons c rest2 =>
                    simp only [List.length_cons] at h1 h2
                    dsimp only
                    by_cases hcc : (if b = 0xF0 then
                        decide (0x90 ≤ c) && decide (c ≤ 0xBF)
                      else if b = 0xF4 then
                        decide (0x80 ≤ c) && decide (c ≤ 0x8F)
                      else isCont c) = true
                    · rw [if_pos hcc, if_pos hcc]
                      cases rest2 with
                      | nil => rfl
                      | cons d rest3 =>
                        simp only [List.length_cons] at h1 h2
                        dsimp only
                        by_cases hd : isCont d = true
                        · rw [if_pos hd, if_pos hd]
                          cases rest3 with
                          | nil => rfl
                          | cons f rest4 =>
                            simp only [List.length_cons] at h1 h2
                            dsimp only
                            by_cases hf : isCont f = true
                            · rw [if_pos hf, if_pos hf,
                                ih f2 rest4 (by omega) (by omega)]
                            · rw [if_neg hf, if_neg hf,
                                ih f2 (f :: rest4)
                                  (by simp only [List.length_cons]; omega)
                                  (by simp only [List.length_cons]; omega)]
                        · rw [if_neg hd, if_neg hd,
                            ih f2 (d :: rest3)
                              (by simp only [List.length_cons]; omega)
                              (by simp only [List.length_cons]; omega)]
                    · rw [if_neg hcc, if_neg hcc,
                        ih f2 (c :: rest2)
                          (by simp only [List.length_cons]; omega)
                          (by simp only [List.length_cons]; omega)]
                · rw [if_neg hb5, if_neg hb5, ih f2 rest (by omega) (by omega)]

set_option maxRecDepth 4000 in
/-- Decoding the UTF-8 bytes of one BMP non-surrogate code point followed
by anything yields that code point followed by the decoding of the rest. -/
theorem utf8Decode_cp_bmp (cp : Nat) (hlt : cp < 0x10000)
    (hns : ¬(0xD800 ≤ cp ∧ cp ≤ 0xDFFF)) (B : List Nat) :
    utf8DecodeRaw (utf8EncodeCp cp ++ B) = cp :: utf8DecodeRaw B := by
  by_cases h1 : cp < 0x80
  · rw [show utf8EncodeCp cp = [cp] by rw [utf8EncodeCp, if_pos h1]]
    rw [utf8DecodeRaw, utf8DecodeRaw]
    simp only [List.cons_append, List.nil_append, List.length_cons]
    simp only [utf8Loop]
    rw [if_pos h1]
  · by_cases h2 : cp < 0x800
    · rw [show utf8EncodeCp cp = [0xC0 + cp / 64, 0x80 + cp % 64] by
        rw [utf8EncodeCp, if_neg h1, if_pos h2]]
      rw [utf8DecodeRaw, utf8DecodeRaw]
      simp only [List.cons_append, List.nil_append, List.length_cons]
      simp only [utf8Loop]
      rw [if_neg (by omega), if_neg (by omega), if_pos (by omega)]
      try dsimp only
      rw [if_pos (by simp only [isCont]; simp; omega)]
      rw [utf8Loop_fuel (B.length + 1) B.length B (by omega) le_rfl]
      congr 1
      omega
    · by_cases h3 : cp < 0x10000
      · rw [show utf8EncodeCp cp =
          [0xE0 + cp / 4096, 0x80 + cp / 64 % 64, 0x80 + cp % 64] by
          rw [utf8EncodeCp, if_neg h1, if_neg h2, if_pos h3]]
        rw [utf8DecodeRaw, utf8DecodeRaw]
        simp only [List.cons_append, List.nil_append, List.length_cons]
        simp only [utf8Loop]
        rw [if_neg (by omega), if_neg (by omega), if_neg (by omega),
          if_pos (by omega)]
        try dsimp only
        rw [if_pos (by
          split_ifs with he1 he2
          · simp
            omega
          · simp
            omega
          · simp only [isCont]
            simp
            omega)]
        try dsimp only
        rw [if_pos (by simp only [isCont]; simp; omega)]
        rw [utf8Loop_fuel (B.length + 2) B.length B (by omega) le_rfl]
        congr 1
        omega
      · omega

set_option maxRecDepth 4000 in
/-- Decoding the UTF-8 bytes of one astral code point followed by
anything yields its surrogate pair followed by the decoding of the
rest. -/
theorem utf8Decode_cp_astral (cp : Nat) (h1 : 0x10000 ≤ cp)
    (h2 : cp ≤ 0x10FFFF) (B : List Nat) :
    utf8DecodeRaw (utf8EncodeCp cp ++ B) = cpToUtf16 cp ++ utf8DecodeRaw B := by
  rw [show utf8EncodeCp cp = [0xF0 + cp / 262144, 0x80 + cp / 4096 % 64,
      0x80 + cp / 64 % 64, 0x80 + cp % 64] by
    rw [utf8EncodeCp, if_neg (by omega), if_neg (by omega), if_neg (by omega)]]
  rw [utf8DecodeRaw, utf8DecodeRaw]
  simp only [List.cons_append, List.nil_append, List.length_cons]
  simp only [utf8Loop]
  rw [if_neg (by omega), if_neg (by omega), if_neg (by omega),
    if_neg (by omega), if_pos (by omega)]
  try dsimp only
  rw [if_pos (by
    split_ifs with he1 he2
    · simp
      omega
    · simp
      omega
    · simp only [isCont]
      simp
      omega)]
  try dsimp only
  rw [if_pos (by simp only [isCont]; simp; omega)]
  try dsimp only
  rw [if_pos (by simp only [isCont]; simp; omega)]
  try dsimp only
  rw [utf8Loop_fuel (B.length + 3) B.length B (by omega) le_rfl]
  congr 1
  congr 1
  omega

/-- `utf16ToCodepoints` on a leading non-surrogate unit. -/
theorem utf16ToCodepoints_cons (u : Nat) (rest : List Nat)
    (hh : isHighSurrogate u = false) (hl : isLowSurrogate u = false) :
    utf16ToCodepoints (u :: rest) = u :: utf16ToCodepoints rest := by
  rw [utf16ToCodepoints, utf16ToCodepoints]
  simp only [List.length_cons]
  cases rest with
  | nil => simp [utf16Loop, hh, hl]
  | cons v rest2 =>
    simp only [utf16Loop]
    simp [hh, hl]

/-- `utf16ToCodepoints` on a leading surrogate pair. -/
theorem utf16ToCodepoints_pair (u v : Nat) (rest2 : List Nat)
    (hh : isHighSurrogate u = true) (hl : isLowSurrogate v = true) :
    utf16ToCodepoints (u :: v :: rest2) =
      (0x10000 + (u - 0xD800) * 1024 + (v - 0xDC00)) ::
        utf16ToCodepoints rest2 := by
  rw [utf16ToCodepoints, utf16ToCodepoints]
  simp only [List.length_cons]
  rw [utf16Loop]
  simp only [hh, if_true, hl]
  rw [utf16Loop_fuel (rest2.length + 1) rest2.length rest2 (by omega) le_rfl]

/-- A unit that is neither kind of surrogate is outside the surrogate
range. -/
theorem not_surrogate {u : Nat} (hh : isHighSurrogate u = false)
    (hl : isLowSurrogate u = false) : ¬(0xD800 ≤ u ∧ u ≤ 0xDFFF) := by
  intro hc
  rcases Nat.lt_or_ge u 0xDC00 with h | h
  · have hcontra : isHighSurrogate u = true := by
      simp only [isHighSurrogate, Bool.and_eq_true, decide_eq_true_eq]
      omega
    rw [hcontra] at hh
    exact Bool.noConfusion hh
  · have hcontra : isLowSurrogate u = true := by
      simp only [isLowSurrogate, Bool.and_eq_true, decide_eq_true_eq]
      omega
    rw [hcontra] at hl
    exact Bool.noConfusion hl

/-- The decoder inverts the encoder on well-formed UTF-16 strings. -/
theorem utf8RT : ∀ n s, s.length ≤ n → wfUtf16 s = true →
    utf8DecodeRaw (utf8Encode s) = s := by
  intro n
  induction n with
  | zero =>
    intro s h _
    have hs : s = [] := List.eq_nil_of_length_eq_zero (Nat.le_zero.mp h)
    subst hs
    rfl
  | succ n ih =>
    intro s h hw
    cases s with
    | nil => rfl
    | cons u rest =>
      rw [wfUtf16.eq_def] at hw
      dsimp only at hw
      by_cases hh : isHighSurrogate u = true
      · rw [if_pos hh] at hw
        cases rest with
        | nil => simp at hw
        | cons v rest2 =>
          simp only [Bool.and_eq_true] at hw
          obtain ⟨hlv, hwr⟩ := hw
          simp only [isHighSurrogate, Bool.and_eq_true, decide_eq_true_eq]
            at hh
          simp only [isLowSurrogate, Bool.and_eq_true, decide_eq_true_eq]
            at hlv
          rw [utf8Encode, utf16ToCodepoints_pair u v rest2
            (by simp [isHighSurrogate]; omega)
            (by simp [isLowSurrogate]; omega)]
          rw [List.map_cons, List.flatten_cons]
          rw [utf8Decode_cp_astral _ (by omega) (by omega)]
          rw [show (((utf16ToCodepoints rest2).map utf8EncodeCp).flatten :
            List Nat) = utf8Encode rest2 from rfl]
          rw [ih rest2 (by simp only [List.length_cons] at h; omega) hwr]
          rw [cpToUtf16, if_neg (by omega)]
          simp only [List.cons_append, List.nil_append, List.cons.injEq]
          exact ⟨by omega, by omega, trivial⟩
      · rw [if_neg hh] at hw
        simp only [Bool.and_eq_true, Bool.not_eq_true'] at hw
        obtain ⟨⟨hlu, hsize⟩, hwr⟩ := hw
        have hsize2 : u < 0x10000 := by simpa using hsize
        rw [utf8Encode, utf16ToCodepoints_cons u rest
          (by simpa using hh) hlu]
        rw [List.map_cons, List.flatten_cons]
        rw [utf8Decode_cp_bmp u hsize2 (not_surrogate (by simpa using hh) hlu)]
        rw [show (((utf16ToCodepoints rest).map utf8EncodeCp).flatten :
          List Nat) = utf8Encode rest from rfl]
        rw [ih rest (by simp only [List.length_cons] at h; omega) hwr]

/-- On a round-trippable string the whole TextDecoder pipeline (including
the BOM strip) inverts the encoder. -/
theorem rtString_decode (s : JSString) (h : rtString s = true) :
    utf8Decode (utf8Encode s) = s := by
  simp only [rtString, Bool.and_eq_true, Bool.not_eq_true',
    decide_eq_false_iff_not] at h
  obtain ⟨hw, hb⟩ := h
  rw [utf8Decode, utf8RT s.length s le_rfl hw]
  cases s with
  | nil => rfl
  | cons u rest =>
    simp only [List.head?_cons, Option.some.injEq] at hb
    rw [stripBom.eq_def]
    split
    · rename_i heq
      injection heq with h1 h2
      exact absurd h1 hb
    · rfl


/-- Digit bytes fold back to the rendered number (`natDecimalAux`). -/
theorem natDecimalAux_foldl : ∀ fuel n acc, n ≤ fuel ∨ n < 10 →
    List.foldl (fun a c => a * 10 + (c - 0x30)) acc (natDecimalAux fuel n) =
      acc * 10 ^ (natDecimalAux fuel n).length + n := by
  intro fuel
  induction fuel with
  | zero =>
    intro n acc h
    rw [natDecimalAux]
    simp only [List.foldl_cons, List.foldl_nil, List.length_singleton, pow_one]
    omega
  | succ fuel ih =>
    intro n acc h
    rw [natDecimalAux]
    by_cases h10 : n < 10
    · rw [if_pos h10]
      simp only [List.foldl_cons, List.foldl_nil, List.length_singleton,
        pow_one]
      omega
    · rw [if_neg h10]
      rw [List.foldl_append]
      rw [ih (n / 10) acc (Or.inl (by omega))]
      simp only [List.foldl_cons, List.foldl_nil, List.length_append,
        List.length_singleton]
      rw [pow_succ]
      have h1 : 0x30 + n % 10 - 0x30 = n % 10 := by omega
      rw [h1, Nat.add_mul]
      have h2 : n / 10 * 10 + n % 10 = n := by omega
      rw [Nat.mul_assoc, Nat.add_assoc, h2]

/-- Digit bytes fold back to the rendered number. -/
theorem natDecimalDigits_val (n : Nat) :
    List.foldl (fun a c => a * 10 + (c - 0x30)) 0 (natDecimalDigits n) = n := by
  rw [natDecimalDigits, natDecimalAux_foldl n n 0 (Or.inl le_rfl)]
  simp

theorem natDecimalAux_ne_nil : ∀ fuel n, natDecimalAux fuel n ≠ [] := by
  intro fuel n
  cases fuel with
  | zero => rw [natDecimalAux]; simp
  | succ fuel =>
    rw [natDecimalAux]
    split_ifs <;> simp

/-- The leading digit of a positive number is not `0`. -/
theorem natDecimalAux_head_pos : ∀ fuel n, n ≤ fuel ∨ n < 10 → 0 < n →
    ∀ hd, (natDecimalAux fuel n).head? = some hd → 0x30 < hd := by
  intro fuel
  induction fuel with
  | zero =>
    intro n h hp hd hh
    rw [natDecimalAux] at hh
    simp only [List.head?_cons, Option.some.injEq] at hh
    omega
  | succ fuel ih =>
    intro n h hp hd hh
    rw [natDecimalAux] at hh
    by_cases h10 : n < 10
    · rw [if_pos h10] at hh
      simp only [List.head?_cons, Option.some.injEq] at hh
      omega
    · rw [if_neg h10] at hh
      cases hA2 : natDecimalAux fuel (n / 10) with
      | nil => exact absurd hA2 (natDecimalAux_ne_nil fuel (n / 10))
      | cons a t =>
        rw [hA2] at hh
        simp only [List.cons_append, List.head?_cons, Option.some.injEq] at hh
        have ha := ih (n / 10) (Or.inl (by omega)) (by omega) a (by rw [hA2]; rfl)
        omega

/-- A byte inside the middle segment of a buffer. -/
theorem byteAt_span (P ds R : List Nat) : ∀ k, k < ds.length →
    byteAt (P ++ ds ++ R) (P.length + k) = ds.get? k := by
  intro k hk
  rw [byteAt, List.append_assoc, List.get?_append_right (by omega),
    Nat.add_sub_cancel_left, List.get?_append hk]

/-- The byte just after the middle segment of a buffer. -/
theorem byteAt_after (P ds R : List Nat) :
    byteAt (P ++ ds ++ R) (P.length + ds.length) = R.get? 0 := by
  rw [byteAt, List.append_assoc, List.get?_append_right (by omega),
    Nat.add_sub_cancel_left, List.get?_append_right le_rfl, Nat.sub_self]

/-- The digit loop consumes exactly a run of digit bytes followed by a
non-digit, non-dot byte, folding up their value. -/
theorem digitRunAux_digits : ∀ (ds buffer : List Nat) (fuel i acc : Nat),
    (∀ c ∈ ds, 0x30 ≤ c ∧ c ≤ 0x39) →
    (∀ k, k < ds.length → byteAt buffer (i + k) = ds.get? k) →
    (byteAt buffer (i + ds.length) = none ∨
      ∃ t, byteAt buffer (i + ds.length) = some t ∧
        ¬(0x30 ≤ t ∧ t ≤ 0x39) ∧ t ≠ 0x2e) →
    ds.length ≤ fuel →
    digitRunAux buffer fuel i acc false =
      (List.foldl (fun a c => a * 10 + (c - 0x30)) acc ds, i + ds.length) := by
  intro ds
  induction ds with
  | nil =>
    intro buffer fuel i acc _ _ hterm _
    cases fuel with
    | zero => rw [digitRunAux]; simp
    | succ fuel =>
      rw [digitRunAux]
      rcases hterm with h | ⟨t, ht, hnd, hne⟩
      · simp only [List.length_nil, Nat.add_zero] at h
        rw [h]
        simp
      · simp only [List.length_nil, Nat.add_zero] at ht
        rw [ht]
        dsimp only
        rw [if_neg (by
          simp only [FLAG_DOT, Bool.or_eq_true, Bool.and_eq_true,
            decide_eq_true_eq]
          omega)]
        simp
  | cons d ds ih =>
    intro buffer fuel i acc hds hb hterm hfuel
    cases fuel with
    | zero => simp at hfuel
    | succ fuel =>
      rw [digitRunAux]
      have hbd : byteAt buffer i = some d := by
        have h0 := hb 0 (by simp)
        simpa using h0
      rw [hbd]
      dsimp only
      have hd := hds d (List.mem_cons_self d ds)
      rw [if_pos (by
        simp only [FLAG_DOT, Bool.or_eq_true, Bool.and_eq_true,
          decide_eq_true_eq]
        omega)]
      rw [if_neg (by simp only [FLAG_DOT]; omega)]
      rw [if_neg (by simp)]
      rw [ih buffer fuel (i + 1) (acc * 10 + (d - 0x30))
        (fun c hc => hds c (List.mem_cons_of_mem d hc))
        (fun k hk => by
          have := hb (k + 1) (by simp only [List.length_cons]; omega)
          rw [show i + 1 + k = i + (k + 1) from by omega]
          simpa using this)
        (by
          rcases hterm with h | ⟨t, ht, hnd, hne⟩
          · left
            rw [show i + 1 + ds.length = i + (d :: ds).length from by
              simp only [List.length_cons]; omega]
            exact h
          · right
            refine ⟨t, ?_, hnd, hne⟩
            rw [show i + 1 + ds.length = i + (d :: ds).length from by
              simp only [List.length_cons]; omega]
            exact ht)
        (by simp only [List.length_cons] at hfuel; omega)]
      rw [List.foldl_cons]
      rw [show i + (d :: ds).length = i + 1 + ds.length from by
        simp only [List.length_cons]; omega]

/-- `digitRun` over a rendered digit segment. -/
theorem digitRun_digits (P ds R : List Nat) (t acc : Nat)
    (hds : ∀ c ∈ ds, 0x30 ≤ c ∧ c ≤ 0x39)
    (ht1 : ¬(0x30 ≤ t ∧ t ≤ 0x39)) (ht2 : t ≠ 0x2e) :
    digitRun (P ++ ds ++ t :: R) P.length acc false =
      (List.foldl (fun a c => a * 10 + (c - 0x30)) acc ds,
        P.length + ds.length) := by
  rw [digitRun]
  apply digitRunAux_digits ds _ _ _ _ hds
  · intro k hk
    exact byteAt_span P ds (t :: R) k hk
  · right
    refine ⟨t, ?_, ht1, ht2⟩
    have := byteAt_after P ds (t :: R)
    simpa using this
  · simp only [List.length_append, List.length_cons]
    omega


/-- `_decodeInteger` on a bare digit run ending in `:` (a string length
prefix). -/
theorem decodeInteger_digitsColon (buffer : List Nat) (i0 n i4 d0 : Nat)
    (hd0 : byteAt buffer i0 = some d0) (hd0l : 0x30 ≤ d0) (hd0u : d0 ≤ 0x39)
    (hrun : digitRun buffer i0 0 false = (n, i4))
    (hcolon : byteAt buffer i4 = some 0x3a) :
    decodeInteger buffer i0 = Except.ok ((n : Int), i4 + 1) := by
  have h1 : (byteAt buffer i0 = some FLAG_INTEGER) = False :=
    eq_false (by rw [hd0]; simp only [FLAG_INTEGER, Option.some.injEq]; omega)
  have h2 : (byteAt buffer i0 = some FLAG_PLUS) = False :=
    eq_false (by rw [hd0]; simp only [FLAG_PLUS, Option.some.injEq]; omega)
  have h3 : (byteAt buffer i0 = some FLAG_MINUS) = False :=
    eq_false (by rw [hd0]; simp only [FLAG_MINUS, Option.some.injEq]; omega)
  unfold decodeInteger
  simp only [h1, if_false]
  try dsimp only
  simp only [h2, if_false]
  simp only [h3, if_false]
  try dsimp only
  simp only [Bool.false_and, Bool.false_eq_true, if_false]
  rw [hrun]
  try dsimp only
  rw [hcolon]
  rw [if_pos (by simp [FLAG_STR_DELIMITER])]
  try dsimp only
  rw [if_neg (by simp)]
  simp


/-- `_decodeInteger` on a true integer without sign: `i<digits>e`. -/
theorem decodeInteger_intPos (buffer : List Nat) (i0 n i4 d0 : Nat)
    (hi : byteAt buffer i0 = some FLAG_INTEGER)
    (hd0 : byteAt buffer (i0 + 1) = some d0)
    (hd0l : 0x30 ≤ d0) (hd0u : d0 ≤ 0x39)
    (hlz : ¬(d0 = 0x30 ∧ isDigitAt (byteAt buffer (i0 + 2)) = true))
    (hrun : digitRun buffer (i0 + 1) 0 false = (n, i4))
    (hend : byteAt buffer i4 = some FLAG_END) :
    decodeInteger buffer i0 = Except.ok ((n : Int), i4 + 1) := by
  have h1 : (byteAt buffer i0 = some FLAG_INTEGER) = True := eq_true hi
  have h2 : (byteAt buffer (i0 + 1) = some FLAG_PLUS) = False :=
    eq_false (by rw [hd0]; simp only [FLAG_PLUS, Option.some.injEq]; omega)
  have h3 : (byteAt buffer (i0 + 1) = some FLAG_MINUS) = False :=
    eq_false (by rw [hd0]; simp only [FLAG_MINUS, Option.some.injEq]; omega)
  unfold decodeInteger
  simp only [h1, if_true]
  try dsimp only
  simp only [h2, if_false]
  simp only [h3, if_false]
  try dsimp only
  rw [if_neg (by
    simp only [Bool.true_and, Bool.and_eq_true, decide_eq_true_eq]
    rw [hd0]
    simp only [Option.some.injEq]
    exact fun hx => hlz ⟨hx.1, hx.2⟩)]
  rw [hrun]
  try dsimp only
  rw [if_neg (by
    simp only [Bool.or_eq_true, decide_eq_true_eq, not_or]
    exact ⟨by simp [not_atEnd_of_byteAt hend], by simp [hend]⟩)]
  try dsimp only
  rw [if_neg (by simp)]
  simp

/-- `_decodeInteger` on a true negative integer: `i-<digits>e`. -/
theorem decodeInteger_intNeg (buffer : List Nat) (i0 n i4 d0 : Nat)
    (hi : byteAt buffer i0 = some FLAG_INTEGER)
    (hm : byteAt buffer (i0 + 1) = some FLAG_MINUS)
    (hd0 : byteAt buffer (i0 + 2) = some d0)
    (hd0l : 0x30 ≤ d0) (hd0u : d0 ≤ 0x39)
    (hlz : ¬(d0 = 0x30 ∧ isDigitAt (byteAt buffer (i0 + 3)) = true))
    (hrun : digitRun buffer (i0 + 2) 0 false = (n, i4))
    (hn0 : n ≠ 0)
    (hend : byteAt buffer i4 = some FLAG_END) :
    decodeInteger buffer i0 = Except.ok ((-(n : Int)), i4 + 1) := by
  have h1 : (byteAt buffer i0 = some FLAG_INTEGER) = True := eq_true hi
  have h2 : (byteAt buffer (i0 + 1) = some FLAG_PLUS) = False :=
    eq_false (by rw [hm]; simp [FLAG_PLUS, FLAG_MINUS])
  have h3 : (byteAt buffer (i0 + 1) = some FLAG_MINUS) = True := eq_true hm
  unfold decodeInteger
  simp only [h1, if_true]
  try dsimp only
  simp only [h2, if_false]
  simp only [h3, if_true]
  try dsimp only
  simp only [show i0 + 1 + 1 = i0 + 2 from rfl, show i0 + 2 + 1 = i0 + 3 from rfl]
  rw [if_neg (by
    simp only [Bool.true_and, Bool.and_eq_true, decide_eq_true_eq]
    rw [hd0]
    simp only [Option.some.injEq]
    exact fun hx => hlz ⟨hx.1, hx.2⟩)]
  rw [hrun]
  try dsimp only
  rw [if_neg (by
    simp only [Bool.or_eq_true, decide_eq_true_eq, not_or]
    exact ⟨by simp [not_atEnd_of_byteAt hend], by simp [hend]⟩)]
  try dsimp only
  rw [if_neg (by simp [hn0])]
  simp



/-- The byte at the head of the tail segment. -/
theorem byteAt_at (P : List Nat) (c : Nat) (R : List Nat) :
    byteAt (P ++ c :: R) P.length = some c := by
  rw [byteAt, List.get?_append_right le_rfl, Nat.sub_self]
  rfl

/-- A byte strictly past the head of the tail segment. -/
theorem byteAt_succ (P : List Nat) (c : Nat) (R : List Nat) (j : Nat) :
    byteAt (P ++ c :: R) (P.length + j + 1) = R.get? j := by
  rw [byteAt, List.get?_append_right (by omega)]
  rw [show P.length + j + 1 - P.length = j + 1 from by omega]
  rfl

/-- `_decodeInteger` on the encoder's integer chunk. -/
theorem decodeInteger_chunk (k : Int) (pre post : List Nat) :
    decodeInteger
        (pre ++ ([FLAG_INTEGER] ++ intDecimalBytes k ++ [FLAG_END]) ++ post)
        pre.length =
      Except.ok (k, pre.length + (intDecimalBytes k).length + 2) := by
  by_cases hneg : k < 0
  · have hb : intDecimalBytes k = 0x2d :: natDecimalDigits k.natAbs := by
      rw [intDecimalBytes, if_pos hneg]
    rw [hb]
    simp only [List.append_assoc, List.cons_append, List.nil_append,
      List.length_cons]
    set ds := natDecimalDigits k.natAbs with hds
    obtain ⟨d0, rest0, hds0⟩ : ∃ d0 rest0, ds = d0 :: rest0 := by
      cases hq : ds with
      | nil => exact absurd hq (natDecimalDigits_ne_nil k.natAbs)
      | cons a t => exact ⟨a, t, rfl⟩
    have hd0mem : d0 ∈ ds := by rw [hds0]; exact List.mem_cons_self d0 rest0
    have hd0b := natDecimalDigits_digits k.natAbs d0 (hds ▸ hd0mem)
    have hi := byteAt_at pre FLAG_INTEGER (0x2d :: (ds ++ FLAG_END :: post))
    have hm0 := byteAt_succ pre FLAG_INTEGER (0x2d :: (ds ++ FLAG_END :: post)) 0
    rw [show pre.length + 0 + 1 = pre.length + 1 from by omega] at hm0
    have hd0 := byteAt_succ pre FLAG_INTEGER (0x2d :: (ds ++ FLAG_END :: post)) 1
    rw [show pre.length + 1 + 1 = pre.length + 2 from by omega] at hd0
    rw [show (0x2d :: (ds ++ FLAG_END :: post)).get? 1 = some d0 from by
      rw [hds0]; rfl] at hd0
    have hres2 : pre ++ FLAG_INTEGER :: 0x2d :: (ds ++ FLAG_END :: post) =
        (pre ++ [FLAG_INTEGER, 0x2d]) ++ ds ++ FLAG_END :: post := by
      simp
    have hrun := digitRun_digits (pre ++ [FLAG_INTEGER, 0x2d]) ds post FLAG_END 0
      (fun c hc => natDecimalDigits_digits k.natAbs c (hds ▸ hc))
      (by simp only [FLAG_END]; omega) (by simp only [FLAG_END]; omega)
    rw [← hres2] at hrun
    simp only [List.length_append, List.length_cons, List.length_nil] at hrun
    rw [hds, natDecimalDigits_val, ← hds] at hrun
    have hend := byteAt_after (pre ++ [FLAG_INTEGER, 0x2d]) ds (FLAG_END :: post)
    rw [← hres2] at hend
    simp only [List.length_append, List.length_cons, List.length_nil] at hend
    rw [show (FLAG_END :: post).get? 0 = some FLAG_END from rfl] at hend
    have hpos : 0 < k.natAbs := by omega
    have hd0gt : 0x30 < d0 :=
      natDecimalAux_head_pos k.natAbs k.natAbs (Or.inl le_rfl) hpos d0
        (by rw [← natDecimalDigits, ← hds, hds0]; rfl)
    have hfin := decodeInteger_intNeg _ pre.length k.natAbs
      (pre.length + 2 + ds.length) d0 hi hm0 hd0 hd0b.1 hd0b.2
      (fun hx => by omega) hrun (by omega) hend
    rw [hfin]
    rw [show (-(k.natAbs : Int)) = k from by omega]
    rw [show pre.length + 2 + ds.length + 1 = pre.length + (ds.length + 1) + 2
      from by omega]
  · have hb : intDecimalBytes k = natDecimalDigits k.natAbs := by
      rw [intDecimalBytes, if_neg hneg]
    rw [hb]
    simp only [List.append_assoc, List.cons_append, List.nil_append]
    set ds := natDecimalDigits k.natAbs with hds
    obtain ⟨d0, rest0, hds0⟩ : ∃ d0 rest0, ds = d0 :: rest0 := by
      cases hq : ds with
      | nil => exact absurd hq (natDecimalDigits_ne_nil k.natAbs)
      | cons a t => exact ⟨a, t, rfl⟩
    have hd0mem : d0 ∈ ds := by rw [hds0]; exact List.mem_cons_self d0 rest0
    have hd0b := natDecimalDigits_digits k.natAbs d0 (hds ▸ hd0mem)
    have hi := byteAt_at pre FLAG_INTEGER (ds ++ FLAG_END :: post)
    have hd0 := byteAt_succ pre FLAG_INTEGER (ds ++ FLAG_END :: post) 0
    rw [show pre.length + 0 + 1 = pre.length + 1 from by omega] at hd0
    rw [show (ds ++ FLAG_END :: post).get? 0 = some d0 from by
      rw [hds0]; rfl] at hd0
    have hres2 : pre ++ FLAG_INTEGER :: (ds ++ FLAG_END :: post) =
        (pre ++ [FLAG_INTEGER]) ++ ds ++ FLAG_END :: post := by
      simp
    have hrun := digitRun_digits (pre ++ [FLAG_INTEGER]) ds post FLAG_END 0
      (fun c hc => natDecimalDigits_digits k.natAbs c (hds ▸ hc))
      (by simp only [FLAG_END]; omega) (by simp only [FLAG_END]; omega)
    rw [← hres2] at hrun
    simp only [List.length_append, List.length_cons, List.length_nil] at hrun
    rw [hds, natDecimalDigits_val, ← hds] at hrun
    have hend := byteAt_after (pre ++ [FLAG_INTEGER]) ds (FLAG_END :: post)
    rw [← hres2] at hend
    simp only [List.length_append, List.length_cons, List.length_nil] at hend
    rw [show (FLAG_END :: post).get? 0 = some FLAG_END from rfl] at hend
    have hlz : ¬(d0 = 0x30 ∧ isDigitAt (byteAt
        (pre ++ FLAG_INTEGER :: (ds ++ FLAG_END :: post))
        (pre.length + 2)) = true) := by
      by_cases hk0 : k.natAbs = 0
      · have hds1 : ds = [0x30] := by rw [hds, hk0]; rfl
        have hnext := byteAt_succ pre FLAG_INTEGER (ds ++ FLAG_END :: post) 1
        rw [show pre.length + 1 + 1 = pre.length + 2 from by omega] at hnext
        rw [show (ds ++ FLAG_END :: post).get? 1 = some FLAG_END from by
          rw [hds1]; rfl] at hnext
        intro hx
        rw [hnext] at hx
        simp only [isDigitAt, FLAG_END, Bool.and_eq_true, decide_eq_true_eq]
          at hx
        omega
      · have hd0gt : 0x30 < d0 :=
          natDecimalAux_head_pos k.natAbs k.natAbs (Or.inl le_rfl)
            (by omega) d0 (by rw [← natDecimalDigits, ← hds, hds0]; rfl)
        intro hx
        omega
    have hfin := decodeInteger_intPos _ pre.length k.natAbs
      (pre.length + 1 + ds.length) d0 hi hd0 hd0b.1 hd0b.2 hlz hrun hend
    rw [hfin]
    rw [show ((k.natAbs : Nat) : Int) = k from by omega]
    rw [show pre.length + 1 + ds.length + 1 = pre.length + ds.length + 2
      from by omega]


/-- `_decodeString` (with `stringify`) on the encoder's string chunk. -/
theorem decodeString_chunk (s : JSString) (pre post : List Nat)
    (hs : rtString s = true) :
    decodeString { stringify := true } (pre ++ stringChunk s ++ post)
        pre.length =
      Except.ok (DVal.dstr s, pre.length + (stringChunk s).length) := by
  rw [stringChunk, bytesChunk]
  set B := utf8Encode s with hB
  set dl := natDecimalDigits B.length with hdl
  simp only [List.append_assoc, List.cons_append, List.nil_append]
  obtain ⟨d0, rest0, hdl0⟩ : ∃ d0 rest0, dl = d0 :: rest0 := by
    cases hq : dl with
    | nil => exact absurd hq (natDecimalDigits_ne_nil B.length)
    | cons a t => exact ⟨a, t, rfl⟩
  have hd0mem : d0 ∈ dl := by rw [hdl0]; exact List.mem_cons_self d0 rest0
  have hd0b := natDecimalDigits_digits B.length d0 (hdl ▸ hd0mem)
  have hres : pre ++ (dl ++ FLAG_STR_DELIMITER :: (B ++ post)) =
      pre ++ dl ++ FLAG_STR_DELIMITER :: (B ++ post) := by
    simp
  have hd0 := byteAt_span pre dl (FLAG_STR_DELIMITER :: (B ++ post)) 0
    (by rw [hdl0]; simp)
  rw [← hres] at hd0
  rw [Nat.add_zero] at hd0
  rw [show dl.get? 0 = some d0 from by rw [hdl0]; rfl] at hd0
  have hrun := digitRun_digits pre dl (B ++ post) FLAG_STR_DELIMITER 0
    (fun c hc => natDecimalDigits_digits B.length c (hdl ▸ hc))
    (by simp only [FLAG_STR_DELIMITER]; omega)
    (by simp only [FLAG_STR_DELIMITER]; omega)
  rw [← hres] at hrun
  rw [hdl, natDecimalDigits_val, ← hdl] at hrun
  have hcolon := byteAt_after pre dl (FLAG_STR_DELIMITER :: (B ++ post))
  rw [← hres] at hcolon
  rw [show (FLAG_STR_DELIMITER :: (B ++ post)).get? 0 =
    some (0x3a : Nat) from rfl] at hcolon
  have hint := decodeInteger_digitsColon _ pre.length B.length
    (pre.length + dl.length) d0 hd0 hd0b.1 hd0b.2 hrun hcolon
  rw [decodeString, hint]
  dsimp only
  rw [if_neg (by simp)]
  rw [if_neg (by
    simp only [List.length_append, List.length_cons]
    push_cast
    omega)]
  rw [if_neg (by omega)]
  have hdrop : (pre ++ (dl ++ FLAG_STR_DELIMITER :: (B ++ post))).drop
      (pre.length + dl.length + 1) = B ++ post := by
    rw [show pre.length + dl.length + 1 =
      (pre ++ dl ++ [FLAG_STR_DELIMITER]).length from by simp; omega]
    rw [show pre ++ (dl ++ FLAG_STR_DELIMITER :: (B ++ post)) =
      (pre ++ dl ++ [FLAG_STR_DELIMITER]) ++ (B ++ post) from by simp]
    exact List.drop_left _ _
  rw [if_pos rfl]
  rw [show ((B.length : Int)).toNat = B.length from by simp]
  rw [hdrop, List.take_left]
  rw [show bytesToString B ({ stringify := true } : DecOptions).encoding = s
    from by rw [hB]; exact rtString_decode s hs]
  rw [show pre.length + dl.length + 1 + B.length =
    pre.length + (dl ++ FLAG_STR_DELIMITER :: B).length from by
    simp only [List.length_append, List.length_cons]
    omega]


theorem isNullish_enull {v : EncVal} (h : isNullish v = true) :
    v = EncVal.enull := by
  cases v <;> simp [isNullish] at h ⊢

theorem reprVal_not_null {v : EncVal} (h : reprVal v = true) :
    isNullish v = false := by
  cases v <;> simp_all [reprVal, isNullish]

theorem reprList_mem : ∀ {xs : List EncVal}, reprList xs = true →
    ∀ x ∈ xs, reprVal x = true := by
  intro xs
  induction xs with
  | nil => intro _ x hx; simp at hx
  | cons y ys ih =>
    intro h x hx
    rw [reprList] at h
    simp only [Bool.and_eq_true] at h
    rcases List.mem_cons.mp hx with h1 | h1
    · rw [h1]; exact h.1
    · exact ih h.2 x h1

theorem reprEntries_mem : ∀ {es : List (JSString × EncVal)},
    reprEntries es = true → ∀ e ∈ es, reprVal e.2 = true := by
  intro es
  induction es with
  | nil => intro _ e he; simp at he
  | cons y ys ih =>
    intro h e he
    obtain ⟨k, v⟩ := y
    rw [reprEntries] at h
    simp only [Bool.and_eq_true] at h
    rcases List.mem_cons.mp he with h1 | h1
    · rw [h1]; exact h.1
    · exact ih h.2 e h1

/-- Every emitted chunk is nonempty and starts with a digit or one of the
`i`/`l`/`d` markers. -/
theorem encodeSorted_head (w : EncVal) (c : List Nat)
    (h : encodeSorted w = Except.ok c) :
    ∃ b rest2, c = b :: rest2 ∧
      ((0x30 ≤ b ∧ b ≤ 0x39) ∨ b = FLAG_INTEGER ∨ b = FLAG_LIST ∨
        b = FLAG_DICTIONARY) := by
  cases w with
  | ebytes bs =>
    rw [encodeSorted] at h
    injection h with h
    obtain ⟨d0, r0, hd⟩ : ∃ d0 r0, natDecimalDigits bs.length = d0 :: r0 := by
      cases hq : natDecimalDigits bs.length with
      | nil => exact absurd hq (natDecimalDigits_ne_nil bs.length)
      | cons a t => exact ⟨a, t, rfl⟩
    have hb := natDecimalDigits_digits bs.length d0
      (by rw [hd]; exact List.mem_cons_self d0 r0)
    refine ⟨d0, r0 ++ [FLAG_STR_DELIMITER] ++ bs, ?_, Or.inl hb⟩
    rw [← h, bytesChunk, hd]
    simp
  | estr s =>
    rw [encodeSorted] at h
    injection h with h
    obtain ⟨d0, r0, hd⟩ : ∃ d0 r0,
        natDecimalDigits (utf8Encode s).length = d0 :: r0 := by
      cases hq : natDecimalDigits (utf8Encode s).length with
      | nil => exact absurd hq (natDecimalDigits_ne_nil _)
      | cons a t => exact ⟨a, t, rfl⟩
    have hb := natDecimalDigits_digits (utf8Encode s).length d0
      (by rw [hd]; exact List.mem_cons_self d0 r0)
    refine ⟨d0, r0 ++ [FLAG_STR_DELIMITER] ++ utf8Encode s, ?_, Or.inl hb⟩
    rw [← h, stringChunk, bytesChunk, hd]
    simp
  | enum x =>
    rw [encodeSorted] at h
    injection h with h
    exact ⟨FLAG_INTEGER, jsNumRenderBytes (jsTrunc x) ++ [FLAG_END],
      by rw [← h, integerChunk]; rfl, Or.inr (Or.inl rfl)⟩
  | ebool b =>
    rw [encodeSorted] at h
    injection h with h
    exact ⟨FLAG_INTEGER,
      jsNumRenderBytes (jsTrunc (JSNum.fin (if b then 1 else 0))) ++ [FLAG_END],
      by rw [← h, integerChunk]; rfl, Or.inr (Or.inl rfl)⟩
  | elist xs =>
    rw [encodeSorted] at h
    cases hi : encodeSortedItems xs with
    | error e => rw [hi] at h; exact absurd h (by simp)
    | ok body =>
      rw [hi] at h
      dsimp only at h
      injection h with h
      exact ⟨FLAG_LIST, body ++ [FLAG_END], by rw [← h]; rfl,
        Or.inr (Or.inr (Or.inl rfl))⟩
  | edict es =>
    rw [encodeSorted] at h
    cases hi : encodeSortedEntries es with
    | error e => rw [hi] at h; exact absurd h (by simp)
    | ok body =>
      rw [hi] at h
      dsimp only at h
      injection h with h
      exact ⟨FLAG_DICTIONARY, body ++ [FLAG_END], by rw [← h]; rfl,
        Or.inr (Or.inr (Or.inr rfl))⟩
  | enull =>
    rw [encodeSorted] at h
    exact absurd h (by simp)

/-- Each element chunk is no longer than the whole element-loop output. -/
theorem encodeSortedItems_le : ∀ (xs : List EncVal) (body : List Nat),
    encodeSortedItems xs = Except.ok body →
    ∀ x ∈ xs, ∀ cx, encodeSorted x = Except.ok cx →
      cx.length ≤ body.length := by
  intro xs
  induction xs with
  | nil => intro body _ x hx; simp at hx
  | cons y ys ih =>
    intro body hb x hx cx hcx
    rw [encodeSortedItems] at hb
    by_cases hn : isNullish y = true
    · rw [if_pos hn] at hb
      rcases List.mem_cons.mp hx with h1 | h1
      · rw [isNullish_enull hn] at h1
        rw [h1, encodeSorted] at hcx
        exact absurd hcx (by simp)
      · exact ih body hb x h1 cx hcx
    · rw [if_neg hn] at hb
      cases hy : encodeSorted y with
      | error e => rw [hy] at hb; exact absurd hb (by simp)
      | ok cy =>
        rw [hy] at hb
        dsimp only at hb
        cases hys : encodeSortedItems ys with
        | error e => rw [hys] at hb; exact absurd hb (by simp)
        | ok rb =>
          rw [hys] at hb
          dsimp only at hb
          injection hb with hb
          rcases List.mem_cons.mp hx with h1 | h1
          · rw [h1] at hcx
            rw [hcx] at hy
            injection hy with hy
            rw [← hb, hy]
            simp
          · have := ih rb hys x h1 cx hcx
            rw [← hb]
            simp only [List.length_append]
            omega

/-- Each entry's value chunk is no longer than the whole entry-loop
output. -/
theorem encodeSortedEntries_le : ∀ (es : List (JSString × EncVal))
    (body : List Nat),
    encodeSortedEntries es = Except.ok body →
    ∀ e ∈ es, ∀ cx, encodeSorted e.2 = Except.ok cx →
      cx.length ≤ body.length := by
  intro es
  induction es with
  | nil => intro body _ e he; simp at he
  | cons y ys ih =>
    intro body hb e he cx hcx
    obtain ⟨k, v⟩ := y
    rw [encodeSortedEntries] at hb
    by_cases hn : isNullish v = true
    · rw [if_pos hn] at hb
      rcases List.mem_cons.mp he with h1 | h1
      · have : e.2 = EncVal.enull := by rw [h1]; exact isNullish_enull hn
        rw [this, encodeSorted] at hcx
        exact absurd hcx (by simp)
      · exact ih body hb e h1 cx hcx
    · rw [if_neg hn] at hb
      cases hy : encodeSorted v with
      | error e2 => rw [hy] at hb; exact absurd hb (by simp)
      | ok cy =>
        rw [hy] at hb
        dsimp only at hb
        cases hys : encodeSortedEntries ys with
        | error e2 => rw [hys] at hb; exact absurd hb (by simp)
        | ok rb =>
          rw [hys] at hb
          dsimp only at hb
          injection hb with hb
          rcases List.mem_cons.mp he with h1 | h1
          · rw [h1] at hcx
            dsimp only at hcx
            rw [hcx] at hy
            injection hy with hy
            rw [← hb, hy]
            simp only [List.length_append]
            omega
          · have := ih rb hys e h1 cx hcx
            rw [← hb]
            simp only [List.length_append]
            omega


/-- The decoder's element loop inverts the encoder's element loop, given
that each element's chunk decodes to its normalization. -/
theorem rtItems : ∀ (xs : List EncVal) (body : List Nat),
    (∀ x ∈ xs, reprVal x = true) →
    (∀ x ∈ xs, ∀ cx, encodeSorted x = Except.ok cx →
      ∀ (pre post : List Nat) (depth fuel : Nat), 4 * cx.length ≤ fuel →
        decodeValue { stringify := true } (pre ++ cx ++ post) fuel pre.length
          depth = Except.ok (canonW x, pre.length + cx.length)) →
    encodeSortedItems xs = Except.ok body →
    ∀ (P R : List Nat) (depth fuel : Nat) (acc : List DVal),
      4 * body.length + 2 ≤ fuel →
      decodeListItems { stringify := true } (P ++ body ++ FLAG_END :: R) fuel
        P.length depth acc =
        Except.ok (DVal.dlist (acc ++ canonWList xs),
          P.length + body.length + 1) := by
  intro xs
  induction xs with
  | nil =>
    intro body _ _ hb P R depth fuel acc hfuel
    rw [encodeSortedItems] at hb
    injection hb with hb
    subst hb
    simp only [List.append_nil]
    obtain ⟨fuel, rfl⟩ : ∃ f, fuel = f + 1 := ⟨fuel - 1, by omega⟩
    rw [decodeListItems]
    have hbe := byteAt_at P FLAG_END R
    rw [if_neg (by simp only [not_atEnd_of_byteAt hbe]; simp)]
    rw [if_pos hbe]
    rw [canonWList]
    simp
  | cons x ys ih =>
    intro body hrep hpt hb P R depth fuel acc hfuel
    have hrx : reprVal x = true := hrep x (List.mem_cons_self x ys)
    have hnn : isNullish x = false := reprVal_not_null hrx
    rw [encodeSortedItems, if_neg (by rw [hnn]; simp)] at hb
    cases hx : encodeSorted x with
    | error e => rw [hx] at hb; exact absurd hb (by simp)
    | ok cx =>
      rw [hx] at hb
      dsimp only at hb
      cases hys : encodeSortedItems ys with
      | error e => rw [hys] at hb; exact absurd hb (by simp)
      | ok rb =>
        rw [hys] at hb
        dsimp only at hb
        injection hb with hb
        subst hb
        obtain ⟨b0, r0, hcx0, hb0⟩ := encodeSorted_head x cx hx
        obtain ⟨fuel, rfl⟩ : ∃ f, fuel = f + 1 := ⟨fuel - 1, by omega⟩
        rw [decodeListItems]
        have hsh : P ++ (cx ++ rb) ++ FLAG_END :: R =
            P ++ cx ++ (rb ++ FLAG_END :: R) := by simp
        have hfirst : byteAt (P ++ (cx ++ rb) ++ FLAG_END :: R) P.length =
            some b0 := by
          rw [hsh, hcx0]
          simpa using byteAt_at P b0 (r0 ++ (rb ++ FLAG_END :: R))
        rw [if_neg (by simp only [not_atEnd_of_byteAt hfirst]; simp)]
        rw [if_neg (by
          rw [hfirst]
          simp only [FLAG_END, FLAG_INTEGER, FLAG_LIST, FLAG_DICTIONARY,
            Option.some.injEq, ne_eq] at hb0 ⊢
          omega)]
        have hv := hpt x (List.mem_cons_self x ys) cx hx P (rb ++ FLAG_END :: R)
          depth fuel (by simp only [List.length_append] at hfuel; omega)
        rw [hsh, hv]
        dsimp only
        have hrec := ih rb (fun z hz => hrep z (List.mem_cons_of_mem x hz))
          (fun z hz => hpt z (List.mem_cons_of_mem x hz)) hys
          (P ++ cx) R depth fuel (acc ++ [canonW x])
          (by simp only [List.length_append] at hfuel ⊢
              have hpos : 0 < cx.length := by rw [hcx0]; simp
              omega)
        rw [show (P ++ cx) ++ rb ++ FLAG_END :: R =
          P ++ cx ++ (rb ++ FLAG_END :: R) from by simp] at hrec
        rw [show (P ++ cx).length = P.length + cx.length from by simp] at hrec
        rw [hrec]
        rw [canonWList, if_neg (by rw [hnn]; simp)]
        simp only [List.append_assoc, List.singleton_append,
          List.length_append]
        rw [show P.length + cx.length + rb.length + 1 =
          P.length + (cx.length + rb.length) + 1 from by omega]


/-- The decoder's dictionary-entry loop inverts the encoder's entry loop:
keys come back as strings, values by the elementwise hypothesis, and the
accumulated object is the `objSet` fold. -/
theorem rtEntries : ∀ (es : List (JSString × EncVal)) (body : List Nat),
    (∀ e ∈ es, reprVal e.2 = true) →
    (∀ e ∈ es, rtString e.1 = true) →
    (∀ e ∈ es, ∀ cx, encodeSorted e.2 = Except.ok cx →
      ∀ (pre post : List Nat) (depth fuel : Nat), 4 * cx.length ≤ fuel →
        decodeValue { stringify := true } (pre ++ cx ++ post) fuel pre.length
          depth = Except.ok (canonW e.2, pre.length + cx.length)) →
    encodeSortedEntries es = Except.ok body →
    ∀ (P R : List Nat) (depth fuel : Nat) (acc : List (JSString × DVal))
      (pk : Option (List Nat)), 4 * body.length + 2 ≤ fuel →
      decodeDictEntries { stringify := true } (P ++ body ++ FLAG_END :: R) fuel
        P.length depth acc pk =
        Except.ok (DVal.ddict (canonWEntries acc es),
          P.length + body.length + 1) := by
  intro es
  induction es with
  | nil =>
    intro body _ _ _ hb P R depth fuel acc pk hfuel
    rw [encodeSortedEntries] at hb
    injection hb with hb
    subst hb
    simp only [List.append_nil]
    obtain ⟨fuel, rfl⟩ : ∃ f, fuel = f + 1 := ⟨fuel - 1, by omega⟩
    rw [decodeDictEntries]
    have hbe := byteAt_at P FLAG_END R
    rw [if_neg (by simp only [not_atEnd_of_byteAt hbe]; simp)]
    rw [if_pos hbe]
    rw [canonWEntries]
    simp
  | cons y ys ih =>
    intro body hrep hkeys hpt hb P R depth fuel acc pk hfuel
    obtain ⟨k, v⟩ := y
    have hrv : reprVal v = true := hrep (k, v) (List.mem_cons_self _ ys)
    have hrk : rtString k = true := hkeys (k, v) (List.mem_cons_self _ ys)
    have hnn : isNullish v = false := reprVal_not_null hrv
    rw [encodeSortedEntries, if_neg (by rw [hnn]; simp)] at hb
    cases hv : encodeSorted v with
    | error e => rw [hv] at hb; exact absurd hb (by simp)
    | ok cv =>
      rw [hv] at hb
      dsimp only at hb
      cases hys : encodeSortedEntries ys with
      | error e => rw [hys] at hb; exact absurd hb (by simp)
      | ok rb =>
        rw [hys] at hb
        dsimp only at hb
        injection hb with hb
        subst hb
        obtain ⟨fuel, rfl⟩ : ∃ f, fuel = f + 1 := ⟨fuel - 1, by omega⟩
        rw [decodeDictEntries]
        -- the key chunk is a digit-run; the first byte is a digit
        obtain ⟨d0, r0, hsk0⟩ : ∃ d0 r0,
            natDecimalDigits (utf8Encode k).length = d0 :: r0 := by
          cases hq : natDecimalDigits (utf8Encode k).length with
          | nil => exact absurd hq (natDecimalDigits_ne_nil _)
          | cons a t => exact ⟨a, t, rfl⟩
        have hd0b := natDecimalDigits_digits (utf8Encode k).length d0
          (by rw [hsk0]; exact List.mem_cons_self d0 r0)
        have hskc : stringChunk k = d0 :: (r0 ++ [FLAG_STR_DELIMITER]
            ++ utf8Encode k) := by
          rw [stringChunk, bytesChunk, hsk0]
          simp
        have hsh : P ++ (stringChunk k ++ cv ++ rb) ++ FLAG_END :: R =
            P ++ stringChunk k ++ (cv ++ (rb ++ FLAG_END :: R)) := by simp
        have hfirst : byteAt (P ++ (stringChunk k ++ cv ++ rb) ++
            FLAG_END :: R) P.length = some d0 := by
          rw [hsh, hskc]
          simpa using byteAt_at P d0
            ((r0 ++ [FLAG_STR_DELIMITER] ++ utf8Encode k) ++
              (cv ++ (rb ++ FLAG_END :: R)))
        rw [if_neg (by simp only [not_atEnd_of_byteAt hfirst]; simp)]
        rw [if_neg (by
          rw [hfirst]
          simp only [FLAG_END, Option.some.injEq, ne_eq]
          omega)]
        have hkey := decodeString_chunk k P (cv ++ (rb ++ FLAG_END :: R)) hrk
        rw [← hsh] at hkey
        rw [hkey]
        dsimp only
        rw [if_neg (by simp)]
        have hvx := hpt (k, v) (List.mem_cons_self _ ys) cv hv
          (P ++ stringChunk k) (rb ++ FLAG_END :: R) depth fuel
          (by simp only [List.length_append] at hfuel; omega)
        rw [show (P ++ stringChunk k) ++ cv ++ (rb ++ FLAG_END :: R) =
          P ++ (stringChunk k ++ cv ++ rb) ++ FLAG_END :: R from by simp]
          at hvx
        rw [show (P ++ stringChunk k).length = P.length + (stringChunk k).length
          from by simp] at hvx
        rw [hvx]
        dsimp only
        have hrec := ih rb (fun z hz => hrep z (List.mem_cons_of_mem _ hz))
          (fun z hz => hkeys z (List.mem_cons_of_mem _ hz))
          (fun z hz => hpt z (List.mem_cons_of_mem _ hz)) hys
          (P ++ stringChunk k ++ cv) R depth fuel
          (objSet acc (keyAsString (DVal.dstr k)) (canonW v))
          (some (keyAsBytes (DVal.dstr k)))
          (by
            simp only [List.length_append] at hfuel ⊢
            have hpos : 0 < (stringChunk k).length := by rw [hskc]; simp
            omega)
        rw [show (P ++ stringChunk k ++ cv) ++ rb ++ FLAG_END :: R =
          P ++ (stringChunk k ++ cv ++ rb) ++ FLAG_END :: R from by simp]
          at hrec
        rw [show (P ++ stringChunk k ++ cv).length =
          P.length + (stringChunk k).length + cv.length from by simp; omega]
          at hrec
        rw [hrec]
        rw [show keyAsString (DVal.dstr k) = k from rfl]
        rw [canonWEntries, if_neg (by rw [hnn]; simp)]
        simp only [List.length_append]
        rw [show P.length + (stringChunk k).length + cv.length + rb.length + 1 =
          P.length + ((stringChunk k).length + cv.length + rb.length) + 1
          from by omega]


/-- The decoder inverts the (pre-sorted) encoder: a round-trippable
value's chunk, parsed at its position inside any enclosing buffer, yields
its normalization and consumes exactly the chunk. -/
theorem rtDecode : ∀ N : Nat, ∀ (w : EncVal) (ch : List Nat),
    reprVal w = true → encodeSorted w = Except.ok ch → ch.length ≤ N →
    ∀ (pre post : List Nat) (depth fuel : Nat), 4 * ch.length ≤ fuel →
      decodeValue { stringify := true } (pre ++ ch ++ post) fuel pre.length
        depth = Except.ok (canonW w, pre.length + ch.length) := by
  intro N
  induction N using Nat.strong_induction_on with
  | _ N IH =>
  intro w ch hw hch hlen pre post depth fuel hfuel
  cases w with
  | ebool b =>
    rw [show reprVal (EncVal.ebool b) = false from rfl] at hw
    exact absurd hw (by simp)
  | ebytes bs =>
    rw [show reprVal (EncVal.ebytes bs) = false from rfl] at hw
    exact absurd hw (by simp)
  | enull =>
    rw [show reprVal EncVal.enull = false from rfl] at hw
    exact absurd hw (by simp)
  | enum x =>
    cases x with
    | nan =>
      rw [show reprVal (EncVal.enum JSNum.nan) = false from rfl] at hw
      exact absurd hw (by simp)
    | inf =>
      rw [show reprVal (EncVal.enum JSNum.inf) = false from rfl] at hw
      exact absurd hw (by simp)
    | neginf =>
      rw [show reprVal (EncVal.enum JSNum.neginf) = false from rfl] at hw
      exact absurd hw (by simp)
    | negZero =>
      rw [show reprVal (EncVal.enum JSNum.negZero) = false from rfl] at hw
      exact absurd hw (by simp)
    | fin q =>
      rw [show reprVal (EncVal.enum (JSNum.fin q)) =
        (decide (q.den = 1) && decide (q.num.natAbs ≤ 2 ^ 53)) from rfl] at hw
      simp only [Bool.and_eq_true, decide_eq_true_eq] at hw
      rw [encodeSorted] at hch
      injection hch with hch
      have hq : ((q.num : ℚ)) = q := (Rat.den_eq_one_iff q).mp hw.1
      have hr : ratTrunc q = q.num := by
        conv_lhs => rw [← hq]
        exact ratTrunc_intCast q.num
      have hnio : ¬(-1 < q ∧ q < 0) := by
        rintro ⟨h1, h2⟩
        rw [← hq] at h1 h2
        have h1b : (-1 : ℤ) < q.num := by exact_mod_cast h1
        have h2b : q.num < 0 := by exact_mod_cast h2
        omega
      have hrender : jsNumRenderBytes (jsTrunc (JSNum.fin q)) =
          intDecimalBytes q.num := by
        rw [jsTrunc, if_neg hnio]
        have h2 : jsNumRenderBytes (JSNum.fin ((ratTrunc q : ℤ) : ℚ)) =
            if (ratTrunc ((ratTrunc q : ℤ) : ℚ)).natAbs < 10 ^ 21 then
              intDecimalBytes (ratTrunc ((ratTrunc q : ℤ) : ℚ))
            else jsExpBytes (ratTrunc ((ratTrunc q : ℤ) : ℚ)) := rfl
        rw [h2, ratTrunc_intCast, hr, if_pos (show q.num.natAbs < 10 ^ 21
          from by
            have h53 : (2 : ℕ) ^ 53 < 10 ^ 21 := by norm_num
            have h2le := hw.2
            omega)]
      have hch2 : ch = [FLAG_INTEGER] ++ intDecimalBytes q.num ++ [FLAG_END] := by
        rw [← hch, integerChunk, hrender]
      rw [hch2] at hfuel ⊢
      simp only [List.length_append, List.length_cons, List.length_nil]
        at hfuel
      obtain ⟨fuel, rfl⟩ : ∃ f, fuel = f + 1 := ⟨fuel - 1, by omega⟩
      rw [decodeValue]
      have hfirst : byteAt (pre ++ ([FLAG_INTEGER] ++ intDecimalBytes q.num
          ++ [FLAG_END]) ++ post) pre.length = some FLAG_INTEGER := by
        rw [show pre ++ ([FLAG_INTEGER] ++ intDecimalBytes q.num ++ [FLAG_END])
          ++ post = pre ++ FLAG_INTEGER ::
            (intDecimalBytes q.num ++ FLAG_END :: post) from by simp]
        exact byteAt_at pre FLAG_INTEGER _
      rw [if_neg (by simp only [not_atEnd_of_byteAt hfirst]; simp)]
      rw [if_neg (by rw [hfirst]; simp [isDigitAt, FLAG_INTEGER])]
      rw [if_pos hfirst]
      rw [decodeInteger_chunk q.num pre post]
      dsimp only
      rw [show canonW (EncVal.enum (JSNum.fin q)) = DVal.dint (ratTrunc q)
        from rfl, hr]
      rw [show ([FLAG_INTEGER] ++ intDecimalBytes q.num ++ [FLAG_END]).length
        = (intDecimalBytes q.num).length + 2 from by simp]
      rw [show pre.length + ((intDecimalBytes q.num).length + 2) =
        pre.length + (intDecimalBytes q.num).length + 2 from by omega]
  | estr s =>
    have hs : rtString s = true := by
      rw [show reprVal (EncVal.estr s) = rtString s from rfl] at hw
      exact hw
    rw [encodeSorted] at hch
    injection hch with hch
    subst hch
    obtain ⟨d0, r0, hsk0⟩ : ∃ d0 r0,
        natDecimalDigits (utf8Encode s).length = d0 :: r0 := by
      cases hq : natDecimalDigits (utf8Encode s).length with
      | nil => exact absurd hq (natDecimalDigits_ne_nil _)
      | cons a t => exact ⟨a, t, rfl⟩
    have hd0b := natDecimalDigits_digits (utf8Encode s).length d0
      (by rw [hsk0]; exact List.mem_cons_self d0 r0)
    have hskc : stringChunk s = d0 :: (r0 ++ [FLAG_STR_DELIMITER]
        ++ utf8Encode s) := by
      rw [stringChunk, bytesChunk, hsk0]
      simp
    obtain ⟨fuel, rfl⟩ : ∃ f, fuel = f + 1 :=
      ⟨fuel - 1, by
        rw [hskc] at hfuel
        simp only [List.length_cons] at hfuel
        omega⟩
    rw [decodeValue]
    have hfirst : byteAt (pre ++ stringChunk s ++ post) pre.length =
        some d0 := by
      rw [show pre ++ stringChunk s ++ post = pre ++ d0 ::
        ((r0 ++ [FLAG_STR_DELIMITER] ++ utf8Encode s) ++ post) from by
          rw [hskc]; simp]
      exact byteAt_at pre d0 _
    rw [if_neg (by simp only [not_atEnd_of_byteAt hfirst]; simp)]
    rw [if_pos (by
      rw [hfirst]
      simp only [isDigitAt, Bool.and_eq_true, decide_eq_true_eq]
      omega)]
    rw [decodeString_chunk s pre post hs]
    rfl
  | elist xs =>
    have hxs : reprList xs = true := by
      rw [show reprVal (EncVal.elist xs) = reprList xs from rfl] at hw
      exact hw
    rw [encodeSorted] at hch
    cases hitems : encodeSortedItems xs with
    | error e => rw [hitems] at hch; exact absurd hch (by simp)
    | ok body =>
      rw [hitems] at hch
      dsimp only at hch
      injection hch with hch
      rw [← hch] at hlen hfuel ⊢
      simp only [List.length_append, List.length_cons, List.length_nil]
        at hlen hfuel
      obtain ⟨f, rfl⟩ : ∃ f, fuel = f + 2 := ⟨fuel - 2, by omega⟩
      rw [show f + 2 = (f + 1) + 1 from rfl, decodeValue]
      have hfirst : byteAt (pre ++ ([FLAG_LIST] ++ body ++ [FLAG_END]) ++ post)
          pre.length = some FLAG_LIST := by
        rw [show pre ++ ([FLAG_LIST] ++ body ++ [FLAG_END]) ++ post =
          pre ++ FLAG_LIST :: (body ++ FLAG_END :: post) from by simp]
        exact byteAt_at pre FLAG_LIST _
      rw [if_neg (by simp only [not_atEnd_of_byteAt hfirst]; simp)]
      rw [if_neg (by rw [hfirst]; simp [isDigitAt, FLAG_LIST])]
      rw [if_neg (by rw [hfirst]; simp [FLAG_LIST, FLAG_INTEGER])]
      rw [if_pos hfirst]
      rw [decodeList]
      rw [if_neg (by simp)]
      have hrec := rtItems xs body (reprList_mem hxs)
        (fun x hx cx hcx pre2 post2 d2 f2 hf2 =>
          IH cx.length
            (by
              have := encodeSortedItems_le xs body hitems x hx cx hcx
              omega)
            x cx (reprList_mem hxs x hx) hcx le_rfl pre2 post2 d2 f2 hf2)
        hitems (pre ++ [FLAG_LIST]) post (depth + 1) f [] (by omega)
      rw [show (pre ++ [FLAG_LIST]) ++ body ++ FLAG_END :: post =
        pre ++ ([FLAG_LIST] ++ body ++ [FLAG_END]) ++ post from by simp]
        at hrec
      rw [show (pre ++ [FLAG_LIST]).length = pre.length + 1 from by simp]
        at hrec
      rw [hrec]
      rw [show canonW (EncVal.elist xs) = DVal.dlist (canonWList xs) from rfl]
      simp only [List.nil_append]
      rw [show pre.length + 1 + body.length + 1 =
        pre.length + (body.length + 2) from by omega]
      rw [show ([FLAG_LIST] ++ body ++ [FLAG_END]).length = body.length + 2
        from by simp]
  | edict es =>
    have hes : reprEntries es = true ∧ (∀ e ∈ es, rtString e.1 = true) := by
      rw [show reprVal (EncVal.edict es) =
        (reprEntries es && es.all (fun e => rtString e.fst)
          && decide ((es.map Prod.fst).Nodup)) from rfl] at hw
      simp only [Bool.and_eq_true, List.all_eq_true, decide_eq_true_eq] at hw
      exact ⟨hw.1.1, hw.1.2⟩
    rw [encodeSorted] at hch
    cases hents : encodeSortedEntries es with
    | error e => rw [hents] at hch; exact absurd hch (by simp)
    | ok body =>
      rw [hents] at hch
      dsimp only at hch
      injection hch with hch
      rw [← hch] at hlen hfuel ⊢
      simp only [List.length_append, List.length_cons, List.length_nil]
        at hlen hfuel
      obtain ⟨f, rfl⟩ : ∃ f, fuel = f + 2 := ⟨fuel - 2, by omega⟩
      rw [show f + 2 = (f + 1) + 1 from rfl, decodeValue]
      have hfirst : byteAt (pre ++ ([FLAG_DICTIONARY] ++ body ++ [FLAG_END])
          ++ post) pre.length = some FLAG_DICTIONARY := by
        rw [show pre ++ ([FLAG_DICTIONARY] ++ body ++ [FLAG_END]) ++ post =
          pre ++ FLAG_DICTIONARY :: (body ++ FLAG_END :: post) from by simp]
        exact byteAt_at pre FLAG_DICTIONARY _
      rw [if_neg (by simp only [not_atEnd_of_byteAt hfirst]; simp)]
      rw [if_neg (by rw [hfirst]; simp [isDigitAt, FLAG_DICTIONARY])]
      rw [if_neg (by rw [hfirst]; simp [FLAG_DICTIONARY, FLAG_INTEGER])]
      rw [if_neg (by rw [hfirst]; simp [FLAG_DICTIONARY, FLAG_LIST])]
      rw [if_pos hfirst]
      rw [decodeDictionary]
      rw [if_neg (by simp)]
      have hrec := rtEntries es body (reprEntries_mem hes.1) hes.2
        (fun e he cx hcx pre2 post2 d2 f2 hf2 =>
          IH cx.length
            (by
              have := encodeSortedEntries_le es body hents e he cx hcx
              omega)
            e.2 cx (reprEntries_mem hes.1 e he) hcx le_rfl pre2 post2 d2 f2 hf2)
        hents (pre ++ [FLAG_DICTIONARY]) post (depth + 1) f [] none (by omega)
      rw [show (pre ++ [FLAG_DICTIONARY]) ++ body ++ FLAG_END :: post =
        pre ++ ([FLAG_DICTIONARY] ++ body ++ [FLAG_END]) ++ post from by simp]
        at hrec
      rw [show (pre ++ [FLAG_DICTIONARY]).length = pre.length + 1 from by simp]
        at hrec
      rw [hrec]
      rw [show canonW (EncVal.edict es) = DVal.ddict (canonWEntries [] es)
        from rfl]
      rw [show pre.length + 1 + body.length + 1 =
        pre.length + (body.length + 2) from by omega]
      rw [show ([FLAG_DICTIONARY] ++ body ++ [FLAG_END]).length =
        body.length + 2 from by simp]

/-- Converse of `reprList_mem`. -/
theorem reprList_of_mem : ∀ xs : List EncVal,
    (∀ x ∈ xs, reprVal x = true) → reprList xs = true := by
  intro xs
  induction xs with
  | nil => intro _; rfl
  | cons y ys ih =>
    intro h
    rw [reprList]
    simp only [Bool.and_eq_true]
    exact ⟨h y (List.mem_cons_self y ys),
      ih (fun x hx => h x (List.mem_cons_of_mem y hx))⟩

/-- Converse of `reprEntries_mem`. -/
theorem reprEntries_of_mem : ∀ es : List (JSString × EncVal),
    (∀ e ∈ es, reprVal e.2 = true) → reprEntries es = true := by
  intro es
  induction es with
  | nil => intro _; rfl
  | cons y ys ih =>
    intro h
    obtain ⟨k, v⟩ := y
    rw [reprEntries]
    simp only [Bool.and_eq_true]
    exact ⟨h (k, v) (List.mem_cons_self _ ys),
      ih (fun e he => h e (List.mem_cons_of_mem _ he))⟩

/-- `sortDictsList` is elementwise. -/
theorem sortDictsList_eq_map (xs : List EncVal) :
    sortDictsList xs = xs.map sortDicts := by
  induction xs with
  | nil => rfl
  | cons x rest ih => rw [sortDictsList, List.map_cons, ih]

/-- Sorting the dictionaries of an encodable value keeps it encodable:
key sets and value multisets are only permuted. -/
theorem sortDicts_repr : ∀ N : Nat, ∀ v : EncVal, sizeOf v ≤ N →
    reprVal v = true → reprVal (sortDicts v) = true := by
  intro N
  induction N using Nat.strong_induction_on with
  | _ N IH =>
  intro v hsz hv
  cases v with
  | enull => exact hv
  | ebool b => exact hv
  | enum x => exact hv
  | estr s => exact hv
  | ebytes bs => exact hv
  | elist xs =>
    rw [show sortDicts (EncVal.elist xs) =
      EncVal.elist (sortDictsList xs) from rfl]
    rw [show reprVal (EncVal.elist (sortDictsList xs)) =
      reprList (sortDictsList xs) from rfl]
    apply reprList_of_mem
    intro y hy
    rw [sortDictsList_eq_map] at hy
    obtain ⟨x, hx, rfl⟩ := List.mem_map.mp hy
    have hlt : sizeOf x < N := by
      have h1 := List.sizeOf_lt_of_mem hx
      have h2 : sizeOf (EncVal.elist xs) = 1 + sizeOf xs := by simp
      omega
    exact IH (sizeOf x) hlt x le_rfl
      (reprList_mem (by rw [show reprList xs =
        reprVal (EncVal.elist xs) from rfl]; exact hv) x hx)
  | edict es =>
    rw [show reprVal (EncVal.edict es) =
      (reprEntries es && es.all (fun e => rtString e.fst)
        && decide ((es.map Prod.fst).Nodup)) from rfl] at hv
    simp only [Bool.and_eq_true, List.all_eq_true, decide_eq_true_eq] at hv
    rw [show sortDicts (EncVal.edict es) = EncVal.edict
      (List.insertionSort (fun a b => jsStrLe a.fst b.fst = true)
        (sortDictsEntries es)) from rfl]
    have hperm : List.Perm
        (List.insertionSort (fun a b => jsStrLe a.fst b.fst = true)
          (sortDictsEntries es))
        (es.map (fun e => (e.fst, sortDicts e.snd))) := by
      rw [← sortDictsEntries_eq_map]
      exact List.perm_insertionSort _ _
    rw [show reprVal (EncVal.edict
        (List.insertionSort (fun a b => jsStrLe a.fst b.fst = true)
          (sortDictsEntries es))) =
      (reprEntries (List.insertionSort (fun a b => jsStrLe a.fst b.fst = true)
          (sortDictsEntries es)) &&
        (List.insertionSort (fun a b => jsStrLe a.fst b.fst = true)
          (sortDictsEntries es)).all (fun e => rtString e.fst)
        && decide (((List.insertionSort
            (fun a b => jsStrLe a.fst b.fst = true)
            (sortDictsEntries es)).map Prod.fst).Nodup)) from rfl]
    simp only [Bool.and_eq_true, List.all_eq_true, decide_eq_true_eq]
    refine ⟨⟨?_, ?_⟩, ?_⟩
    · apply reprEntries_of_mem
      intro e he
      have he2 := hperm.subset he
      obtain ⟨⟨k, v⟩, hkv, rfl⟩ := List.mem_map.mp he2
      have hlt : sizeOf v < N := by
        have h1 := List.sizeOf_lt_of_mem hkv
        have h2 : sizeOf (EncVal.edict es) = 1 + sizeOf es := by simp
        have h3 : sizeOf ((k, v) : JSString × EncVal) =
            1 + sizeOf k + sizeOf v := by simp
        omega
      exact IH (sizeOf v) hlt v le_rfl (reprEntries_mem hv.1.1 (k, v) hkv)
    · intro e he
      have he2 := hperm.subset he
      obtain ⟨⟨k, v⟩, hkv, rfl⟩ := List.mem_map.mp he2
      exact hv.1.2 (k, v) hkv
    · have hp : List.Perm
          ((List.insertionSort (fun a b => jsStrLe a.fst b.fst = true)
            (sortDictsEntries es)).map Prod.fst)
          (es.map Prod.fst) := by
        have := hperm.map Prod.fst
        rw [List.map_map] at this
        exact this
      exact hp.nodup_iff.mpr hv.2

/-- The list loop of the encoder succeeds when every element does. -/
theorem encodeSortedItems_ok : ∀ xs : List EncVal,
    (∀ x ∈ xs, ∃ c, encodeSorted x = Except.ok c) →
    ∃ body, encodeSortedItems xs = Except.ok body := by
  intro xs
  induction xs with
  | nil => intro _; exact ⟨[], rfl⟩
  | cons y ys ih =>
    intro h
    obtain ⟨body, hbody⟩ := ih (fun x hx => h x (List.mem_cons_of_mem y hx))
    obtain ⟨c, hc⟩ := h y (List.mem_cons_self y ys)
    rw [encodeSortedItems]
    by_cases hn : isNullish y = true
    · rw [if_pos hn]
      exact ⟨body, hbody⟩
    · rw [if_neg hn, hc, hbody]
      exact ⟨c ++ body, rfl⟩

/-- The entry loop of the encoder succeeds when every value does. -/
theorem encodeSortedEntries_ok : ∀ es : List (JSString × EncVal),
    (∀ e ∈ es, ∃ c, encodeSorted e.2 = Except.ok c) →
    ∃ body, encodeSortedEntries es = Except.ok body := by
  intro es
  induction es with
  | nil => intro _; exact ⟨[], rfl⟩
  | cons y ys ih =>
    intro h
    obtain ⟨k, v⟩ := y
    obtain ⟨body, hbody⟩ := ih (fun e he => h e (List.mem_cons_of_mem _ he))
    obtain ⟨c, hc⟩ := h (k, v) (List.mem_cons_self _ ys)
    rw [encodeSortedEntries]
    by_cases hn : isNullish v = true
    · rw [if_pos hn]
      exact ⟨body, hbody⟩
    · rw [if_neg hn, hc, hbody]
      exact ⟨stringChunk k ++ c ++ body, rfl⟩

/-- The encoder succeeds on every encodable value. -/
theorem encodeSorted_ok : ∀ N : Nat, ∀ w : EncVal, sizeOf w ≤ N →
    reprVal w = true → ∃ ch, encodeSorted w = Except.ok ch := by
  intro N
  induction N using Nat.strong_induction_on with
  | _ N IH =>
  intro w hsz hw
  cases w with
  | enull => exact absurd hw (by rw [show reprVal EncVal.enull = false from rfl]; simp)
  | ebool b => exact absurd hw (by rw [show reprVal (EncVal.ebool b) = false from rfl]; simp)
  | ebytes bs => exact absurd hw (by rw [show reprVal (EncVal.ebytes bs) = false from rfl]; simp)
  | enum x => exact ⟨integerChunk x, rfl⟩
  | estr s => exact ⟨stringChunk s, rfl⟩
  | elist xs =>
    obtain ⟨body, hbody⟩ := encodeSortedItems_ok xs (by
      intro x hx
      have hlt : sizeOf x < N := by
        have h1 := List.sizeOf_lt_of_mem hx
        have h2 : sizeOf (EncVal.elist xs) = 1 + sizeOf xs := by simp
        omega
      exact IH (sizeOf x) hlt x le_rfl
        (reprList_mem (by rw [show reprList xs =
          reprVal (EncVal.elist xs) from rfl]; exact hw) x hx))
    refine ⟨[FLAG_LIST] ++ body ++ [FLAG_END], ?_⟩
    rw [encodeSorted, hbody]
  | edict es =>
    have hents : reprEntries es = true := by
      rw [show reprVal (EncVal.edict es) =
        (reprEntries es && es.all (fun e => rtString e.fst)
          && decide ((es.map Prod.fst).Nodup)) from rfl] at hw
      simp only [Bool.and_eq_true] at hw
      exact hw.1.1
    obtain ⟨body, hbody⟩ := encodeSortedEntries_ok es (by
      intro e he
      have hlt : sizeOf e.2 < N := by
        have h1 := List.sizeOf_lt_of_mem he
        have h2 : sizeOf (EncVal.edict es) = 1 + sizeOf es := by simp
        obtain ⟨k, v⟩ := e
        have h3 : sizeOf ((k, v) : JSString × EncVal) =
            1 + sizeOf k + sizeOf v := by simp
        simp only at h1 ⊢
        omega
      exact IH (sizeOf e.2) hlt e.2 le_rfl (reprEntries_mem hents e he))
    refine ⟨[FLAG_DICTIONARY] ++ body ++ [FLAG_END], ?_⟩
    rw [encodeSorted, hbody]

/-- A key that is on no entry of the object is not `objHasKey`. -/
theorem objHasKey_eq_false {α : Type} (k : JSString)
    (o : List (JSString × α)) (h : k ∉ o.map Prod.fst) :
    objHasKey k o = false := by
  by_contra hc
  rw [objHasKey, Bool.not_eq_false, List.any_eq_true] at hc
  obtain ⟨e, he, hek⟩ := hc
  rw [decide_eq_true_eq] at hek
  exact h (hek ▸ List.mem_map_of_mem Prod.fst he)

/-- Inserting into the index segment only interleaves: the result is a
permutation of appending. -/
theorem objInsertIndexed_perm {α : Type} (n : Nat) (k : JSString) (v : α) :
    ∀ o : List (JSString × α),
      List.Perm (objInsertIndexed n k v o) (o ++ [(k, v)]) := by
  intro o
  induction o with
  | nil => rw [objInsertIndexed]; exact List.Perm.refl _
  | cons e rest ih =>
    obtain ⟨k2, v2⟩ := e
    rw [objInsertIndexed]
    cases isArrayIndexKey k2 with
    | some m =>
      dsimp only
      by_cases hm : n < m
      · rw [if_pos hm]
        exact (List.perm_append_singleton _ _).symm
      · rw [if_neg hm]
        exact (ih.cons _)
    | none =>
      dsimp only
      exact (List.perm_append_singleton _ _).symm

/-- `obj[k] = v` with a fresh key is an append up to permutation. -/
theorem objSet_perm {α : Type} (o : List (JSString × α)) (k : JSString)
    (v : α) (h : k ∉ o.map Prod.fst) :
    List.Perm (objSet o k v) (o ++ [(k, v)]) := by
  rw [objSet, if_neg (by rw [objHasKey_eq_false k o h]; simp)]
  cases isArrayIndexKey k with
  | some n => exact objInsertIndexed_perm n k v o
  | none => exact List.Perm.refl _

/-- Building a JS object from distinct-key, non-nullish entries yields a
permutation of the entries (with canonical values) after the seed. -/
theorem canonWEntries_perm : ∀ (es : List (JSString × EncVal))
    (acc : List (JSString × DVal)),
    (∀ e ∈ es, isNullish e.2 = false) →
    (acc.map Prod.fst ++ es.map Prod.fst).Nodup →
    List.Perm (canonWEntries acc es)
      (acc ++ es.map (fun e => (e.fst, canonW e.snd))) := by
  intro es
  induction es with
  | nil =>
    intro acc _ _
    rw [canonWEntries]
    simp
  | cons e rest ih =>
    intro acc hnn hnd
    obtain ⟨k, v⟩ := e
    rw [canonWEntries]
    rw [if_neg (by rw [hnn (k, v) (List.mem_cons_self _ rest)]; simp)]
    have hknotacc : k ∉ acc.map Prod.fst := by
      intro hk
      rw [List.nodup_append] at hnd
      exact hnd.2.2 hk (by simp)
    have hobj := objSet_perm acc k (canonW v) hknotacc
    have hperm2 : List.Perm
        ((objSet acc k (canonW v)).map Prod.fst ++ rest.map Prod.fst)
        (acc.map Prod.fst ++ (((k, v) :: rest).map Prod.fst)) := by
      refine List.Perm.trans (List.Perm.append_right _ (hobj.map Prod.fst)) ?_
      simp only [List.map_append, List.map_cons, List.map_nil]
      rw [List.append_assoc]
      refine List.Perm.append_left _ ?_
      simp
    have hrec := ih (objSet acc k (canonW v))
      (fun e he => hnn e (List.mem_cons_of_mem _ he))
      (hperm2.nodup_iff.mpr hnd)
    refine hrec.trans ?_
    refine List.Perm.trans (List.Perm.append_right _ hobj) ?_
    rw [List.append_assoc]
    refine List.Perm.append_left _ ?_
    simp

/-- C2 (amended): for every encodable value `v` — integral numbers of
magnitude at most `2^53` (the safe-integer range, on which the host's
decimal rendering of the number and the decoder's `integer * 10 + digit`
float accumulation are both exact; beyond it, both round — e.g.
`String(2^60)` already ends in rounded digits and parsing those back
rounds again), well-formed UTF-16 strings not beginning with a byte-order
mark, lists and duplicate-free dictionaries of such values —
`decode(encode(v), {stringify: true})` succeeds and returns the canonical
image of `v`: numbers keep their (integral) value, strings survive
unchanged, lists survive elementwise, and each dictionary's entries are
re-emitted in sorted key order and re-assembled by JS property
assignment; in particular at top level the decoded dictionary's entries
are a permutation of `v`'s own entries with canonical values.  (The
claim's literal `decode(encode(v)) == v` fails for a string beginning
with U+FEFF, which `TextDecoder` strips: see the counterexample.) -/
theorem C2_roundtrip (v : EncVal) (h : reprVal v = true) :
    ∃ ch : List Nat, encodeTop v = Except.ok ch ∧
      decodeTop { stringify := true } (DecodeInput.bytesInput ch) =
        Except.ok (canonW (sortDicts v)) ∧
      ∀ es : List (JSString × EncVal), v = EncVal.edict es →
        ∃ ps : List (JSString × DVal),
          canonW (sortDicts v) = DVal.ddict ps ∧
          List.Perm ps
            (es.map (fun e => (e.fst, canonW (sortDicts e.snd)))) := by
  have hrepr : reprVal (sortDicts v) = true :=
    sortDicts_repr (sizeOf v) v le_rfl h
  obtain ⟨ch, hch⟩ :=
    encodeSorted_ok (sizeOf (sortDicts v)) (sortDicts v) le_rfl hrepr
  refine ⟨ch, hch, ?_, ?_⟩
  · have hdec := rtDecode ch.length (sortDicts v) ch hrepr hch le_rfl
      [] [] 0 (4 * ch.length + 8) (by omega)
    simp only [List.nil_append, List.append_nil, List.length_nil,
      Nat.zero_add] at hdec
    rw [decodeTop]
    rw [show decoderConstruct (DecodeInput.bytesInput ch) = Except.ok ch
      from rfl]
    dsimp only
    rw [hdec]
    dsimp only
    rw [if_neg (by simp)]
  · intro es hes
    subst hes
    rw [show sortDicts (EncVal.edict es) = EncVal.edict
      (List.insertionSort (fun a b => jsStrLe a.fst b.fst = true)
        (sortDictsEntries es)) from rfl] at hrepr ⊢
    rw [show canonW (EncVal.edict
      (List.insertionSort (fun a b => jsStrLe a.fst b.fst = true)
        (sortDictsEntries es))) = DVal.ddict (canonWEntries []
      (List.insertionSort (fun a b => jsStrLe a.fst b.fst = true)
        (sortDictsEntries es))) from rfl]
    rw [show reprVal (EncVal.edict
        (List.insertionSort (fun a b => jsStrLe a.fst b.fst = true)
          (sortDictsEntries es))) =
      (reprEntries (List.insertionSort (fun a b => jsStrLe a.fst b.fst = true)
          (sortDictsEntries es)) &&
        (List.insertionSort (fun a b => jsStrLe a.fst b.fst = true)
          (sortDictsEntries es)).all (fun e => rtString e.fst)
        && decide (((List.insertionSort
            (fun a b => jsStrLe a.fst b.fst = true)
            (sortDictsEntries es)).map Prod.fst).Nodup)) from rfl] at hrepr
    simp only [Bool.and_eq_true, decide_eq_true_eq] at hrepr
    refine ⟨_, rfl, ?_⟩
    have hperm := canonWEntries_perm
      (List.insertionSort (fun a b => jsStrLe a.fst b.fst = true)
        (sortDictsEntries es)) []
      (fun e he => reprVal_not_null (reprEntries_mem hrepr.1.1 e he))
      (by rw [List.map_nil, List.nil_append]; exact hrepr.2)
    rw [List.nil_append] at hperm
    refine hperm.trans ?_
    have hp2 := (List.perm_insertionSort
      (fun a b => jsStrLe a.fst b.fst = true) (sortDictsEntries es)).map
      (fun e => (e.fst, canonW e.snd))
    refine hp2.trans ?_
    rw [sortDictsEntries_eq_map, List.map_map]
    exact List.Perm.refl _

/-- C2 witness: the dictionary `{foo: 42}` encodes to `d3:fooi42ee` and
decodes back (with `stringify`) to itself. -/
theorem C2_witness :
    ∃ ch : List Nat,
      encodeTop (EncVal.edict [([102, 111, 111],
          EncVal.enum (JSNum.fin 42))]) = Except.ok ch ∧
      decodeTop { stringify := true } (DecodeInput.bytesInput ch) =
        Except.ok (canonW (sortDicts (EncVal.edict [([102, 111, 111],
          EncVal.enum (JSNum.fin 42))]))) ∧
      ∀ es : List (JSString × EncVal),
        EncVal.edict [([102, 111, 111], EncVal.enum (JSNum.fin 42))] =
          EncVal.edict es →
        ∃ ps : List (JSString × DVal),
          canonW (sortDicts (EncVal.edict [([102, 111, 111],
            EncVal.enum (JSNum.fin 42))])) = DVal.ddict ps ∧
          List.Perm ps
            (es.map (fun e => (e.fst, canonW (sortDicts e.snd)))) :=
  C2_roundtrip
    (EncVal.edict [([102, 111, 111], EncVal.enum (JSNum.fin 42))])
    (by decide)

/-- C2 counterexample: the one-character string U+FEFF is a text string,
`encode` emits its UTF-8 bytes `EF BB BF` as a 3-byte bencode string, but
`decode(..., {stringify: true})` runs the bytes through `TextDecoder`,
which strips the leading byte-order mark: the round trip returns the
empty string, not the original value. -/
theorem C2_counterexample :
    encodeTop (EncVal.estr [0xFEFF]) =
      Except.ok [0x33, 0x3a, 0xEF, 0xBB, 0xBF] ∧
    decodeTop { stringify := true }
        (DecodeInput.bytesInput [0x33, 0x3a, 0xEF, 0xBB, 0xBF]) =
      Except.ok (DVal.dstr []) ∧
    DVal.dstr [] ≠ DVal.dstr [0xFEFF] := by
  refine ⟨rfl, rfl, ?_⟩
  intro hcontra
  injection hcontra with h2
  exact absurd h2 (by decide)


end Bencodec
